import Mathlib

/-!
# Cookie analytics of httpdump (`cookie.go`)

A shallow embedding of the cookie statistics code and the properties its
specification states about it.

Conventions of the embedding.

* A Go `int64` is a Lean `Int` between `minInt64` and `maxInt64`.  The
  `int64` operations `+`, `-` and `*` of `getHistogramBuckets` and
  `getResponseHistogram` wrap around: the exact result goes through
  `wrap64`.  `/` on `int64` is `Int.tdiv` (Go truncates toward zero); its
  divisors here are positive, so it does not overflow.  Slice indices,
  lengths and the sum of `len(c.Value)` are Go `int` values, far from the
  limits, and are plain `Nat`/`Int`.
* Go slices are Lean lists; an index outside the slice is a run-time panic
  and shows up as `Outcome.panic`.
* A loop that may run forever takes a budget of iterations; `Outcome.fuelOut`
  says the budget was used up before the loop condition became false.
* A histogram of the `hdrhistogram` package is the sequence of values handed
  to `RecordValue`, oldest first.
* A Go string is a Lean `String`, that is, valid UTF-8 text; `len(s)` is
  `String.utf8ByteSize`.
-/

namespace CookieStats

/-! ## Outcomes -/

/-- How a run of a function ends. -/
inductive Outcome (α : Type) where
  /-- The call returns `a`. -/
  | ok (a : α)
  /-- A run-time panic (index out of range, negative repeat count). -/
  | panic
  /-- The iteration budget ran out: the loop was still running. -/
  | fuelOut
  deriving DecidableEq, Repr

/-! ## Machine integers -/

/-- The least `int64` value. -/
def minInt64 : Int := -9223372036854775808

/-- The greatest `int64` value. -/
def maxInt64 : Int := 9223372036854775807

/-- The `int64` that Go keeps of the exact result `x` of `+`, `-` or `*`:
the value between `minInt64` and `maxInt64` that differs from `x` by a
multiple of `2^64` (two's complement wrap-around). -/
def wrap64 (x : Int) : Int :=
  (x + 9223372036854775808) % 18446744073709551616 - 9223372036854775808

/-! ## Bucketizer (`getHistogramBuckets`, lines 215-260) -/

/-- The `hdrhistogram.Bar` record: a closed interval of values and a count. -/
structure Bar where
  From : Int
  To : Int
  Count : Int
  deriving DecidableEq, Repr

/-- The `Bucket` record of lines 283-286. -/
structure Bucket where
  Mark : Int
  Count : Int
  deriving DecidableEq, Repr

/-- Lines 217-225: the slice `buckets` after the marks have been written.
`bc` is 10, `bs := (max - min) / bc`, `buckets[i] = min + bs*i` for
`i < bc`, and `buckets[bc] = max`; the subtraction, the product and the sum
are `int64` operations. -/
def bucketMarks (min max : Int) : List Int :=
  let bs := Int.tdiv (wrap64 (max - min)) 10
  (List.range 10).map (fun (i : Nat) => wrap64 (min + wrap64 (bs * (i : Int)))) ++ [max]

/-- The statement `counts[k] += c`, an `int64` addition; `none` when `k` is
out of range. -/
def addAt (counts : List Int) (k : Nat) (c : Int) : Option (List Int) :=
  match counts[k]? with
  | some v => some (counts.set k (wrap64 (v + c)))
  | none => none

/-- The variables of the loop of lines 231-249. -/
structure Scan where
  /-- The bar cursor `i`. -/
  i : Nat
  /-- The bucket cursor `bi`. -/
  bi : Nat
  /-- The slice `counts`. -/
  counts : List Int
  deriving DecidableEq, Repr

/-- One run of the loop body, lines 233-248; `none` is an index panic. -/
def scanStep (bars : List Bar) (buckets : List Int) (s : Scan) : Option Scan :=
  match bars[s.i]?, buckets[s.bi]? with
  | some b, some m =>
    if b.From ≥ m ∧ b.To ≤ m then
      (addAt s.counts s.bi b.Count).map (fun cs => { s with i := s.i + 1, counts := cs })
    else if b.From ≤ m then
      let id : Nat := if (s.bi : Int) - 1 < 0 then 0 else s.bi - 1
      (addAt s.counts id b.Count).map (fun cs => { s with i := s.i + 1, counts := cs })
    else if s.bi < buckets.length - 1 then
      some { s with bi := s.bi + 1 }
    else
      some s
  | _, _ => none

/-- The loop `for i := 0; i < len(bars)-1; { ... }` run for at most `fuel`
iterations from state `s`; it returns the final `counts`. -/
def scanLoop (bars : List Bar) (buckets : List Int) : Nat → Scan → Outcome (List Int)
  | 0, s => if s.i < bars.length - 1 then .fuelOut else .ok s.counts
  | fuel + 1, s =>
    if s.i < bars.length - 1 then
      match scanStep bars buckets s with
      | some s1 => scanLoop bars buckets fuel s1
      | none => .panic
    else .ok s.counts

/-- The loop variables when the loop is entered: `i = 0`, `bi = 0` (line
231) and `counts` all zero except `counts[bc]`, set at line 226 to the
count of the last bar. -/
def scanStart (lastCount : Int) : Scan :=
  { i := 0, bi := 0, counts := (List.replicate 11 (0 : Int)).set 10 lastCount }

/-- The function `getHistogramBuckets(bars, min, max)`, its loop run with a
budget of `fuel` iterations.  `bars[len(bars)-1]` panics on an empty
slice. -/
def getHistogramBuckets (fuel : Nat) (bars : List Bar) (min max : Int) :
    Outcome (List Bucket) :=
  let buckets := bucketMarks min max
  match bars.getLast? with
  | none => .panic
  | some last =>
    match scanLoop bars buckets fuel (scanStart last.Count) with
    | .ok cs => .ok (List.zipWith Bucket.mk buckets cs)
    | .panic => .panic
    | .fuelOut => .fuelOut

/-- Sum of the `Count` fields of a bar sequence. -/
def barTotal (bars : List Bar) : Int := (bars.map Bar.Count).sum

/-- Sum of the `Count` fields of a bucket sequence. -/
def bucketTotal (bs : List Bucket) : Int := (bs.map Bucket.Count).sum

/-- What the loop keeps true of its variables: the bucket cursor stays inside
the 11 marks and `counts` keeps its 11 entries. -/
def ScanInv (s : Scan) : Prop := s.bi ≤ 10 ∧ s.counts.length = 11

/-- Total count of the bars the scan has not consumed yet, from bar cursor
`i` on (the last bar is never scanned). -/
def pending (bars : List Bar) (i : Nat) : Int := barTotal (bars.dropLast.drop i)

/-! ## Renderer (`getResponseHistogram`, lines 262-281) -/

/-- The string `barChar` of line 263, as the source file spells it. -/
def barChar : String := "\u00e2\u2013\u00a0"

/-- Lines 264-269: `maxCount` starts at 0 and is raised by every bucket with
a larger count. -/
def maxCountOf (buckets : List Bucket) : Int :=
  buckets.foldl (fun maxCount b => if b.Count > maxCount then b.Count else maxCount) 0

/-- Lines 273-276: `barLen` of one bucket; the product and the sum are
`int64` operations. -/
def barLen (maxCount : Int) (b : Bucket) : Int :=
  if maxCount > 0 then
    Int.tdiv (wrap64 (wrap64 (b.Count * 40) + Int.tdiv maxCount 2)) maxCount
  else 0

/-- Go's `strings.Repeat(s, count)`: `count` copies of `s`; a negative count
panics (`none`). -/
def stringsRepeat (s : String) (count : Int) : Option String :=
  if count < 0 then none else some (String.join (List.replicate count.toNat s))

/-- One line of the histogram: the three arguments given to
`fmt.Sprintf("%10d [%10d]\t|%v\n", ...)` at line 277. -/
structure Line where
  Mark : Int
  Count : Int
  /-- The drawn bar, `strings.Repeat(barChar, int(barLen))`. -/
  bar : String
  deriving DecidableEq, Repr

/-- The loop of lines 272-278 over the buckets that are left. -/
def renderLines (maxCount : Int) : List Bucket → Outcome (List Line)
  | [] => .ok []
  | b :: rest =>
    match stringsRepeat barChar (barLen maxCount b) with
    | none => .panic
    | some bar =>
      match renderLines maxCount rest with
      | .ok ls => .ok ({ Mark := b.Mark, Count := b.Count, bar := bar } :: ls)
      | .panic => .panic
      | .fuelOut => .fuelOut

/-- The function `getResponseHistogram(buckets)`, its text kept as the list
of its lines. -/
def getResponseHistogram (buckets : List Bucket) : Outcome (List Line) :=
  renderLines (maxCountOf buckets) buckets

/-! ## `printHistogram`, lines 192-213 -/

/-- What `printHistogram` writes to standard output. -/
inductive Printed where
  /-- Nothing: the early return of line 202. -/
  | nothing
  /-- The line "No histogram buckets" of line 207. -/
  | noBuckets
  /-- The title and the histogram text, lines 211-212. -/
  | histogram (title : String) (lines : List Line)
  deriving DecidableEq, Repr

/-- The function `printHistogram(title, hdrhist)`; the histogram is given by
what `Distribution()`, `Min()` and `Max()` return. -/
def printHistogram (fuel : Nat) (title : String) (distribution : List Bar)
    (hmin hmax : Int) : Outcome Printed :=
  let bars := distribution.filter (fun v => v.Count > 0)
  if bars.length = 0 then .ok .nothing
  else
    match getHistogramBuckets fuel bars hmin hmax with
    | .panic => .panic
    | .fuelOut => .fuelOut
    | .ok buckets =>
      if buckets.length = 0 then .ok .noBuckets
      else
        match getResponseHistogram buckets with
        | .ok ls => .ok (.histogram title ls)
        | .panic => .panic
        | .fuelOut => .fuelOut

/-! ## Key normalizer (`normalizeCookieName`, lines 42-49 and 98-107)

Go strings are modelled by Lean strings, read as lists of characters: the
`regexp` package works rune by rune.  The three patterns are compiled with
the default flags, so `.` matches every character except the newline, `^`
matches only at the start of the text and `$` only at its end.  Each of
the three patterns ends in `$`: a match always runs to the end of the text,
and there is at most one match to replace. -/

/-- `re.ReplaceAllString(text, template)` for a pattern that ends in `$`.
The search is leftmost-first: start positions are tried from left to right.
`tryAt atStart rest` tries the pattern at one position, where `rest` is the
text from that position on and `atStart` says the position is the start of
the text; it gives the expanded template when the pattern matches there.
The match consumes all of `rest`; text before it is copied. -/
def replaceAll (tryAt : Bool → List Char → Option (List Char)) :
    Bool → List Char → List Char
  | atStart, [] =>
    match tryAt atStart [] with
    | some out => out
    | none => []
  | atStart, c :: cs =>
    match tryAt atStart (c :: cs) with
    | some out => out
    | none => c :: replaceAll tryAt false cs

/-- The class `.` under the default flags: any character but the newline. -/
def isDot (c : Char) : Bool := c != '\n'

/-- The class `[A-Z_]`. -/
def isCat (c : Char) : Bool := c.isUpper || c == '_'

/-- The literal `_reload` of `nameRegex`. -/
def reloadToken : List Char := ['_', 'r', 'e', 'l', 'o', 'a', 'd']

/-- The literal `_BEAMER_` of `beamerRegex`. -/
def beamerPrefix : List Char := ['_', 'B', 'E', 'A', 'M', 'E', 'R', '_']

/-- The pattern `\.[0-9]+$` (`digitRegex`, line 46) tried at one position,
with the template `.*` of line 102 (no `$`, so it is copied as it is). -/
def digitRegexAt (_atStart : Bool) (rest : List Char) : Option (List Char) :=
  match rest with
  | c :: d :: ds =>
    if c = '.' ∧ d.isDigit = true ∧ ds.all Char.isDigit = true then some ['.', '*'] else none
  | _ => none

/-- Whether `.*(_reload)$` matches all of `rest`: either `.*` stops here and
`rest` is `_reload`, or `.*` takes one more character that is not a
newline. -/
def nameRegexMatches : List Char → Bool
  | [] => false
  | c :: cs => (c :: cs == reloadToken) || (isDot c && nameRegexMatches cs)

/-- The pattern `.*(_reload)$` (`nameRegex`, line 47) tried at one position,
with the template `*$1` of line 103; group 1 is always `_reload`. -/
def nameRegexAt (_atStart : Bool) (rest : List Char) : Option (List Char) :=
  if nameRegexMatches rest then some ('*' :: reloadToken) else none

/-- The text left after the literal `lit`, when the text starts with it. -/
def afterLiteral : List Char → List Char → Option (List Char)
  | [], text => some text
  | _ :: _, [] => none
  | l :: ls, c :: cs => if l = c then afterLiteral ls cs else none

/-- Whether the part `_.*?$` of `beamerRegex` matches all of `rest`: a `_`,
and then `.*?` has to take every remaining character up to the end of the
text, none of which may be a newline. -/
def beamerTailMatches : List Char → Bool
  | [] => false
  | u :: tail => u == '_' && tail.all isDot

/-- The part `([A-Z_]+)_.*?$` of `beamerRegex` matched against all of `rest`;
the result is what group 2 captures.  The repetition `[A-Z_]+` is greedy:
after a character of the class it first tries to go on, and only when that
fails it stops, and then `_.*?$` must match the remaining text. -/
def beamerCategory : List Char → Option (List Char)
  | [] => none
  | c :: cs =>
    if isCat c then
      match beamerCategory cs with
      | some cat => some (c :: cat)
      | none => if beamerTailMatches cs then some [c] else none
    else none

/-- The pattern `^(_BEAMER_)([A-Z_]+)_.*?$` (`beamerRegex`, line 48) tried at
one position, with the template `$1$2*` of line 104. -/
def beamerRegexAt (atStart : Bool) (rest : List Char) : Option (List Char) :=
  if atStart then
    match afterLiteral beamerPrefix rest with
    | some r => (beamerCategory r).map (fun cat => beamerPrefix ++ cat ++ ['*'])
    | none => none
  else none

/-- The body of `normalizeCookieName` on the characters of the name. -/
def normalizeChars (c : List Char) : List Char :=
  let n := replaceAll digitRegexAt true c
  let n := replaceAll nameRegexAt true n
  let n := replaceAll beamerRegexAt true n
  n

/-- The function `normalizeCookieName(c)`. -/
def normalizeCookieName (c : String) : String := String.mk (normalizeChars c.data)

/-! ## Metric store (lines 17-35 and 109-129)

A Go map is an association list with at most one entry for a key; the order
of the entries stands for one of the orders in which `range` may visit the
map. -/

/-- The two fields of `httpport.Cookie` that the code reads. -/
structure Cookie where
  Name : String
  Value : String
  deriving DecidableEq, Repr

/-- A histogram: the values handed to `RecordValue`, oldest first. -/
abbrev Histogram := List Int

/-- The type `map[string]*hdrhistogram.Histogram`. -/
abbrev Metrics := List (String × Histogram)

/-- The map read `m[n]` with its `ok` flag. -/
def mapGet {β : Type} : List (String × β) → String → Option β
  | [], _ => none
  | (k, v) :: rest, n => if k = n then some v else mapGet rest n

/-- The map write `m[n] = v`. -/
def mapSet {β : Type} : List (String × β) → String → β → List (String × β)
  | [], n, v => [(n, v)]
  | (k, w) :: rest, n, v => if k = n then (n, v) :: rest else (k, w) :: mapSet rest n v

/-- The keys of a map. -/
def mapKeys {β : Type} (m : List (String × β)) : List String := m.map Prod.fst

/-- The struct `ck` of lines 32-35: one observation. -/
structure ck where
  req : List Cookie
  resp : List Cookie
  deriving DecidableEq, Repr

/-- The package variables of lines 21-24 that the aggregation loop owns. -/
structure Stats where
  reqMetrics : Metrics
  respMetrics : Metrics
  allCountMetrics : Histogram
  allSizeMetrics : Histogram
  deriving DecidableEq, Repr

/-- One run of the loop body of `processCookies`, lines 111-116. -/
def recordCookie (metrics : Metrics) (c : Cookie) : Metrics :=
  let n := normalizeCookieName c.Name
  let metrics := if (mapGet metrics n).isNone then mapSet metrics n [] else metrics
  match mapGet metrics n with
  | some h => mapSet metrics n (h ++ [(c.Value.utf8ByteSize : Int)])
  | none => metrics

/-- The function `processCookies(metrics, cookies)`. -/
def processCookies (metrics : Metrics) (cookies : List Cookie) : Metrics :=
  cookies.foldl recordCookie metrics

/-- Lines 121-124 of `processGlobal`: the summed `len(c.Value)`. -/
def cookiesSize (cookies : List Cookie) : Int :=
  cookies.foldl (fun size c => size + (c.Value.utf8ByteSize : Int)) 0

/-- The function `processGlobal(cookies)` on the two global histograms. -/
def processGlobal (st : Stats) (cookies : List Cookie) : Stats :=
  let size := cookiesSize cookies
  if size > 0 then
    { st with
      allSizeMetrics := st.allSizeMetrics ++ [size]
      allCountMetrics := st.allCountMetrics ++ [(cookies.length : Int)] }
  else st

/-- The aggregation step, lines 60-64: what the loop does with one
observation `c` taken from `cookiesChan`. -/
def handleObservation (st : Stats) (c : ck) : Stats :=
  let st := { st with reqMetrics := processCookies st.reqMetrics c.req }
  let st := { st with respMetrics := processCookies st.respMetrics c.resp }
  processGlobal st c.req

/-- The function `printStatsClientSide` (lines 153-172) on the two stores:
the records appended to the table, or `none` when it returns at line 155
without making a table. -/
def printStatsClientSide (reqMetrics respMetrics : Metrics) : Option (List (List String)) :=
  if reqMetrics.length = 0 ∨ respMetrics.length = 0 then none
  else
    let clientSide : List (String × Bool) :=
      reqMetrics.foldl
        (fun clientSide e =>
          if (mapGet respMetrics e.1).isNone then mapSet clientSide e.1 true else clientSide)
        []
    some (clientSide.map (fun e => [e.1]))

/-- The names that `printStatsClientSide` lists: the cells of the records it
appends, none when no table is made. -/
def clientSideNames (reqMetrics respMetrics : Metrics) : List String :=
  match printStatsClientSide reqMetrics respMetrics with
  | some records => records.flatten
  | none => []

/-! ## Ingress and the aggregation loop (lines 17-19 and 51-96)

The channel `cookiesChan` is its buffer, a list of at most
`cookiesChanCap` observations, oldest first.  The unbuffered channel
`statsCmd` is the command, if any, that a sender is waiting to hand over.
What the loop prints is not part of the state. -/

/-- The capacity of `cookiesChan`, line 19. -/
def cookiesChanCap : Nat := 10000

/-- The function `cookieAnalyticsHandler(req, resp)`, given the cookie lists
of the request and of the response, while no receiver is waiting on
`cookiesChan`: the send case of the `select` is ready exactly when the buffer
is not full, otherwise the `default` case runs.  The result is the buffer
after the call and the text printed, if any. -/
def cookieAnalyticsHandler (queue : List ck) (req resp : List Cookie) :
    List ck × Option String :=
  if req.length = 0 ∧ resp.length = 0 then (queue, none)
  else if queue.length < cookiesChanCap then (queue ++ [{ req := req, resp := resp }], none)
  else (queue, some "Warning: dropping cookie metrics")

/-- One call of `cookieAnalyticsHandler` for each observation of `obs`, in
order, with nothing taken from the buffer in between. -/
def submitAll (queue : List ck) (obs : List ck) : List ck :=
  obs.foldl (fun q o => (cookieAnalyticsHandler q o.req o.resp).1) queue

/-- The commands of lines 37-40. -/
inductive StatsCmd where
  | statsCmdReport
  | statsCmdQuit
  deriving DecidableEq, Repr

/-- The two receive cases of the `select` of line 59.  When both channels are
ready, Go takes one of the two at random; a `Pick` is that choice. -/
inductive Pick where
  /-- The case `c := <-cookiesChan`. -/
  | observation
  /-- The case `c := <-statsCmd`. -/
  | command
  deriving DecidableEq, Repr

/-- The state that the goroutine of lines 55-75 works on. -/
structure Loop where
  /-- The metric store. -/
  stats : Stats
  /-- The buffer of `cookiesChan`, oldest first. -/
  queue : List ck
  /-- The command that a sender is blocked on handing over, if any. -/
  cmd : Option StatsCmd
  /-- The goroutine has returned (line 71) and `statsWg.Done()` has run. -/
  returned : Bool
  deriving DecidableEq, Repr

/-- Lines 60-64: the loop takes the observation `c` from the buffer. -/
def takeObservation (l : Loop) (c : ck) (rest : List ck) : Loop :=
  { l with stats := handleObservation l.stats c, queue := rest }

/-- Lines 66-72: the loop takes the command `c` from `statsCmd`.  The report
command prints and changes nothing; the quit command returns. -/
def takeCommand (l : Loop) (c : StatsCmd) : Loop :=
  match c with
  | .statsCmdReport => { l with cmd := none }
  | .statsCmdQuit => { l with cmd := none, returned := true }

/-- One iteration of the loop of lines 58-74.  With one channel ready the
`select` takes it, with both ready it takes the one that `pick` names, and
with none ready it waits (the state stays as it is). -/
def loopStep (pick : Pick) (l : Loop) : Loop :=
  if l.returned then l
  else
    match l.queue, l.cmd with
    | [], none => l
    | c :: rest, none => takeObservation l c rest
    | [], some k => takeCommand l k
    | c :: rest, some k =>
      match pick with
      | .observation => takeObservation l c rest
      | .command => takeCommand l k

/-- The loop run along a schedule: one iteration for each pick. -/
def runLoop (picks : List Pick) (l : Loop) : Loop :=
  picks.foldl (fun l p => loopStep p l) l

/-- The function `cookieAnalyticsFinish()`, lines 93-96, called in the state
`l` with the loop running along `picks`: the quit command is offered on
`statsCmd`, and `statsWg.Wait()` returns once the goroutine has returned.
The result is the state at that moment; `none` says that the schedule ends
with the call still waiting. -/
def cookieAnalyticsFinish (picks : List Pick) (l : Loop) : Option Loop :=
  let l1 := runLoop picks { l with cmd := some .statsCmdQuit }
  if l1.returned then some l1 else none

/-! ## Placement of a bar, in the words of the specification

The next three definitions are not taken from the code: they spell out the
placement rule that the specification states, to be compared with what the
scan of `getHistogramBuckets` computes. -/

/-- The least index `j` with `v <= marks[j]`; the number of marks when no
mark is that large. -/
def specLeastIndex (marks : List Int) (v : Int) : Nat :=
  marks.findIdx (fun m => decide (v ≤ m))

/-- The bucket index `idx(b)`: with `j` the least index such that
`b.From <= marks[j]`, it is `j` when `b.From = b.To = marks[j]` and
`max(j - 1, 0)` otherwise. -/
def specIdx (marks : List Int) (b : Bar) : Nat :=
  let j := specLeastIndex marks b.From
  if marks[j]? = some b.From ∧ b.To = b.From then j else j - 1

/-- The count of bucket `k`: the counts of the bars other than the last
whose index is `k`, plus the count of the last bar when `k = 10`. -/
def specCount (marks : List Int) (bars : List Bar) (k : Nat) : Int :=
  barTotal (bars.dropLast.filter (fun b => decide (specIdx marks b = k))) +
    (if k = 10 then
      match bars.getLast? with
      | some last => last.Count
      | none => 0
    else 0)

/-- What the scan keeps true between iterations: the cursor is within the
marks, entry `k` of `counts` is, in `int64` arithmetic, its seed plus the
counts of the consumed bars whose index is `k`, and every mark before the
cursor is below the start of the bar under the bar cursor. -/
def PlaceInv (bars : List Bar) (marks : List Int) (seed : Int) (s : Scan) : Prop :=
  s.bi ≤ 10 ∧ s.counts.length = 11 ∧
  (∀ k : Nat, k ≤ 10 → s.counts[k]? =
    some (wrap64 ((if k = 10 then seed else 0) +
      barTotal ((bars.dropLast.take s.i).filter (fun x => decide (specIdx marks x = k)))))) ∧
  (∀ b : Bar, bars[s.i]? = some b → s.i < bars.length - 1 →
    ∀ (j : Nat) (x : Int), j < s.bi → marks[j]? = some x → x < b.From)

/-! # Theorems -/

/-! ## Machine integers -/

theorem wrap64_of_range (x : Int) (h1 : minInt64 ≤ x) (h2 : x ≤ maxInt64) : wrap64 x = x := by
  unfold minInt64 at h1
  unfold maxInt64 at h2
  unfold wrap64
  omega

theorem wrap64_range (x : Int) : minInt64 ≤ wrap64 x ∧ wrap64 x ≤ maxInt64 := by
  unfold minInt64 maxInt64 wrap64
  omega

theorem wrap64_add_left (a c : Int) : wrap64 (wrap64 a + c) = wrap64 (a + c) := by
  unfold wrap64
  omega

theorem wrap64_congr_add (a b p : Int) (h : wrap64 a = wrap64 b) :
    wrap64 (a + p) = wrap64 (b + p) := by
  unfold wrap64 at *
  omega

theorem sum_nonneg_of_mem (cs : List Int) (hnn : ∀ v ∈ cs, 0 ≤ v) : 0 ≤ cs.sum := by
  induction cs with
  | nil => simp
  | cons x xs ih =>
    have hx := hnn x (List.mem_cons_self x xs)
    have hxs := ih (fun v hv => hnn v (List.mem_cons_of_mem x hv))
    rw [List.sum_cons]
    omega

/-- An entry of a list of non-negative integers is at most their sum. -/
theorem le_sum_of_mem (cs : List Int) (hnn : ∀ v ∈ cs, 0 ≤ v) (x : Int) (hx : x ∈ cs) :
    x ≤ cs.sum := by
  induction cs with
  | nil => simp at hx
  | cons y ys ih =>
    have hy := hnn y (List.mem_cons_self y ys)
    have hys := sum_nonneg_of_mem ys (fun v hv => hnn v (List.mem_cons_of_mem y hv))
    rw [List.sum_cons]
    rcases List.mem_cons.mp hx with h | h
    · rw [h]; omega
    · have := ih (fun v hv => hnn v (List.mem_cons_of_mem y hv)) h
      omega

/-! ## Bucketizer: the scan loop -/

theorem bucketMarks_length (mn mx : Int) : (bucketMarks mn mx).length = 11 := by
  simp only [bucketMarks, List.length_append, List.length_map, List.length_range, List.length_singleton]

theorem addAt_some (cs : List Int) (k : Nat) (h : k < cs.length) (c : Int) :
    ∃ cs1, addAt cs k c = some cs1 := by
  unfold addAt
  rw [List.getElem?_eq_getElem h]
  exact ⟨_, rfl⟩

theorem addAt_length {cs cs1 : List Int} {k : Nat} {c : Int}
    (h : addAt cs k c = some cs1) : cs1.length = cs.length := by
  unfold addAt at h
  split at h
  · cases h; simp
  · cases h

theorem sum_set_add (cs : List Int) (k : Nat) (v c : Int) (h : cs[k]? = some v) :
    (cs.set k (v + c)).sum = cs.sum + c := by
  induction cs generalizing k with
  | nil => simp at h
  | cons x xs ih =>
    cases k with
    | zero =>
      simp at h
      subst h
      simp [List.set]
      ring
    | succ k =>
      simp at h
      simp [List.set, ih k h]
      ring

theorem sum_set_eq (cs : List Int) (k : Nat) (v x : Int) (h : cs[k]? = some v) :
    (cs.set k x).sum = cs.sum - v + x := by
  have h1 := sum_set_add cs k v (x - v) h
  have h2 : v + (x - v) = x := by omega
  rw [h2] at h1
  omega

/-- In `int64` arithmetic `counts[k] += c` raises the sum of `counts` by
`c`. -/
theorem addAt_sum {cs cs1 : List Int} {k : Nat} {c : Int}
    (h : addAt cs k c = some cs1) : wrap64 cs1.sum = wrap64 (cs.sum + c) := by
  unfold addAt at h
  split at h
  · rename_i v hv
    cases h
    rw [sum_set_eq cs k v _ hv]
    unfold wrap64
    omega
  · cases h

/-- The statement `counts[k] += c` on non-negative entries, when the sum
with `c` stays within `int64`: nothing wraps around, the sum grows by `c`
and no entry falls. -/
theorem addAt_exact {cs cs1 : List Int} {k : Nat} {c : Int}
    (h : addAt cs k c = some cs1) (hnn : ∀ v ∈ cs, 0 ≤ v) (hc : 0 ≤ c)
    (hsum : cs.sum + c ≤ maxInt64) :
    cs1.sum = cs.sum + c ∧ (∀ v ∈ cs1, 0 ≤ v) ∧
      ∀ (j : Nat) (v : Int), cs[j]? = some v → ∃ v1, cs1[j]? = some v1 ∧ v ≤ v1 := by
  unfold addAt at h
  split at h
  · rename_i w hw
    cases h
    have hw0 : 0 ≤ w := hnn w (List.getElem?_mem hw)
    have hws : w ≤ cs.sum := le_sum_of_mem cs hnn w (List.getElem?_mem hw)
    have hwr : wrap64 (w + c) = w + c :=
      wrap64_of_range _ (by unfold minInt64; omega) (by omega)
    rw [hwr]
    refine ⟨sum_set_add cs k w c hw, ?_, ?_⟩
    · intro v hv
      rcases List.mem_or_eq_of_mem_set hv with hin | heq
      · exact hnn v hin
      · omega
    · intro j v hv
      rw [List.getElem?_set]
      by_cases hkj : k = j
      · subst hkj
        rw [hv] at hw
        cases hw
        have hlt : k < cs.length := by
          rcases Nat.lt_or_ge k cs.length with h | h
          · exact h
          · rw [List.getElem?_eq_none h] at hv
            cases hv
        rw [if_pos rfl, if_pos hlt]
        exact ⟨_, rfl, by omega⟩
      · rw [if_neg hkj]
        exact ⟨v, hv, le_refl v⟩
  · cases h

theorem pending_step (bars : List Bar) (i : Nat) (b : Bar) (hi : i < bars.length - 1)
    (hb : bars[i]? = some b) : pending bars i = b.Count + pending bars (i + 1) := by
  unfold pending barTotal
  have hlen : i < bars.dropLast.length := by simpa using hi
  have hget : bars.dropLast[i] = b := by
    have h1 : bars.dropLast[i]? = some b := by
      rw [List.dropLast_eq_take, List.getElem?_take_of_lt hi]
      exact hb
    rw [List.getElem?_eq_getElem hlen] at h1
    exact Option.some.inj h1
  rw [List.drop_eq_getElem_cons hlen, hget]
  simp

theorem pending_done (bars : List Bar) (i : Nat) (hi : ¬ i < bars.length - 1) :
    pending bars i = 0 := by
  unfold pending barTotal
  have : bars.dropLast.drop i = [] := by
    apply List.drop_eq_nil_of_le
    simp
    omega
  simp [this]

/-- One iteration from a state satisfying the invariant does not panic,
keeps the invariant and keeps `sum counts + pending` in `int64`
arithmetic. -/
theorem scanStep_inv (bars : List Bar) (buckets : List Int) (s : Scan)
    (hb : buckets.length = 11) (hs : ScanInv s) (hi : s.i < bars.length - 1) :
    ∃ s1, scanStep bars buckets s = some s1 ∧ ScanInv s1 ∧
      wrap64 (s1.counts.sum + pending bars s1.i) =
        wrap64 (s.counts.sum + pending bars s.i) := by
  obtain ⟨hbi, hc⟩ := hs
  have hi2 : s.i < bars.length := by omega
  have hbi2 : s.bi < buckets.length := by omega
  have hbar : bars[s.i]? = some bars[s.i] := List.getElem?_eq_getElem hi2
  have hm : buckets[s.bi]? = some buckets[s.bi] := List.getElem?_eq_getElem hbi2
  have hp := pending_step bars s.i _ hi hbar
  unfold scanStep
  rw [hbar, hm]
  simp only
  by_cases h1 : bars[s.i].From ≥ buckets[s.bi] ∧ bars[s.i].To ≤ buckets[s.bi]
  · rw [if_pos h1]
    obtain ⟨cs1, hcs⟩ := addAt_some s.counts s.bi (by omega) bars[s.i].Count
    rw [hcs]
    refine ⟨_, rfl, ⟨hbi, ?_⟩, ?_⟩
    · simpa [addAt_length hcs] using hc
    · show wrap64 (cs1.sum + pending bars (s.i + 1)) = _
      rw [wrap64_congr_add _ _ _ (addAt_sum hcs), hp]
      congr 1
      ring
  · rw [if_neg h1]
    by_cases h2 : bars[s.i].From ≤ buckets[s.bi]
    · rw [if_pos h2]
      have hk : (if (s.bi : Int) - 1 < 0 then 0 else s.bi - 1) < s.counts.length := by
        split_ifs <;> omega
      obtain ⟨cs1, hcs⟩ := addAt_some _ _ hk bars[s.i].Count
      rw [hcs]
      refine ⟨_, rfl, ⟨hbi, ?_⟩, ?_⟩
      · simpa [addAt_length hcs] using hc
      · show wrap64 (cs1.sum + pending bars (s.i + 1)) = _
        rw [wrap64_congr_add _ _ _ (addAt_sum hcs), hp]
        congr 1
        ring
    · rw [if_neg h2]
      by_cases h3 : s.bi < buckets.length - 1
      · rw [if_pos h3]
        refine ⟨_, rfl, ⟨?_, hc⟩, rfl⟩
        show s.bi + 1 ≤ 10
        omega
      · rw [if_neg h3]
        exact ⟨_, rfl, ⟨hbi, hc⟩, rfl⟩

/-- If the loop returns, the returned counts have length 11 and their sum
is, in `int64` arithmetic, the sum at the start plus the counts of the bars
still to be scanned. -/
theorem scanLoop_sum (bars : List Bar) (buckets : List Int) (hb : buckets.length = 11) :
    ∀ (fuel : Nat) (s : Scan) (cs : List Int), ScanInv s →
      scanLoop bars buckets fuel s = .ok cs →
      cs.length = 11 ∧ wrap64 cs.sum = wrap64 (s.counts.sum + pending bars s.i) := by
  intro fuel
  induction fuel with
  | zero =>
    intro s cs hs h
    unfold scanLoop at h
    split_ifs at h with hi
    cases h
    exact ⟨hs.2, by simp [pending_done bars s.i hi]⟩
  | succ n ih =>
    intro s cs hs h
    unfold scanLoop at h
    split_ifs at h with hi
    · obtain ⟨s1, h1, hinv, hsum⟩ := scanStep_inv bars buckets s hb hs hi
      rw [h1] at h
      obtain ⟨hl, hsm⟩ := ih s1 cs hinv h
      exact ⟨hl, by rw [hsm, hsum]⟩
    · cases h
      exact ⟨hs.2, by simp [pending_done bars s.i hi]⟩

theorem scanStart_inv (lastCount : Int) : ScanInv (scanStart lastCount) :=
  ⟨by simp [scanStart], by simp [scanStart]⟩

theorem bucketMarks_last (mn mx : Int) : (bucketMarks mn mx)[10]? = some mx := by
  rfl

theorem mem_dropLast_of_lt (bars : List Bar) (i : Nat) (hi : i < bars.length - 1) :
    ∃ b, bars[i]? = some b ∧ b ∈ bars.dropLast := by
  have hi2 : i < bars.length := by omega
  refine ⟨bars[i], List.getElem?_eq_getElem hi2, ?_⟩
  have hlen : i < bars.dropLast.length := by simpa using hi
  have h1 : bars.dropLast[i]? = some bars[i] := by
    rw [List.dropLast_eq_take, List.getElem?_take_of_lt hi]
    exact List.getElem?_eq_getElem hi2
  exact List.getElem?_mem h1

/-- When the bar under the cursor starts at or before `max`, an iteration
consumes the bar or moves the bucket cursor, which stays at most 10. -/
theorem scanStep_progress (bars : List Bar) (mn mx : Int) (s : Scan)
    (hs : ScanInv s) (hi : s.i < bars.length - 1)
    (hpre : ∀ b ∈ bars.dropLast, b.From ≤ mx) :
    ∃ s1, scanStep bars (bucketMarks mn mx) s = some s1 ∧ ScanInv s1 ∧
      ((s1.i = s.i + 1 ∧ s1.bi = s.bi) ∨ (s1.i = s.i ∧ s1.bi = s.bi + 1 ∧ s.bi < 10)) := by
  obtain ⟨hbi, hc⟩ := hs
  obtain ⟨b, hbar, hmem⟩ := mem_dropLast_of_lt bars s.i hi
  have hb := bucketMarks_length mn mx
  have hbi2 : s.bi < (bucketMarks mn mx).length := by omega
  have hm : (bucketMarks mn mx)[s.bi]? = some (bucketMarks mn mx)[s.bi] :=
    List.getElem?_eq_getElem hbi2
  unfold scanStep
  rw [hbar, hm]
  simp only
  by_cases h1 : b.From ≥ (bucketMarks mn mx)[s.bi] ∧ b.To ≤ (bucketMarks mn mx)[s.bi]
  · rw [if_pos h1]
    obtain ⟨cs1, hcs⟩ := addAt_some s.counts s.bi (by omega) b.Count
    rw [hcs]
    refine ⟨_, rfl, ⟨hbi, ?_⟩, Or.inl ⟨rfl, rfl⟩⟩
    simpa [addAt_length hcs] using hc
  · rw [if_neg h1]
    by_cases h2 : b.From ≤ (bucketMarks mn mx)[s.bi]
    · rw [if_pos h2]
      have hk : (if (s.bi : Int) - 1 < 0 then 0 else s.bi - 1) < s.counts.length := by
        split_ifs <;> omega
      obtain ⟨cs1, hcs⟩ := addAt_some _ _ hk b.Count
      rw [hcs]
      refine ⟨_, rfl, ⟨hbi, ?_⟩, Or.inl ⟨rfl, rfl⟩⟩
      simpa [addAt_length hcs] using hc
    · rw [if_neg h2]
      have hlt : s.bi < 10 := by
        rcases Nat.lt_or_ge s.bi 10 with h | h
        · exact h
        · exfalso
          have h10 : s.bi = 10 := by omega
          have hmx : (bucketMarks mn mx)[s.bi]? = some mx := by
            rw [h10]; exact bucketMarks_last mn mx
          rw [hm] at hmx
          have := Option.some.inj hmx
          rw [this] at h2
          exact h2 (hpre b hmem)
      have h3 : s.bi < (bucketMarks mn mx).length - 1 := by omega
      rw [if_pos h3]
      refine ⟨_, rfl, ⟨?_, hc⟩, Or.inr ⟨rfl, rfl, hlt⟩⟩
      show s.bi + 1 ≤ 10
      omega

/-- Under the precondition the loop returns once the budget covers the bars
left plus the bucket marks left. -/
theorem scanLoop_returns (bars : List Bar) (mn mx : Int)
    (hpre : ∀ b ∈ bars.dropLast, b.From ≤ mx) :
    ∀ (fuel : Nat) (s : Scan), ScanInv s →
      (bars.length - 1 - s.i) + (10 - s.bi) ≤ fuel →
      ∃ cs, scanLoop bars (bucketMarks mn mx) fuel s = .ok cs := by
  intro fuel
  induction fuel with
  | zero =>
    intro s _ hf
    unfold scanLoop
    have : ¬ s.i < bars.length - 1 := by omega
    rw [if_neg this]
    exact ⟨_, rfl⟩
  | succ n ih =>
    intro s hs hf
    unfold scanLoop
    by_cases hi : s.i < bars.length - 1
    · rw [if_pos hi]
      obtain ⟨s1, h1, hinv, hprog⟩ := scanStep_progress bars mn mx s hs hi hpre
      rw [h1]
      apply ih s1 hinv
      have := hs.1
      rcases hprog with ⟨ha, hb⟩ | ⟨ha, hb, hc⟩ <;> omega
    · rw [if_neg hi]
      exact ⟨_, rfl⟩

theorem bucketTotal_zipWith (ms : List Int) (cs : List Int) (h : ms.length = cs.length) :
    bucketTotal (List.zipWith Bucket.mk ms cs) = cs.sum := by
  unfold bucketTotal
  induction ms generalizing cs with
  | nil =>
    cases cs with
    | nil => rfl
    | cons c cs => simp at h
  | cons m ms ih =>
    cases cs with
    | nil => simp at h
    | cons c cs =>
      simp only [List.length_cons, Nat.succ.injEq, add_left_inj] at h
      simp [List.zipWith, ih cs h]

theorem barTotal_getLast (bars : List Bar) (last : Bar) (h : bars.getLast? = some last) :
    barTotal bars = last.Count + pending bars 0 := by
  unfold pending barTotal
  have hne : bars ≠ [] := by
    intro h0; subst h0; simp at h
  have hl : bars.getLast hne = last := by
    rw [List.getLast?_eq_getLast bars hne] at h
    exact Option.some.inj h
  conv_lhs => rw [← List.dropLast_append_getLast hne]
  simp [hl]
  ring

/-- Whatever the budget, a returned bucket list has 11 entries whose counts
add up, in `int64` arithmetic, to the counts of the bars. -/
theorem getHistogramBuckets_total (fuel : Nat) (bars : List Bar) (mn mx : Int)
    (r : List Bucket) (h : getHistogramBuckets fuel bars mn mx = .ok r) :
    r.length = 11 ∧ wrap64 (bucketTotal r) = wrap64 (barTotal bars) := by
  unfold getHistogramBuckets at h
  simp only at h
  split at h
  · cases h
  · rename_i last hlast
    split at h
    · rename_i cs hcs
      cases h
      have hinv := scanStart_inv last.Count
      obtain ⟨hl, hsum⟩ := scanLoop_sum bars (bucketMarks mn mx) (bucketMarks_length mn mx)
        fuel _ cs hinv hcs
      have hml := bucketMarks_length mn mx
      refine ⟨by simp [hml, hl], ?_⟩
      rw [bucketTotal_zipWith _ _ (by rw [hml, hl]), hsum, barTotal_getLast bars last hlast]
      have : (scanStart last.Count).counts.sum = last.Count := by
        simp [scanStart, List.replicate, List.set]
      rw [this]
      rfl
    · cases h
    · cases h

/-- A larger iteration budget does not change what the loop returns. -/
theorem scanLoop_mono (bars : List Bar) (buckets : List Int) :
    ∀ (fuel k : Nat) (s : Scan) (cs : List Int),
      scanLoop bars buckets fuel s = .ok cs → scanLoop bars buckets (fuel + k) s = .ok cs := by
  intro fuel
  induction fuel with
  | zero =>
    intro k s cs h
    unfold scanLoop at h
    split_ifs at h with hi
    rw [Nat.zero_add]
    cases k with
    | zero => unfold scanLoop; rw [if_neg hi]; exact h
    | succ k => unfold scanLoop; rw [if_neg hi]; exact h
  | succ n ih =>
    intro k s cs h
    have hk : n + 1 + k = (n + k) + 1 := by omega
    rw [hk]
    unfold scanLoop at h ⊢
    by_cases hi : s.i < bars.length - 1
    · rw [if_pos hi] at h ⊢
      cases hstep : scanStep bars buckets s with
      | none => rw [hstep] at h; cases h
      | some s1 =>
        rw [hstep] at h
        exact ih k s1 cs h
    · rw [if_neg hi] at h ⊢
      exact h

/-- A larger iteration budget does not change what `getHistogramBuckets`
returns. -/
theorem getHistogramBuckets_mono (fuel k : Nat) (bars : List Bar) (mn mx : Int)
    (r : List Bucket) (h : getHistogramBuckets fuel bars mn mx = .ok r) :
    getHistogramBuckets (fuel + k) bars mn mx = .ok r := by
  unfold getHistogramBuckets at h ⊢
  simp only at h ⊢
  cases hlast : bars.getLast? with
  | none => rw [hlast] at h; cases h
  | some last =>
    rw [hlast] at h
    simp only at h ⊢
    cases hloop : scanLoop bars (bucketMarks mn mx) fuel (scanStart last.Count) with
    | ok cs =>
      rw [hloop] at h
      rw [scanLoop_mono bars _ fuel k _ cs hloop]
      exact h
    | panic => rw [hloop] at h; cases h
    | fuelOut => rw [hloop] at h; cases h

/-! ## Bucketizer: counts that do not overflow -/

theorem pending_nonneg (bars : List Bar) (hc : ∀ b ∈ bars, 0 ≤ b.Count) (i : Nat) :
    0 ≤ pending bars i := by
  unfold pending barTotal
  apply sum_nonneg_of_mem
  intro v hv
  obtain ⟨b, hb, hbv⟩ := List.mem_map.mp hv
  rw [← hbv]
  exact hc b (List.mem_of_mem_dropLast (List.mem_of_mem_drop hb))

/-- One iteration over bars with non-negative counts whose total fits in
`int64`: the entries of `counts` stay non-negative, `sum counts + pending`
stays the total of the bars as an exact integer, and no entry falls. -/
theorem scanStep_exact (bars : List Bar) (buckets : List Int)
    (hc : ∀ b ∈ bars, 0 ≤ b.Count) (hT : barTotal bars ≤ maxInt64)
    (s s1 : Scan) (hi : s.i < bars.length - 1) (h : scanStep bars buckets s = some s1)
    (hnn : ∀ v ∈ s.counts, 0 ≤ v)
    (hsum : s.counts.sum + pending bars s.i = barTotal bars) :
    (∀ v ∈ s1.counts, 0 ≤ v) ∧ s1.counts.sum + pending bars s1.i = barTotal bars ∧
      ∀ (j : Nat) (v : Int), s.counts[j]? = some v →
        ∃ v1, s1.counts[j]? = some v1 ∧ v ≤ v1 := by
  unfold scanStep at h
  split at h
  · rename_i b m hb hm
    have hb0 : 0 ≤ b.Count := hc b (List.getElem?_mem hb)
    have hp := pending_step bars s.i b hi hb
    have hp1 := pending_nonneg bars hc (s.i + 1)
    have hroom : s.counts.sum + b.Count ≤ maxInt64 := by omega
    have hadd : ∀ (id : Nat) (cs1 : List Int), addAt s.counts id b.Count = some cs1 →
        (∀ v ∈ cs1, 0 ≤ v) ∧ cs1.sum + pending bars (s.i + 1) = barTotal bars ∧
          ∀ (j : Nat) (v : Int), s.counts[j]? = some v →
            ∃ v1, cs1[j]? = some v1 ∧ v ≤ v1 := by
      intro id cs1 hcs
      obtain ⟨h1, h2, h3⟩ := addAt_exact hcs hnn hb0 hroom
      exact ⟨h2, by omega, h3⟩
    have hsame : (∀ v ∈ s.counts, 0 ≤ v) ∧ s.counts.sum + pending bars s.i = barTotal bars ∧
        ∀ (j : Nat) (v : Int), s.counts[j]? = some v →
          ∃ v1, s.counts[j]? = some v1 ∧ v ≤ v1 :=
      ⟨hnn, hsum, fun j v hv => ⟨v, hv, le_refl v⟩⟩
    by_cases h1 : b.From ≥ m ∧ b.To ≤ m
    · rw [if_pos h1] at h
      cases hcs : addAt s.counts s.bi b.Count with
      | none => rw [hcs] at h; cases h
      | some cs1 =>
        rw [hcs] at h
        cases h
        exact hadd _ cs1 hcs
    · rw [if_neg h1] at h
      by_cases h2 : b.From ≤ m
      · rw [if_pos h2] at h
        simp only at h
        cases hcs : addAt s.counts (if (s.bi : Int) - 1 < 0 then 0 else s.bi - 1) b.Count with
        | none => rw [hcs] at h; cases h
        | some cs1 =>
          rw [hcs] at h
          cases h
          exact hadd _ cs1 hcs
      · rw [if_neg h2] at h
        by_cases h3 : s.bi < buckets.length - 1
        · rw [if_pos h3] at h
          cases h
          exact hsame
        · rw [if_neg h3] at h
          cases h
          exact hsame
  · cases h

/-- What the loop returns for bars with non-negative counts whose total fits
in `int64`: the returned counts add up, with the bars still to be scanned,
to the total of the bars as an exact integer, and each is at least what it
started from. -/
theorem scanLoop_exact (bars : List Bar) (buckets : List Int)
    (hc : ∀ b ∈ bars, 0 ≤ b.Count) (hT : barTotal bars ≤ maxInt64) :
    ∀ (fuel : Nat) (s : Scan) (cs : List Int),
      (∀ v ∈ s.counts, 0 ≤ v) → s.counts.sum + pending bars s.i = barTotal bars →
      scanLoop bars buckets fuel s = .ok cs →
      cs.sum = barTotal bars ∧
        ∀ (j : Nat) (v : Int), s.counts[j]? = some v → ∃ v1, cs[j]? = some v1 ∧ v ≤ v1 := by
  have hdone : ∀ s : Scan, s.counts.sum + pending bars s.i = barTotal bars →
      ¬ s.i < bars.length - 1 →
      s.counts.sum = barTotal bars ∧
        ∀ (j : Nat) (v : Int), s.counts[j]? = some v →
          ∃ v1, s.counts[j]? = some v1 ∧ v ≤ v1 := by
    intro s hsum hi
    rw [pending_done bars s.i hi] at hsum
    exact ⟨by omega, fun j v hv => ⟨v, hv, le_refl v⟩⟩
  intro fuel
  induction fuel with
  | zero =>
    intro s cs _ hsum h
    unfold scanLoop at h
    split_ifs at h with hi
    cases h
    exact hdone s hsum hi
  | succ n ih =>
    intro s cs hnn hsum h
    unfold scanLoop at h
    by_cases hi : s.i < bars.length - 1
    · rw [if_pos hi] at h
      cases hstep : scanStep bars buckets s with
      | none => rw [hstep] at h; cases h
      | some s1 =>
        rw [hstep] at h
        obtain ⟨hnn1, hsum1, hmono1⟩ :=
          scanStep_exact bars buckets hc hT s s1 hi hstep hnn hsum
        obtain ⟨hres, hmono2⟩ := ih s1 cs hnn1 hsum1 h
        refine ⟨hres, ?_⟩
        intro j v hv
        obtain ⟨v1, hv1, hle1⟩ := hmono1 j v hv
        obtain ⟨v2, hv2, hle2⟩ := hmono2 j v1 hv1
        exact ⟨v2, hv2, le_trans hle1 hle2⟩
    · rw [if_neg hi] at h
      cases h
      exact hdone s hsum hi

/-- The loop variables at the start, for a last bar with a non-negative
count. -/
theorem scanStart_exact (bars : List Bar) (last : Bar) (hlast : bars.getLast? = some last)
    (h0 : 0 ≤ last.Count) :
    (∀ v ∈ (scanStart last.Count).counts, 0 ≤ v) ∧
      (scanStart last.Count).counts.sum + pending bars (scanStart last.Count).i =
        barTotal bars := by
  refine ⟨?_, ?_⟩
  · intro v hv
    rcases List.mem_or_eq_of_mem_set hv with hin | heq
    · rw [List.eq_of_mem_replicate hin]
    · rw [heq]
      exact h0
  · have hs : (scanStart last.Count).counts.sum = last.Count := by
      simp [scanStart, List.replicate, List.set]
    rw [hs, barTotal_getLast bars last hlast]
    rfl

theorem getElem?_zipWith_mk (ms cs : List Int) (j : Nat) (m c : Int)
    (hm : ms[j]? = some m) (hc : cs[j]? = some c) :
    (List.zipWith Bucket.mk ms cs)[j]? = some ⟨m, c⟩ := by
  induction ms generalizing cs j with
  | nil => simp at hm
  | cons x xs ih =>
    cases cs with
    | nil => simp at hc
    | cons y ys =>
      cases j with
      | zero =>
        simp only [List.getElem?_cons_zero, Option.some.injEq] at hm hc
        simp [List.zipWith, hm, hc]
      | succ j =>
        simp only [List.getElem?_cons_succ] at hm hc
        simp only [List.zipWith, List.getElem?_cons_succ]
        exact ih ys j hm hc

/-- For bars with non-negative counts whose total fits in `int64`, a returned
bucket list has counts that add up to the total of the bars as an exact
integer, and its final bucket holds at least the count of the last bar. -/
theorem getHistogramBuckets_exact (fuel : Nat) (bars : List Bar) (mn mx : Int)
    (hc : ∀ b ∈ bars, 0 ≤ b.Count) (hT : barTotal bars ≤ maxInt64)
    (r : List Bucket) (h : getHistogramBuckets fuel bars mn mx = .ok r) :
    bucketTotal r = barTotal bars ∧
      ∀ last, bars.getLast? = some last →
        ∃ bk, r[10]? = some bk ∧ bk.Mark = mx ∧ last.Count ≤ bk.Count := by
  unfold getHistogramBuckets at h
  simp only at h
  split at h
  · cases h
  · rename_i last hlast
    split at h
    · rename_i cs hcs
      cases h
      have h0 : 0 ≤ last.Count := hc last (List.mem_of_getLast?_eq_some hlast)
      obtain ⟨hnn, hsum⟩ := scanStart_exact bars last hlast h0
      obtain ⟨hl, _⟩ := scanLoop_sum bars (bucketMarks mn mx) (bucketMarks_length mn mx)
        fuel _ cs (scanStart_inv last.Count) hcs
      obtain ⟨hres, hmono⟩ := scanLoop_exact bars (bucketMarks mn mx) hc hT fuel _ cs
        hnn hsum hcs
      refine ⟨?_, ?_⟩
      · rw [bucketTotal_zipWith _ _ (by rw [bucketMarks_length, hl]), hres]
      · intro last2 hlast2
        have he : last2 = last := by
          rw [hlast] at hlast2
          exact (Option.some.inj hlast2).symm
        rw [he]
        have hstart : (scanStart last.Count).counts[10]? = some last.Count := by
          simp [scanStart, List.replicate, List.set]
        obtain ⟨v1, hv1, hle⟩ := hmono 10 last.Count hstart
        exact ⟨⟨mx, v1⟩,
          getElem?_zipWith_mk _ _ 10 mx v1 (bucketMarks_last _ _) hv1, rfl, hle⟩
    · cases h
    · cases h

/-! ## Bucketizer: the claims -/

/-- C1, counterexample: the bars `[0,1]` with count `2^63 - 1`, `[0,2]` with
count 1 and `[100,100]` with count 4, `globalMin = 0`, `globalMax = 100`.
The first two counts are added in bucket 0, whose `int64` count wraps around
to `-2^63`: the bucket counts add up to `-2^63 + 4` and the bar counts to
`2^63 + 4`. -/
theorem getHistogramBuckets_count_conservation_counterexample :
    getHistogramBuckets 12
        [⟨0, 1, 9223372036854775807⟩, ⟨0, 2, 1⟩, ⟨100, 100, 4⟩] 0 100 =
      .ok [⟨0, -9223372036854775808⟩, ⟨10, 0⟩, ⟨20, 0⟩, ⟨30, 0⟩, ⟨40, 0⟩, ⟨50, 0⟩, ⟨60, 0⟩,
        ⟨70, 0⟩, ⟨80, 0⟩, ⟨90, 0⟩, ⟨100, 4⟩] ∧
    bucketTotal [⟨0, -9223372036854775808⟩, ⟨10, 0⟩, ⟨20, 0⟩, ⟨30, 0⟩, ⟨40, 0⟩, ⟨50, 0⟩,
        ⟨60, 0⟩, ⟨70, 0⟩, ⟨80, 0⟩, ⟨90, 0⟩, ⟨100, 4⟩] = -9223372036854775804 ∧
    barTotal [⟨0, 1, 9223372036854775807⟩, ⟨0, 2, 1⟩, ⟨100, 100, 4⟩] =
      9223372036854775812 := by
  decide

/-- C1, amended. Count conservation of the bucketizer: for a non-empty bar
sequence, whenever `getHistogramBuckets` returns (whatever the iteration
budget) it returns 11 buckets whose counts add up to the counts of all bars
in `int64` arithmetic, that is, modulo `2^64`; the two sums are equal as
exact integers when the counts are non-negative and their total is at most
`maxInt64`; and the call does return when every bar but the last has
`From <= globalMax`. -/
theorem getHistogramBuckets_count_conservation (bars : List Bar)
    (globalMin globalMax : Int) (hne : bars ≠ []) :
    (∀ (fuel : Nat) (r : List Bucket),
        getHistogramBuckets fuel bars globalMin globalMax = .ok r →
        r.length = 11 ∧ wrap64 (bucketTotal r) = wrap64 (barTotal bars) ∧
        ((∀ b ∈ bars, 0 ≤ b.Count) → barTotal bars ≤ maxInt64 →
          bucketTotal r = barTotal bars)) ∧
    ((∀ b ∈ bars.dropLast, b.From ≤ globalMax) →
        ∃ r, getHistogramBuckets (bars.length + 10) bars globalMin globalMax = .ok r) := by
  refine ⟨?_, ?_⟩
  · intro fuel r h
    obtain ⟨h1, h2⟩ := getHistogramBuckets_total fuel bars globalMin globalMax r h
    exact ⟨h1, h2, fun hc hT =>
      (getHistogramBuckets_exact fuel bars globalMin globalMax hc hT r h).1⟩
  · intro hpre
    obtain ⟨last, hlast⟩ : ∃ last, bars.getLast? = some last :=
      ⟨bars.getLast hne, List.getLast?_eq_getLast bars hne⟩
    obtain ⟨cs, hcs⟩ := scanLoop_returns bars globalMin globalMax hpre
      (bars.length + 10) _ (scanStart_inv last.Count) (by simp only [scanStart]; omega)
    refine ⟨List.zipWith Bucket.mk (bucketMarks globalMin globalMax) cs, ?_⟩
    unfold getHistogramBuckets
    simp only [hlast, hcs]

/-- C1, at the bars `[0,10]` with count 5 and `[10,20]` with count 3,
`globalMin = 0`, `globalMax = 20`: 11 buckets whose counts add up to 8. -/
theorem getHistogramBuckets_count_conservation_witness :
    ∃ r, getHistogramBuckets 12 [⟨0, 10, 5⟩, ⟨10, 20, 3⟩] 0 20 = .ok r ∧
      r.length = 11 ∧ bucketTotal r = 8 :=
  (getHistogramBuckets_count_conservation [⟨0, 10, 5⟩, ⟨10, 20, 3⟩] 0 20 (by decide)).2
      (by decide) |>.elim (fun r hr =>
    ⟨r, hr,
      ((getHistogramBuckets_count_conservation [⟨0, 10, 5⟩, ⟨10, 20, 3⟩] 0 20
        (by decide)).1 12 r hr).1,
      ((getHistogramBuckets_count_conservation [⟨0, 10, 5⟩, ⟨10, 20, 3⟩] 0 20
        (by decide)).1 12 r hr).2.2 (by decide) (by decide)⟩)

theorem map_Mark_zipWith (ms : List Int) (cs : List Int) (h : ms.length = cs.length) :
    (List.zipWith Bucket.mk ms cs).map Bucket.Mark = ms := by
  induction ms generalizing cs with
  | nil => simp
  | cons m ms ih =>
    cases cs with
    | nil => simp at h
    | cons c cs =>
      simp only [List.length_cons, Nat.succ.injEq, add_left_inj] at h
      simp [List.zipWith, ih cs h]

/-- The marks of a returned bucket list are the slice `buckets`. -/
theorem getHistogramBuckets_map_Mark (fuel : Nat) (bars : List Bar) (mn mx : Int)
    (r : List Bucket) (h : getHistogramBuckets fuel bars mn mx = .ok r) :
    r.map Bucket.Mark = bucketMarks mn mx := by
  unfold getHistogramBuckets at h
  simp only at h
  split at h
  · cases h
  · rename_i last hlast
    split at h
    · rename_i cs hcs
      cases h
      obtain ⟨hl, _⟩ := scanLoop_sum bars (bucketMarks mn mx) (bucketMarks_length mn mx)
        fuel _ cs (scanStart_inv last.Count) hcs
      exact map_Mark_zipWith _ _ (by rw [bucketMarks_length, hl])
    · cases h
    · cases h

theorem bucketMarks_getElem? (mn mx : Int) (i : Nat) (hi : i ≤ 9) :
    (bucketMarks mn mx)[i]? =
      some (wrap64 (mn + wrap64 (Int.tdiv (wrap64 (mx - mn)) 10 * (i : Int)))) := by
  have h10 : i < 10 := by omega
  unfold bucketMarks
  simp only
  rw [List.getElem?_append_left (by simpa using h10)]
  simp [List.getElem?_map, List.getElem?_range h10]

/-- Truncating division by 10 gives a quotient between 0 and the dividend. -/
theorem tdiv10_bounds (a : Int) :
    (0 ≤ a → 0 ≤ Int.tdiv a 10 ∧ 10 * Int.tdiv a 10 ≤ a ∧ a < 10 * Int.tdiv a 10 + 10) ∧
    (a ≤ 0 → Int.tdiv a 10 ≤ 0 ∧ a ≤ 10 * Int.tdiv a 10 ∧ 10 * Int.tdiv a 10 - 10 < a) := by
  constructor
  · intro h
    rw [Int.tdiv_eq_ediv h (by decide)]
    omega
  · intro h
    have hneg : a = -(-a) := by omega
    rw [hneg, Int.neg_tdiv, Int.tdiv_eq_ediv (by omega) (by decide)]
    omega

/-- When `mn`, `mx` and `mx - mn` are `int64` values, nothing wraps around
in the computation of a mark. -/
theorem mark_exact (mn mx : Int) (hmn1 : minInt64 ≤ mn) (hmn2 : mn ≤ maxInt64)
    (hmx1 : minInt64 ≤ mx) (hmx2 : mx ≤ maxInt64)
    (hd1 : minInt64 ≤ mx - mn) (hd2 : mx - mn ≤ maxInt64) (i : Nat) (hi : i ≤ 9) :
    wrap64 (mn + wrap64 (Int.tdiv (wrap64 (mx - mn)) 10 * (i : Int))) =
      mn + Int.tdiv (mx - mn) 10 * (i : Int) := by
  rw [wrap64_of_range (mx - mn) hd1 hd2]
  obtain ⟨hpos, hneg⟩ := tdiv10_bounds (mx - mn)
  unfold minInt64 at hmn1 hmx1 hd1
  unfold maxInt64 at hmn2 hmx2 hd2
  generalize Int.tdiv (mx - mn) 10 = q at hpos hneg ⊢
  have hcase : 0 ≤ mx - mn ∨ mx - mn ≤ 0 := by omega
  have hq : ∀ k : Int, 0 ≤ k → k ≤ 9 →
      wrap64 (mn + wrap64 (q * k)) = mn + q * k := by
    intro k hk0 hk9
    have hk : k = 0 ∨ k = 1 ∨ k = 2 ∨ k = 3 ∨ k = 4 ∨ k = 5 ∨ k = 6 ∨ k = 7 ∨ k = 8 ∨
        k = 9 := by omega
    unfold wrap64
    rcases hcase with hc | hc
    · obtain ⟨q0, q1, q2⟩ := hpos hc
      rcases hk with h | h | h | h | h | h | h | h | h | h <;> subst h <;> omega
    · obtain ⟨q0, q1, q2⟩ := hneg hc
      rcases hk with h | h | h | h | h | h | h | h | h | h <;> subst h <;> omega
  exact hq (i : Int) (by omega) (by omega)

/-- C6, counterexample: with `globalMin = -2^63` and `globalMax = 2^63 - 1`
the `int64` difference wraps around to -1, the step is 0 and the marks at
indices 0 to 9 are all `globalMin`, while `globalMin + step*1` with the step
`(globalMax - globalMin) / 10` of exact integers is
`-7378697629483820647`. -/
theorem getHistogramBuckets_marks_counterexample :
    getHistogramBuckets 0 [⟨0, 0, 1⟩] (-9223372036854775808) 9223372036854775807 =
      .ok [⟨-9223372036854775808, 0⟩, ⟨-9223372036854775808, 0⟩,
        ⟨-9223372036854775808, 0⟩, ⟨-9223372036854775808, 0⟩, ⟨-9223372036854775808, 0⟩,
        ⟨-9223372036854775808, 0⟩, ⟨-9223372036854775808, 0⟩, ⟨-9223372036854775808, 0⟩,
        ⟨-9223372036854775808, 0⟩, ⟨-9223372036854775808, 0⟩, ⟨9223372036854775807, 1⟩] ∧
    (-9223372036854775808 : Int) +
        Int.tdiv (9223372036854775807 - (-9223372036854775808)) 10 * 1 =
      -7378697629483820647 := by
  decide

/-- C6, amended. Bucket marks: whenever `getHistogramBuckets` returns, the
result has exactly 11 buckets; bucket `i` for `0 <= i <= 9` has
`Mark = globalMin + step*i` with `step = (globalMax - globalMin) / 10` in
truncating division, all computed in `int64` arithmetic; these are the exact
integers `globalMin + step*i` when `globalMin`, `globalMax` and
`globalMax - globalMin` are `int64` values; bucket 10 has `Mark = globalMax`;
the marks are a function of `globalMin` and `globalMax` alone, so any other
bar sequence that returns gives the same marks. -/
theorem getHistogramBuckets_marks (fuel : Nat) (bars : List Bar)
    (globalMin globalMax : Int) (r : List Bucket)
    (h : getHistogramBuckets fuel bars globalMin globalMax = .ok r) :
    r.length = 11 ∧
    (∀ i : Nat, i ≤ 9 →
      (r.map Bucket.Mark)[i]? =
        some (wrap64 (globalMin +
          wrap64 (Int.tdiv (wrap64 (globalMax - globalMin)) 10 * (i : Int))))) ∧
    (minInt64 ≤ globalMin → globalMin ≤ maxInt64 →
      minInt64 ≤ globalMax → globalMax ≤ maxInt64 →
      minInt64 ≤ globalMax - globalMin → globalMax - globalMin ≤ maxInt64 →
      ∀ i : Nat, i ≤ 9 →
        (r.map Bucket.Mark)[i]? =
          some (globalMin + Int.tdiv (globalMax - globalMin) 10 * (i : Int))) ∧
    (r.map Bucket.Mark)[10]? = some globalMax ∧
    (∀ (fuel2 : Nat) (bars2 : List Bar) (r2 : List Bucket),
      getHistogramBuckets fuel2 bars2 globalMin globalMax = .ok r2 →
      r2.map Bucket.Mark = r.map Bucket.Mark) := by
  have hm := getHistogramBuckets_map_Mark fuel bars globalMin globalMax r h
  refine ⟨(getHistogramBuckets_total fuel bars globalMin globalMax r h).1, ?_, ?_, ?_, ?_⟩
  · intro i hi
    rw [hm]
    exact bucketMarks_getElem? globalMin globalMax i hi
  · intro h1 h2 h3 h4 h5 h6 i hi
    rw [hm, bucketMarks_getElem? globalMin globalMax i hi,
      mark_exact globalMin globalMax h1 h2 h3 h4 h5 h6 i hi]
  · rw [hm]
    exact bucketMarks_last globalMin globalMax
  · intro fuel2 bars2 r2 h2
    rw [hm]
    exact getHistogramBuckets_map_Mark fuel2 bars2 globalMin globalMax r2 h2

/-- C6, at one bar `[3,7]` and one bar `[20,47]` with `globalMin = 3`,
`globalMax = 47`: the step is `44 / 10 = 4`, the marks are
3, 7, ..., 39 and then 47. -/
theorem getHistogramBuckets_marks_witness :
    getHistogramBuckets 12 [⟨3, 7, 2⟩, ⟨20, 47, 1⟩] 3 47 =
        .ok [⟨3, 2⟩, ⟨7, 0⟩, ⟨11, 0⟩, ⟨15, 0⟩, ⟨19, 0⟩, ⟨23, 0⟩, ⟨27, 0⟩, ⟨31, 0⟩,
          ⟨35, 0⟩, ⟨39, 0⟩, ⟨47, 1⟩] ∧
      ([3, 7, 11, 15, 19, 23, 27, 31, 35, 39, 47] : List Int)[2]? =
        some (3 + Int.tdiv (47 - 3) 10 * ((2 : Nat) : Int)) ∧
      ([3, 7, 11, 15, 19, 23, 27, 31, 35, 39, 47] : List Int)[10]? = some 47 :=
  ⟨by decide,
    (getHistogramBuckets_marks 12 [⟨3, 7, 2⟩, ⟨20, 47, 1⟩] 3 47
      [⟨3, 2⟩, ⟨7, 0⟩, ⟨11, 0⟩, ⟨15, 0⟩, ⟨19, 0⟩, ⟨23, 0⟩, ⟨27, 0⟩, ⟨31, 0⟩,
        ⟨35, 0⟩, ⟨39, 0⟩, ⟨47, 1⟩] (by decide)).2.2.1 (by decide) (by decide) (by decide)
      (by decide) (by decide) (by decide) 2 (by decide),
    (getHistogramBuckets_marks 12 [⟨3, 7, 2⟩, ⟨20, 47, 1⟩] 3 47
      [⟨3, 2⟩, ⟨7, 0⟩, ⟨11, 0⟩, ⟨15, 0⟩, ⟨19, 0⟩, ⟨23, 0⟩, ⟨27, 0⟩, ⟨31, 0⟩,
        ⟨35, 0⟩, ⟨39, 0⟩, ⟨47, 1⟩] (by decide)).2.2.2.1⟩

/-- C5, counterexample: on the empty bar sequence with `globalMin = 0` and
`globalMax = 0` no iteration budget makes `getHistogramBuckets` return the
empty bucket sequence. -/
theorem getHistogramBuckets_empty_counterexample :
    ¬ ∃ fuel : Nat, getHistogramBuckets fuel [] 0 0 = Outcome.ok [] := by
  rintro ⟨fuel, h⟩
  simp [getHistogramBuckets] at h

/-- C5, amended. On an empty bar sequence `getHistogramBuckets` does not
return: reading `bars[len(bars)-1]` panics.  The empty case is the caller's:
`printHistogram` prints nothing, without calling the bucketizer, when the
distribution has no bar with a positive count.  When `getHistogramBuckets`
returns, it returns 11 buckets, never an empty sequence. -/
theorem getHistogramBuckets_empty (fuel : Nat) (globalMin globalMax : Int) :
    getHistogramBuckets fuel [] globalMin globalMax = Outcome.panic ∧
    (∀ (title : String) (distribution : List Bar),
      (∀ v ∈ distribution, v.Count ≤ 0) →
      printHistogram fuel title distribution globalMin globalMax = .ok .nothing) ∧
    (∀ (bars : List Bar) (r : List Bucket),
      getHistogramBuckets fuel bars globalMin globalMax = .ok r → r.length = 11) := by
  refine ⟨by simp [getHistogramBuckets], ?_, ?_⟩
  · intro title distribution hd
    have hf : distribution.filter (fun v => decide (v.Count > 0)) = [] := by
      rw [List.filter_eq_nil_iff]
      intro v hv
      have := hd v hv
      simp only [decide_eq_true_eq, not_lt, ge_iff_le, gt_iff_lt]
      exact this
    unfold printHistogram
    simp only [hf, List.length_nil, if_true]
  · intro bars r h
    exact (getHistogramBuckets_total fuel bars globalMin globalMax r h).1

/-- C10, the code at the failing input: with `globalMin = 0` and
`globalMax = 100` the marks at indices 1 and 2 are 10 and 20, so the bar
`[10,15]` lies within the span of bucket 1; the scan step at bucket cursor 1
adds its count 7 to bucket 0, and the returned buckets hold 7 under mark 0
and 0 under mark 10. -/
theorem scanStep_bar_on_mark :
    (bucketMarks 0 100)[1]? = some 10 ∧ (bucketMarks 0 100)[2]? = some 20 ∧
    scanStep [⟨10, 15, 7⟩, ⟨90, 100, 3⟩] (bucketMarks 0 100)
        ⟨0, 1, [0, 0, 0, 0, 0, 0, 0, 0, 0, 0, 3]⟩ =
      some ⟨1, 1, [7, 0, 0, 0, 0, 0, 0, 0, 0, 0, 3]⟩ ∧
    getHistogramBuckets 12 [⟨10, 15, 7⟩, ⟨90, 100, 3⟩] 0 100 =
      .ok [⟨0, 7⟩, ⟨10, 0⟩, ⟨20, 0⟩, ⟨30, 0⟩, ⟨40, 0⟩, ⟨50, 0⟩, ⟨60, 0⟩, ⟨70, 0⟩,
        ⟨80, 0⟩, ⟨90, 0⟩, ⟨100, 3⟩] := by
  decide

/-! ## Renderer -/

/-- The running maximum of lines 264-269 started at `m0`: it is at least
`m0` and every count, and it is `m0` or one of the counts. -/
theorem foldl_maxCount (bs : List Bucket) (m0 : Int) :
    m0 ≤ bs.foldl (fun maxCount b => if b.Count > maxCount then b.Count else maxCount) m0 ∧
    (∀ b ∈ bs, b.Count ≤
      bs.foldl (fun maxCount b => if b.Count > maxCount then b.Count else maxCount) m0) ∧
    (bs.foldl (fun maxCount b => if b.Count > maxCount then b.Count else maxCount) m0 = m0 ∨
      ∃ b ∈ bs, b.Count =
        bs.foldl (fun maxCount b => if b.Count > maxCount then b.Count else maxCount) m0) := by
  induction bs generalizing m0 with
  | nil => simp
  | cons x xs ih =>
    simp only [List.foldl_cons, List.mem_cons, forall_eq_or_imp, exists_eq_or_imp]
    obtain ⟨h1, h2, h3⟩ := ih (if x.Count > m0 then x.Count else m0)
    have hx : x.Count ≤ (if x.Count > m0 then x.Count else m0) := by
      split_ifs <;> omega
    have hm : m0 ≤ (if x.Count > m0 then x.Count else m0) := by
      split_ifs <;> omega
    refine ⟨le_trans hm h1, ⟨le_trans hx h1, h2⟩, ?_⟩
    rcases h3 with h3 | ⟨b, hb, hbc⟩
    · by_cases hgt : x.Count > m0
      · rw [if_pos hgt] at h3
        right; left
        rw [if_pos hgt]
        exact h3.symm
      · rw [if_neg hgt] at h3
        left
        rw [if_neg hgt]
        exact h3
    · right; right
      exact ⟨b, hb, hbc⟩

theorem maxCountOf_nonneg (bs : List Bucket) : 0 ≤ maxCountOf bs :=
  (foldl_maxCount bs 0).1

theorem le_maxCountOf (bs : List Bucket) : ∀ b ∈ bs, b.Count ≤ maxCountOf bs :=
  (foldl_maxCount bs 0).2.1

theorem maxCountOf_attained (bs : List Bucket) (hne : bs ≠ [])
    (hnn : ∀ b ∈ bs, 0 ≤ b.Count) : ∃ b ∈ bs, b.Count = maxCountOf bs := by
  rcases (foldl_maxCount bs 0).2.2 with h0 | h
  · cases bs with
    | nil => exact absurd rfl hne
    | cons x xs =>
      refine ⟨x, List.mem_cons_self x xs, ?_⟩
      have h1 := le_maxCountOf (x :: xs) x (List.mem_cons_self x xs)
      have h2 := hnn x (List.mem_cons_self x xs)
      have h3 : maxCountOf (x :: xs) = 0 := h0
      omega
  · exact h

/-- With a non-negative count and a positive `maxCount`, when
`Count*40 + maxCount/2` fits in `int64`, nothing wraps around in `barLen`
and Go's truncating divisions are floor divisions. -/
theorem barLen_eq (m : Int) (b : Bucket) (hc : 0 ≤ b.Count) (hm : 0 < m)
    (hfit : b.Count * 40 + m / 2 ≤ maxInt64) :
    barLen m b = (b.Count * 40 + m / 2) / m := by
  unfold barLen
  rw [if_pos hm, Int.tdiv_eq_ediv (a := m) (b := 2) (le_of_lt hm) (by decide)]
  have h2 : 0 ≤ m / 2 := Int.ediv_nonneg (le_of_lt hm) (by decide)
  have hw1 : wrap64 (b.Count * 40) = b.Count * 40 :=
    wrap64_of_range _ (by unfold minInt64; omega) (by omega)
  have hw2 : wrap64 (b.Count * 40 + m / 2) = b.Count * 40 + m / 2 :=
    wrap64_of_range _ (by unfold minInt64; omega) hfit
  rw [hw1, hw2, Int.tdiv_eq_ediv (by omega) (le_of_lt hm)]

theorem barLen_nonneg (m : Int) (b : Bucket) (hc : 0 ≤ b.Count)
    (hfit : b.Count * 40 + m / 2 ≤ maxInt64) : 0 ≤ barLen m b := by
  by_cases hm : 0 < m
  · rw [barLen_eq m b hc hm hfit]
    have h2 : 0 ≤ m / 2 := Int.ediv_nonneg (le_of_lt hm) (by decide)
    exact Int.ediv_nonneg (by omega) (le_of_lt hm)
  · unfold barLen
    rw [if_neg hm]

/-- The integer expression `(c*40 + m/2) / m` is `40*c/m` rounded to the
nearest integer, ties up, for even and for odd `m`. -/
theorem half_up_floor (c m : Int) (hm : 0 < m) :
    (c * 40 + m / 2) / m = ⌊((40 : ℚ) * (c : ℚ)) / (m : ℚ) + 1 / 2⌋ := by
  symm
  rw [Int.floor_eq_iff]
  have h1 : (c * 40 + m / 2) / m * m ≤ c * 40 + m / 2 := Int.ediv_mul_le _ (ne_of_gt hm)
  have h2 : c * 40 + m / 2 < ((c * 40 + m / 2) / m + 1) * m :=
    Int.lt_ediv_add_one_mul_self _ hm
  generalize (c * 40 + m / 2) / m = q at h1 h2 ⊢
  have h3 : 2 * (m / 2) ≤ m := by omega
  have h4 : m ≤ 2 * (m / 2) + 1 := by omega
  have hA : 2 * (q * m) ≤ 80 * c + m := by linarith
  have hB : 80 * c + m + 1 ≤ 2 * ((q + 1) * m) := by linarith
  have hmq : (0 : ℚ) < (m : ℚ) := by exact_mod_cast hm
  have hx : ((40 : ℚ) * (c : ℚ)) / (m : ℚ) + 1 / 2 = (80 * (c : ℚ) + (m : ℚ)) / (2 * (m : ℚ)) := by
    field_simp
    ring
  rw [hx]
  have hA2 : (2 : ℚ) * ((q : ℚ) * (m : ℚ)) ≤ 80 * (c : ℚ) + (m : ℚ) := by exact_mod_cast hA
  have hB2 : 80 * (c : ℚ) + (m : ℚ) + 1 ≤ 2 * (((q : ℚ) + 1) * (m : ℚ)) := by exact_mod_cast hB
  constructor
  · rw [le_div_iff₀ (by positivity)]
    linarith
  · rw [div_lt_iff₀ (by positivity)]
    linarith

/-- The lines drawn for buckets whose bar lengths are not negative. -/
theorem renderLines_ok (m : Int) (bs : List Bucket) (h : ∀ b ∈ bs, 0 ≤ barLen m b) :
    ∃ ls, renderLines m bs = .ok ls ∧
      List.Forall₂ (fun b l => l.Mark = b.Mark ∧ l.Count = b.Count ∧
        l.bar = String.join (List.replicate (barLen m b).toNat barChar)) bs ls := by
  induction bs with
  | nil => exact ⟨[], rfl, List.Forall₂.nil⟩
  | cons x xs ih =>
    obtain ⟨ls, hls, hf⟩ := ih (fun b hb => h b (List.mem_cons_of_mem x hb))
    have hx : ¬ barLen m x < 0 := not_lt.mpr (h x (List.mem_cons_self x xs))
    refine ⟨⟨x.Mark, x.Count, String.join (List.replicate (barLen m x).toNat barChar)⟩ :: ls,
      ?_, List.Forall₂.cons ⟨rfl, rfl, rfl⟩ hf⟩
    simp only [renderLines, stringsRepeat, if_neg hx, hls]

/-- C7, counterexample: one bucket with the count `3*10^17`.  The `int64`
product `Count*40` wraps around, `barLen` is -20, and
`strings.Repeat` panics on the negative count, while the expression
`(c*40 + maxCount/2) / maxCount` of exact integers is 40. -/
theorem getResponseHistogram_barLen_counterexample :
    maxCountOf [⟨0, 300000000000000000⟩] = 300000000000000000 ∧
    barLen 300000000000000000 ⟨0, 300000000000000000⟩ = -20 ∧
    getResponseHistogram [⟨0, 300000000000000000⟩] = .panic ∧
    ((300000000000000000 : Int) * 40 + 300000000000000000 / 2) / 300000000000000000 = 40 := by
  decide

/-- C7, amended. Bar length is half-up rounding: for buckets with
non-negative counts such that `maxCount*40 + maxCount/2` fits in `int64`,
where `maxCount` of the code is the largest count, `getResponseHistogram`
draws one line per bucket, and the bar of a bucket with count `c` is `n`
copies of `barChar` where, if `maxCount > 0`,
`n = (c*40 + maxCount/2) / maxCount` in integer arithmetic, which is
`floor(40*c/maxCount + 1/2)` over the rationals, and, if `maxCount = 0`,
`n = 0`. -/
theorem getResponseHistogram_barLen (buckets : List Bucket)
    (hnn : ∀ b ∈ buckets, 0 ≤ b.Count)
    (hfit : maxCountOf buckets * 40 + maxCountOf buckets / 2 ≤ maxInt64) :
    (∀ b ∈ buckets, b.Count ≤ maxCountOf buckets) ∧
    (buckets ≠ [] → ∃ b ∈ buckets, b.Count = maxCountOf buckets) ∧
    ∃ lines, getResponseHistogram buckets = .ok lines ∧
      List.Forall₂ (fun b l =>
        l.Mark = b.Mark ∧ l.Count = b.Count ∧
        ∃ n : Nat, l.bar = String.join (List.replicate n barChar) ∧
          (0 < maxCountOf buckets →
            (n : Int) = (b.Count * 40 + maxCountOf buckets / 2) / maxCountOf buckets ∧
            (n : Int) =
              ⌊((40 : ℚ) * (b.Count : ℚ)) / (maxCountOf buckets : ℚ) + 1 / 2⌋) ∧
          (maxCountOf buckets = 0 → n = 0)) buckets lines := by
  have hfitb : ∀ b ∈ buckets, b.Count * 40 + maxCountOf buckets / 2 ≤ maxInt64 := by
    intro b hb
    have := le_maxCountOf buckets b hb
    omega
  refine ⟨le_maxCountOf buckets, fun hne => maxCountOf_attained buckets hne hnn, ?_⟩
  obtain ⟨ls, hls, hf⟩ := renderLines_ok (maxCountOf buckets) buckets
    (fun b hb => barLen_nonneg _ b (hnn b hb) (hfitb b hb))
  refine ⟨ls, hls, ?_⟩
  have hmem : List.Forall₂ (fun b l => b ∈ buckets ∧ (l.Mark = b.Mark ∧ l.Count = b.Count ∧
      l.bar = String.join (List.replicate (barLen (maxCountOf buckets) b).toNat barChar)))
      buckets ls := by
    rw [List.forall₂_iff_get] at hf ⊢
    refine ⟨hf.1, fun i h1 h2 => ⟨List.get_mem _ _ _, hf.2 i h1 h2⟩⟩
  refine hmem.imp ?_
  rintro b l ⟨hb, hM, hC, hbar⟩
  refine ⟨hM, hC, (barLen (maxCountOf buckets) b).toNat, hbar, ?_, ?_⟩
  · intro hpos
    have hn : ((barLen (maxCountOf buckets) b).toNat : Int) = barLen (maxCountOf buckets) b :=
      Int.toNat_of_nonneg (barLen_nonneg _ b (hnn b hb) (hfitb b hb))
    rw [hn, barLen_eq _ b (hnn b hb) hpos (hfitb b hb)]
    exact ⟨rfl, half_up_floor b.Count (maxCountOf buckets) hpos⟩
  · intro h0
    unfold barLen
    rw [h0]
    rfl

/-- C7, at the counts `[0, 10, 5]`: `maxCount` is 10 and the bars have 0, 40
and 20 copies of `barChar`. -/
theorem getResponseHistogram_barLen_witness :
    getResponseHistogram [⟨0, 0⟩, ⟨1, 10⟩, ⟨2, 5⟩] =
        .ok [⟨0, 0, String.join (List.replicate 0 barChar)⟩,
          ⟨1, 10, String.join (List.replicate 40 barChar)⟩,
          ⟨2, 5, String.join (List.replicate 20 barChar)⟩] ∧
      ∃ lines, getResponseHistogram [⟨0, 0⟩, ⟨1, 10⟩, ⟨2, 5⟩] = .ok lines ∧
        List.Forall₂ (fun (b : Bucket) (l : Line) => ∃ n : Nat,
          l.bar = String.join (List.replicate n barChar) ∧
          (n : Int) = (b.Count * 40 + 10 / 2) / 10) [⟨0, 0⟩, ⟨1, 10⟩, ⟨2, 5⟩] lines := by
  refine ⟨by decide, ?_⟩
  obtain ⟨_, _, lines, hl, hf⟩ :=
    getResponseHistogram_barLen [⟨0, 0⟩, ⟨1, 10⟩, ⟨2, 5⟩] (by decide) (by decide)
  refine ⟨lines, hl, hf.imp ?_⟩
  rintro b l ⟨_, _, n, hbar, hpos, _⟩
  have hm : maxCountOf [⟨0, 0⟩, ⟨1, 10⟩, ⟨2, 5⟩] = 10 := by decide
  rw [hm] at hpos
  exact ⟨n, hbar, (hpos (by decide)).1⟩

/-! ## Metric store -/

theorem mapGet_eq_none_iff {β : Type} (m : List (String × β)) (n : String) :
    mapGet m n = none ↔ n ∉ mapKeys m := by
  induction m with
  | nil => simp [mapGet, mapKeys]
  | cons e rest ih =>
    obtain ⟨k, v⟩ := e
    unfold mapGet
    by_cases hk : k = n
    · simp [hk, mapKeys]
    · rw [if_neg hk, ih]
      simp only [mapKeys, List.map_cons, List.mem_cons, not_or]
      constructor
      · intro h
        exact ⟨fun h2 => hk h2.symm, h⟩
      · intro h
        exact h.2

theorem mem_mapKeys_mapSet {β : Type} (m : List (String × β)) (n : String) (v : β)
    (x : String) : x ∈ mapKeys (mapSet m n v) ↔ x = n ∨ x ∈ mapKeys m := by
  induction m with
  | nil => simp [mapSet, mapKeys]
  | cons e rest ih =>
    obtain ⟨k, w⟩ := e
    unfold mapSet
    by_cases hk : k = n
    · rw [if_pos hk]
      simp only [mapKeys, List.map_cons, List.mem_cons]
      subst hk
      tauto
    · rw [if_neg hk]
      simp only [mapKeys, List.map_cons, List.mem_cons] at ih ⊢
      rw [ih]
      tauto

/-- The keys of the map `clientSide` after the loop of lines 159-163 has run
over the entries `req`, started from the map `acc`. -/
theorem mem_clientSide_fold (resp : Metrics) (req : Metrics) (acc : List (String × Bool))
    (x : String) :
    x ∈ mapKeys (req.foldl
        (fun clientSide e =>
          if (mapGet resp e.1).isNone then mapSet clientSide e.1 true else clientSide) acc) ↔
      x ∈ mapKeys acc ∨ (x ∈ mapKeys req ∧ x ∉ mapKeys resp) := by
  induction req generalizing acc with
  | nil => simp [mapKeys]
  | cons e rest ih =>
    rw [List.foldl_cons, ih]
    have hkeys : x ∈ mapKeys (e :: rest) ↔ x = e.1 ∨ x ∈ mapKeys rest := by
      simp [mapKeys]
    rw [hkeys]
    by_cases hn : mapGet resp e.1 = none
    · have hnot : e.1 ∉ mapKeys resp := (mapGet_eq_none_iff resp e.1).mp hn
      simp only [hn, Option.isNone_none, if_true]
      rw [mem_mapKeys_mapSet]
      constructor
      · rintro ((h | h) | h)
        · right
          exact ⟨Or.inl h, by rw [h]; exact hnot⟩
        · left; exact h
        · right
          exact ⟨Or.inr h.1, h.2⟩
      · rintro (h | ⟨h | h, h2⟩)
        · left; right; exact h
        · left; left; exact h
        · right
          exact ⟨h, h2⟩
    · have hin : e.1 ∈ mapKeys resp := by
        by_contra hc
        exact hn ((mapGet_eq_none_iff resp e.1).mpr hc)
      have hsome : (mapGet resp e.1).isNone = false := by
        cases hg : mapGet resp e.1 with
        | none => exact absurd hg hn
        | some v => rfl
      simp only [hsome, Bool.false_eq_true, if_false]
      constructor
      · rintro (h | h)
        · left; exact h
        · right
          exact ⟨Or.inr h.1, h.2⟩
      · rintro (h | ⟨h | h, h2⟩)
        · left; exact h
        · exact absurd (h ▸ hin) h2
        · right
          exact ⟨h, h2⟩

theorem mem_flatten_singletons {α : Type} (l : List α) (x : α) :
    x ∈ (l.map (fun e => [e])).flatten ↔ x ∈ l := by
  induction l with
  | nil => simp
  | cons a as ih => simp [ih]

/-- C3, counterexample: with the one request-side key `A` and an empty
response-side store, `A` is a key of `reqMetrics` that is not a key of
`respMetrics`, and `printStatsClientSide` does not list it. -/
theorem printStatsClientSide_counterexample :
    "A" ∈ mapKeys ([("A", [1])] : Metrics) ∧ "A" ∉ mapKeys ([] : Metrics) ∧
      "A" ∉ clientSideNames [("A", [1])] [] := by
  decide

/-- C3, amended. When both stores are non-empty the names that
`printStatsClientSide` lists are exactly the keys of `reqMetrics` that are not
keys of `respMetrics`; when either store is empty it returns at line 155 and
lists nothing. -/
theorem printStatsClientSide_lists (reqMetrics respMetrics : Metrics) :
    (reqMetrics ≠ [] ∧ respMetrics ≠ [] →
      ∀ n, n ∈ clientSideNames reqMetrics respMetrics ↔
        (n ∈ mapKeys reqMetrics ∧ n ∉ mapKeys respMetrics)) ∧
    (reqMetrics = [] ∨ respMetrics = [] →
      printStatsClientSide reqMetrics respMetrics = none ∧
        clientSideNames reqMetrics respMetrics = []) := by
  constructor
  · rintro ⟨hreq, hresp⟩ n
    have hguard : ¬ (reqMetrics.length = 0 ∨ respMetrics.length = 0) := by
      simp only [List.length_eq_zero, not_or]
      exact ⟨hreq, hresp⟩
    unfold clientSideNames printStatsClientSide
    rw [if_neg hguard]
    simp only
    have hmap : ∀ l : List (String × Bool),
        l.map (fun e => [e.1]) = (mapKeys l).map (fun e => [e]) := by
      intro l
      simp [mapKeys]
    rw [hmap, mem_flatten_singletons, mem_clientSide_fold]
    simp [mapKeys]
  · intro h
    have hguard : reqMetrics.length = 0 ∨ respMetrics.length = 0 := by
      simpa only [List.length_eq_zero] using h
    unfold clientSideNames printStatsClientSide
    rw [if_pos hguard]
    exact ⟨rfl, rfl⟩

/-- C3, at the request keys `A`, `B`, `C` and the response key `B`: the
names listed are those that are `A` or `C`. -/
theorem printStatsClientSide_lists_witness :
    clientSideNames [("A", [1]), ("B", [2]), ("C", [3])] [("B", [4])] = ["A", "C"] ∧
      ∀ n, n ∈ clientSideNames [("A", [1]), ("B", [2]), ("C", [3])] [("B", [4])] ↔
        (n ∈ mapKeys ([("A", [1]), ("B", [2]), ("C", [3])] : Metrics) ∧
          n ∉ mapKeys ([("B", [4])] : Metrics)) :=
  ⟨by decide,
    (printStatsClientSide_lists [("A", [1]), ("B", [2]), ("C", [3])] [("B", [4])]).1
      ⟨by decide, by decide⟩⟩

theorem foldl_size (cookies : List Cookie) (a : Int) :
    cookies.foldl (fun size c => size + (c.Value.utf8ByteSize : Int)) a =
      a + (cookies.map (fun c => (c.Value.utf8ByteSize : Int))).sum := by
  induction cookies generalizing a with
  | nil => simp
  | cons c cs ih =>
    simp only [List.foldl_cons, List.map_cons, List.sum_cons]
    rw [ih]
    ring

theorem cookiesSize_eq_sum (cookies : List Cookie) :
    cookiesSize cookies = (cookies.map (fun c => (c.Value.utf8ByteSize : Int))).sum := by
  unfold cookiesSize
  rw [foldl_size]
  simp

theorem cookiesSize_nonneg (cookies : List Cookie) : 0 ≤ cookiesSize cookies := by
  rw [cookiesSize_eq_sum]
  apply List.sum_nonneg
  intro x hx
  simp only [List.mem_map] at hx
  obtain ⟨c, _, rfl⟩ := hx
  exact Int.ofNat_nonneg _

/-- C4, counterexample: an exchange whose only cookie is a request cookie
with an empty value, and an exchange whose only cookie is a response cookie
with value `xyz`, each carry a cookie, and the aggregation step hands no
value to `RecordValue` of the count histogram or of the size histogram. -/
theorem handleObservation_globals_counterexample :
    (handleObservation ⟨[], [], [], []⟩ ⟨[⟨"a", ""⟩], []⟩).allCountMetrics = [] ∧
    (handleObservation ⟨[], [], [], []⟩ ⟨[⟨"a", ""⟩], []⟩).allSizeMetrics = [] ∧
    (handleObservation ⟨[], [], [], []⟩ ⟨[], [⟨"a", "xyz"⟩]⟩).allCountMetrics = [] ∧
    (handleObservation ⟨[], [], [], []⟩ ⟨[], [⟨"a", "xyz"⟩]⟩).allSizeMetrics = [] := by
  decide

/-- C4, amended. The aggregation step gives `processGlobal` the request
cookies only.  With `size` the summed byte length of the request cookie
values: when `size > 0` it hands exactly one value to `RecordValue` of the
count histogram, the number of request cookies, and exactly one value to
`RecordValue` of the size histogram, `size`; when `size = 0` (no request
cookie, or only empty values) it hands over nothing.  The response cookies
play no part.  A histogram is the sequence of values handed to
`RecordValue`. -/
theorem handleObservation_globals (st : Stats) (c : ck) :
    cookiesSize c.req = (c.req.map (fun k => (k.Value.utf8ByteSize : Int))).sum ∧
    (0 < cookiesSize c.req →
      (handleObservation st c).allCountMetrics =
          st.allCountMetrics ++ [(c.req.length : Int)] ∧
        (handleObservation st c).allSizeMetrics =
          st.allSizeMetrics ++ [cookiesSize c.req]) ∧
    (¬ 0 < cookiesSize c.req →
      cookiesSize c.req = 0 ∧
        (handleObservation st c).allCountMetrics = st.allCountMetrics ∧
        (handleObservation st c).allSizeMetrics = st.allSizeMetrics) := by
  refine ⟨cookiesSize_eq_sum c.req, ?_, ?_⟩
  · intro hpos
    have hgt : cookiesSize c.req > 0 := hpos
    unfold handleObservation processGlobal
    simp only [if_pos hgt]
    exact ⟨trivial, trivial⟩
  · intro hnot
    have hgt : ¬ cookiesSize c.req > 0 := hnot
    have h0 := cookiesSize_nonneg c.req
    unfold handleObservation processGlobal
    simp only [if_neg hgt]
    exact ⟨by omega, trivial, trivial⟩

/-- C4, at a request with the cookies `a=xyz` and `b=12` and a response with
the cookie `q=1`: the count 2 and the size 5 are recorded, the response
cookie is not counted. -/
theorem handleObservation_globals_witness :
    (handleObservation ⟨[], [], [7], [9]⟩
        ⟨[⟨"a", "xyz"⟩, ⟨"b", "12"⟩], [⟨"q", "1"⟩]⟩).allCountMetrics = [7, 2] ∧
      (handleObservation ⟨[], [], [7], [9]⟩
        ⟨[⟨"a", "xyz"⟩, ⟨"b", "12"⟩], [⟨"q", "1"⟩]⟩).allSizeMetrics = [9, 5] :=
  (handleObservation_globals ⟨[], [], [7], [9]⟩
    ⟨[⟨"a", "xyz"⟩, ⟨"b", "12"⟩], [⟨"q", "1"⟩]⟩).2.1 (by decide)

/-! ## Key normalizer: the search -/

theorem replaceAll_nil_none (t : Bool → List Char → Option (List Char)) (b : Bool)
    (h : t b [] = none) : replaceAll t b [] = [] := by
  simp [replaceAll, h]

theorem replaceAll_cons_none (t : Bool → List Char → Option (List Char)) (b : Bool)
    (c : Char) (cs : List Char) (h : t b (c :: cs) = none) :
    replaceAll t b (c :: cs) = c :: replaceAll t false cs := by
  simp [replaceAll, h]

theorem replaceAll_cons_some (t : Bool → List Char → Option (List Char)) (b : Bool)
    (c : Char) (cs out : List Char) (h : t b (c :: cs) = some out) :
    replaceAll t b (c :: cs) = out := by
  simp [replaceAll, h]

/-! ## Key normalizer: `digitRegex` -/

theorem digitRegexAt_some (b : Bool) (r out : List Char) (h : digitRegexAt b r = some out) :
    out = ['.', '*'] := by
  unfold digitRegexAt at h
  split at h
  · split_ifs at h
    exact (Option.some.inj h).symm
  · cases h

/-- The pattern does not match where a character after the first is not a
digit. -/
theorem digitRegexAt_none_of_mem (b : Bool) (c : Char) (rest : List Char) (x : Char)
    (hx : x ∈ rest) (hnd : x.isDigit = false) : digitRegexAt b (c :: rest) = none := by
  cases rest with
  | nil => simp at hx
  | cons d ds =>
    unfold digitRegexAt
    simp only
    rw [if_neg]
    rintro ⟨_, hd, hds⟩
    rcases List.mem_cons.mp hx with h | h
    · rw [h, hd] at hnd
      cases hnd
    · have := List.all_eq_true.mp hds x h
      rw [this] at hnd
      cases hnd

/-- A text whose last character is not a digit is left alone by the digit
rule. -/
theorem digit_fixed_of_last (x : Char) (hx : x.isDigit = false) :
    ∀ (pre : List Char) (b : Bool),
      replaceAll digitRegexAt b (pre ++ [x]) = pre ++ [x] := by
  intro pre
  induction pre with
  | nil =>
    intro b
    have h1 : digitRegexAt b [x] = none := rfl
    have h2 : digitRegexAt false [] = none := rfl
    rw [List.nil_append, replaceAll_cons_none _ _ _ _ h1, replaceAll_nil_none _ _ h2]
  | cons c pre ih =>
    intro b
    have h := digitRegexAt_none_of_mem b c (pre ++ [x]) x (by simp) hx
    rw [List.cons_append, replaceAll_cons_none _ _ _ _ h, ih false]

/-- The digit rule leaves the text alone or makes it end in `.*`. -/
theorem digit_shape : ∀ (s : List Char) (b : Bool),
    replaceAll digitRegexAt b s = s ∨
      ∃ pre, replaceAll digitRegexAt b s = pre ++ ['.', '*'] := by
  intro s
  induction s with
  | nil =>
    intro b
    left
    exact replaceAll_nil_none _ _ rfl
  | cons c cs ih =>
    intro b
    cases h : digitRegexAt b (c :: cs) with
    | none =>
      rw [replaceAll_cons_none _ _ _ _ h]
      rcases ih false with h1 | ⟨pre, h1⟩
      · left; rw [h1]
      · right
        exact ⟨c :: pre, by rw [h1]; rfl⟩
    | some out =>
      rw [replaceAll_cons_some _ _ _ _ _ h]
      right
      exact ⟨[], by rw [digitRegexAt_some b _ out h]; rfl⟩

theorem digit_idem (s : List Char) (b : Bool) :
    replaceAll digitRegexAt b (replaceAll digitRegexAt b s) = replaceAll digitRegexAt b s := by
  rcases digit_shape s b with h | ⟨pre, h⟩
  · rw [h, h]
  · rw [h]
    have : pre ++ ['.', '*'] = (pre ++ ['.']) ++ ['*'] := by simp
    rw [this]
    exact digit_fixed_of_last '*' (by decide) (pre ++ ['.']) b

/-- The digit rule on a text that ends in `.` and digits. -/
theorem digit_on_suffix (d : List Char) (hne : d ≠ []) (hd : ∀ c ∈ d, c.isDigit = true) :
    ∀ (pre : List Char) (b : Bool),
      replaceAll digitRegexAt b (pre ++ '.' :: d) = pre ++ ['.', '*'] := by
  intro pre
  induction pre with
  | nil =>
    intro b
    cases d with
    | nil => exact absurd rfl hne
    | cons d0 ds =>
      have hall : ds.all Char.isDigit = true := by
        rw [List.all_eq_true]
        intro x hx
        exact hd x (List.mem_cons_of_mem d0 hx)
      have h : digitRegexAt b ('.' :: d0 :: ds) = some ['.', '*'] :=
        if_pos ⟨rfl, hd d0 (List.mem_cons_self d0 ds), hall⟩
      rw [List.nil_append, replaceAll_cons_some _ _ _ _ _ h]
      rfl
  | cons c pre ih =>
    intro b
    have h := digitRegexAt_none_of_mem b c (pre ++ '.' :: d) '.' (by simp) (by decide)
    rw [List.cons_append, replaceAll_cons_none _ _ _ _ h, ih false]
    rfl

/-! ## Key normalizer: `nameRegex` -/

theorem nameRegexMatches_cons (c : Char) (cs : List Char) :
    nameRegexMatches (c :: cs) =
      ((c :: cs == reloadToken) || (isDot c && nameRegexMatches cs)) := rfl

/-- The pattern `.*(_reload)$` matches a text exactly when the text is
`_reload` after characters that are not newlines. -/
theorem nameRegexMatches_iff (s : List Char) :
    nameRegexMatches s = true ↔ ∃ p, s = p ++ reloadToken ∧ p.all isDot = true := by
  constructor
  · induction s with
    | nil => intro h; cases h
    | cons c cs ih =>
      intro h
      rw [nameRegexMatches_cons, Bool.or_eq_true, Bool.and_eq_true] at h
      rcases h with h | ⟨hc, hcs⟩
      · exact ⟨[], by simpa using h, rfl⟩
      · obtain ⟨p, hp, hall⟩ := ih hcs
        refine ⟨c :: p, by rw [hp]; rfl, ?_⟩
        simp only [List.all_cons, hc, hall, Bool.and_self]
  · rintro ⟨p, hp, hall⟩
    subst hp
    induction p with
    | nil => rfl
    | cons c p ih =>
      simp only [List.all_cons, Bool.and_eq_true] at hall
      rw [List.cons_append, nameRegexMatches_cons, ih hall.2, hall.1]
      simp

theorem nameRegexMatches_star_reload : nameRegexMatches ('*' :: reloadToken) = true := by
  decide

theorem nameRegexAt_of_matches (b : Bool) (r : List Char) (h : nameRegexMatches r = true) :
    nameRegexAt b r = some ('*' :: reloadToken) := by
  simp [nameRegexAt, h]

theorem nameRegexAt_of_not_matches (b : Bool) (r : List Char)
    (h : nameRegexMatches r = false) : nameRegexAt b r = none := by
  simp [nameRegexAt, h]

/-- A text whose last character is not `d` does not match. -/
theorem nameRegexMatches_last (pre : List Char) (x : Char) (hx : x ≠ 'd') :
    nameRegexMatches (pre ++ [x]) = false := by
  rw [Bool.eq_false_iff]
  intro h
  obtain ⟨p, hp, _⟩ := (nameRegexMatches_iff _).mp h
  have h1 : (pre ++ [x]).getLast? = (p ++ reloadToken).getLast? := by rw [hp]
  simp [reloadToken] at h1
  exact hx h1

/-- A text whose last character is not `d` is left alone by the reload
rule. -/
theorem name_fixed_of_last (x : Char) (hx : x ≠ 'd') :
    ∀ (pre : List Char) (b : Bool),
      replaceAll nameRegexAt b (pre ++ [x]) = pre ++ [x] := by
  intro pre
  induction pre with
  | nil =>
    intro b
    have h1 : nameRegexAt b [x] = none :=
      nameRegexAt_of_not_matches b _ (nameRegexMatches_last [] x hx)
    have h2 : nameRegexAt false [] = none := rfl
    rw [List.nil_append, replaceAll_cons_none _ _ _ _ h1, replaceAll_nil_none _ _ h2]
  | cons c pre ih =>
    intro b
    have h : nameRegexAt b (c :: (pre ++ [x])) = none :=
      nameRegexAt_of_not_matches b _ (nameRegexMatches_last (c :: pre) x hx)
    rw [List.cons_append, replaceAll_cons_none _ _ _ _ h, ih false]

/-- The reload rule leaves the text alone or makes it end in `*_reload`. -/
theorem name_shape : ∀ (s : List Char) (b : Bool),
    replaceAll nameRegexAt b s = s ∨
      ∃ pre, replaceAll nameRegexAt b s = pre ++ '*' :: reloadToken := by
  intro s
  induction s with
  | nil =>
    intro b
    left
    exact replaceAll_nil_none _ _ rfl
  | cons c cs ih =>
    intro b
    cases h : nameRegexMatches (c :: cs) with
    | false =>
      rw [replaceAll_cons_none _ _ _ _ (nameRegexAt_of_not_matches b _ h)]
      rcases ih false with h1 | ⟨pre, h1⟩
      · left; rw [h1]
      · right
        exact ⟨c :: pre, by rw [h1]; rfl⟩
    | true =>
      rw [replaceAll_cons_some _ _ _ _ _ (nameRegexAt_of_matches b _ h)]
      right
      exact ⟨[], rfl⟩

/-- Where the pattern does not match before the rule is applied to the rest,
it does not match after. -/
theorem nameRegexMatches_cons_replaceAll (c : Char) (cs : List Char) (b : Bool)
    (ih : nameRegexMatches (replaceAll nameRegexAt b cs) = nameRegexMatches cs)
    (h : nameRegexMatches (c :: cs) = false) :
    nameRegexMatches (c :: replaceAll nameRegexAt b cs) = false := by
  rw [nameRegexMatches_cons, Bool.or_eq_false_iff] at h
  rw [nameRegexMatches_cons, ih, h.2, Bool.or_false]
  rcases name_shape cs b with h1 | ⟨pre, h1⟩
  · rw [h1]; exact h.1
  · rw [h1, beq_eq_false_iff_ne]
    intro e
    have hl := congrArg List.length e
    simp [reloadToken] at hl

theorem nameRegexMatches_replaceAll : ∀ (s : List Char) (b : Bool),
    nameRegexMatches (replaceAll nameRegexAt b s) = nameRegexMatches s := by
  intro s
  induction s with
  | nil =>
    intro b
    rw [replaceAll_nil_none _ _ rfl]
  | cons c cs ih =>
    intro b
    cases h : nameRegexMatches (c :: cs) with
    | false =>
      rw [replaceAll_cons_none _ _ _ _ (nameRegexAt_of_not_matches b _ h)]
      exact nameRegexMatches_cons_replaceAll c cs false (ih false) h
    | true =>
      rw [replaceAll_cons_some _ _ _ _ _ (nameRegexAt_of_matches b _ h)]
      exact nameRegexMatches_star_reload

theorem name_idem : ∀ (s : List Char) (b : Bool),
    replaceAll nameRegexAt b (replaceAll nameRegexAt b s) = replaceAll nameRegexAt b s := by
  intro s
  induction s with
  | nil =>
    intro b
    rw [replaceAll_nil_none _ _ rfl, replaceAll_nil_none _ _ rfl]
  | cons c cs ih =>
    intro b
    cases h : nameRegexMatches (c :: cs) with
    | false =>
      rw [replaceAll_cons_none _ _ _ _ (nameRegexAt_of_not_matches b _ h)]
      have h2 := nameRegexMatches_cons_replaceAll c cs false
        (nameRegexMatches_replaceAll cs false) h
      rw [replaceAll_cons_none _ _ _ _ (nameRegexAt_of_not_matches b _ h2), ih false]
    | true =>
      rw [replaceAll_cons_some _ _ _ _ _ (nameRegexAt_of_matches b _ h)]
      exact replaceAll_cons_some _ _ _ _ _
        (nameRegexAt_of_matches b _ nameRegexMatches_star_reload)

/-! ## Key normalizer: `beamerRegex` -/

theorem beamer_not_at_start : ∀ (s : List Char), replaceAll beamerRegexAt false s = s := by
  intro s
  induction s with
  | nil => exact replaceAll_nil_none _ _ rfl
  | cons c cs ih =>
    rw [replaceAll_cons_none _ _ _ _ rfl, ih]

theorem beamer_of_none (s : List Char) (h : beamerRegexAt true s = none) :
    replaceAll beamerRegexAt true s = s := by
  cases s with
  | nil => exact replaceAll_nil_none _ _ h
  | cons c cs => rw [replaceAll_cons_none _ _ _ _ h, beamer_not_at_start]

theorem beamer_of_some (s out : List Char) (h : beamerRegexAt true s = some out) :
    replaceAll beamerRegexAt true s = out := by
  cases s with
  | nil => cases h
  | cons c cs => exact replaceAll_cons_some _ _ _ _ _ h

theorem afterLiteral_some : ∀ (lit s r : List Char),
    afterLiteral lit s = some r → s = lit ++ r := by
  intro lit
  induction lit with
  | nil =>
    intro s r h
    simp only [afterLiteral, Option.some.injEq] at h
    rw [h]; rfl
  | cons l ls ih =>
    intro s r h
    cases s with
    | nil => simp [afterLiteral] at h
    | cons c cs =>
      unfold afterLiteral at h
      split_ifs at h with hlc
      rw [hlc, ih cs r h]
      rfl

theorem beamerCategory_cons (c : Char) (cs : List Char) :
    beamerCategory (c :: cs) =
      if isCat c = true then
        match beamerCategory cs with
        | some cat => some (c :: cat)
        | none => if beamerTailMatches cs = true then some [c] else none
      else none := rfl

/-- What group 2 captures is followed by `_` in the text. -/
theorem beamerCategory_some : ∀ (r cat : List Char),
    beamerCategory r = some cat → ∃ tail, r = cat ++ '_' :: tail := by
  intro r
  induction r with
  | nil => intro cat h; cases h
  | cons c cs ih =>
    intro cat h
    rw [beamerCategory_cons] at h
    by_cases hc : isCat c = true
    · rw [if_pos hc] at h
      cases hcs : beamerCategory cs with
      | some g =>
        rw [hcs] at h
        simp only [Option.some.injEq] at h
        obtain ⟨tail, ht⟩ := ih g hcs
        exact ⟨tail, by rw [← h, ht]; rfl⟩
      | none =>
        rw [hcs] at h
        simp only at h
        by_cases ht : beamerTailMatches cs = true
        · rw [if_pos ht] at h
          simp only [Option.some.injEq] at h
          cases cs with
          | nil => cases ht
          | cons u tail =>
            simp only [beamerTailMatches, Bool.and_eq_true, beq_iff_eq] at ht
            exact ⟨tail, by rw [← h, ht.1]; rfl⟩
        · rw [if_neg ht] at h
          cases h
    · rw [if_neg hc] at h
      cases h

theorem beamerRegexAt_some (s out : List Char) (h : beamerRegexAt true s = some out) :
    ∃ cat tail, s = beamerPrefix ++ cat ++ '_' :: tail ∧ out = beamerPrefix ++ cat ++ ['*'] := by
  unfold beamerRegexAt at h
  simp only [if_true] at h
  cases hal : afterLiteral beamerPrefix s with
  | none => rw [hal] at h; cases h
  | some r =>
    rw [hal] at h
    simp only at h
    cases hcat : beamerCategory r with
    | none => rw [hcat] at h; cases h
    | some cat =>
      rw [hcat] at h
      simp only [Option.map_some', Option.some.injEq] at h
      obtain ⟨tail, ht⟩ := beamerCategory_some r cat hcat
      refine ⟨cat, tail, ?_, h.symm⟩
      rw [afterLiteral_some _ _ _ hal, ht, List.append_assoc]

/-- The vendor rule changes every text that its pattern matches. -/
theorem beamer_fixed_iff (s : List Char) :
    replaceAll beamerRegexAt true s = s ↔ beamerRegexAt true s = none := by
  constructor
  · intro h
    cases hm : beamerRegexAt true s with
    | none => rfl
    | some out =>
      exfalso
      rw [beamer_of_some s out hm] at h
      obtain ⟨cat, tail, hs, hout⟩ := beamerRegexAt_some s out hm
      rw [hout, List.append_assoc] at h
      rw [List.append_assoc] at hs
      rw [hs] at h
      have h2 := List.append_cancel_left (List.append_cancel_left h)
      simp at h2
  · exact beamer_of_none s

/-! ## Key normalizer: the three rules together -/

/-- A normalized name is left alone by the digit rule and by the reload
rule. -/
theorem normalizeChars_fixed (x : List Char) :
    replaceAll digitRegexAt true (normalizeChars x) = normalizeChars x ∧
      replaceAll nameRegexAt true (normalizeChars x) = normalizeChars x := by
  unfold normalizeChars
  simp only
  generalize hw : replaceAll digitRegexAt true x = w
  have hDw : replaceAll digitRegexAt true w = w := by
    rw [← hw]; exact digit_idem x true
  cases hm : beamerRegexAt true (replaceAll nameRegexAt true w) with
  | some out =>
    obtain ⟨cat, tail, _, hout⟩ := beamerRegexAt_some _ out hm
    rw [beamer_of_some _ out hm, hout]
    exact ⟨digit_fixed_of_last '*' (by decide) _ true,
      name_fixed_of_last '*' (by decide) _ true⟩
  | none =>
    rw [beamer_of_none _ hm]
    refine ⟨?_, name_idem w true⟩
    rcases name_shape w true with h | ⟨pre, h⟩
    · rw [h]; exact hDw
    · rw [h]
      have : pre ++ '*' :: reloadToken =
          (pre ++ ['*', '_', 'r', 'e', 'l', 'o', 'a']) ++ ['d'] := by
        simp [reloadToken]
      rw [this]
      exact digit_fixed_of_last 'd' (by decide) _ true

/-- Normalizing a normalized name applies the vendor rule to it and nothing
else. -/
theorem normalizeChars_twice (x : List Char) :
    normalizeChars (normalizeChars x) = replaceAll beamerRegexAt true (normalizeChars x) := by
  obtain ⟨h1, h2⟩ := normalizeChars_fixed x
  show replaceAll beamerRegexAt true (replaceAll nameRegexAt true
    (replaceAll digitRegexAt true (normalizeChars x))) = _
  rw [h1, h2]

theorem normalizeChars_idem_iff (x : List Char) :
    normalizeChars (normalizeChars x) = normalizeChars x ↔
      beamerRegexAt true (normalizeChars x) = none := by
  rw [normalizeChars_twice, beamer_fixed_iff]

/-! ## Key normalizer: the claims -/

theorem normalizeCookieName_data (x : String) :
    (normalizeCookieName x).data = normalizeChars x.data := rfl

theorem normalizeCookieName_eq_iff (x y : String) :
    normalizeCookieName x = normalizeCookieName y ↔
      normalizeChars x.data = normalizeChars y.data := by
  unfold normalizeCookieName
  constructor
  · intro h
    exact congrArg String.data h
  · intro h
    rw [h]

/-- C2, counterexample: `_BEAMER_USER_ID_123` normalizes to
`_BEAMER_USER_ID*`, and that name normalizes to `_BEAMER_USER*`. -/
theorem normalizeCookieName_idempotent_counterexample :
    normalizeCookieName "_BEAMER_USER_ID_123" = "_BEAMER_USER_ID*" ∧
    normalizeCookieName (normalizeCookieName "_BEAMER_USER_ID_123") = "_BEAMER_USER*" ∧
    normalizeCookieName (normalizeCookieName "_BEAMER_USER_ID_123") ≠
      normalizeCookieName "_BEAMER_USER_ID_123" := by
  decide

/-- C2, amended. For every string `x`, normalizing `normalizeCookieName(x)`
again gives `normalizeCookieName(x)` exactly when `normalizeCookieName(x)` is
not itself matched by the vendor pattern `^(_BEAMER_)([A-Z_]+)_.*?$`; in
particular it does whenever `normalizeCookieName(x)` does not start with
`_BEAMER_`. -/
theorem normalizeCookieName_idempotent_iff (x : String) :
    (normalizeCookieName (normalizeCookieName x) = normalizeCookieName x ↔
      beamerRegexAt true (normalizeCookieName x).data = none) ∧
    (afterLiteral beamerPrefix (normalizeCookieName x).data = none →
      normalizeCookieName (normalizeCookieName x) = normalizeCookieName x) := by
  have hiff : normalizeCookieName (normalizeCookieName x) = normalizeCookieName x ↔
      beamerRegexAt true (normalizeCookieName x).data = none := by
    rw [normalizeCookieName_data, ← normalizeChars_idem_iff]
    constructor
    · intro h
      have := congrArg String.data h
      exact this
    · intro h
      show String.mk (normalizeChars (normalizeChars x.data)) = String.mk (normalizeChars x.data)
      rw [h]
  refine ⟨hiff, fun h => hiff.mpr ?_⟩
  unfold beamerRegexAt
  simp only [if_true, h]

/-- C2, at the names `session.1` and `foo_reload`: normalizing twice gives
what normalizing once gives. -/
theorem normalizeCookieName_idempotent_iff_witness :
    normalizeCookieName (normalizeCookieName "session.1") = normalizeCookieName "session.1" ∧
      normalizeCookieName (normalizeCookieName "foo_reload") =
        normalizeCookieName "foo_reload" :=
  ⟨(normalizeCookieName_idempotent_iff "session.1").1.mpr (by decide),
    (normalizeCookieName_idempotent_iff "foo_reload").2 (by decide)⟩

/-- C8. Numerically-suffixed variants collapse: for every string `s` and all
non-empty strings `d1`, `d2` of ASCII digits, `s + "." + d1` and
`s + "." + d2` normalize to the same key. -/
theorem normalizeCookieName_digit_suffix (s d1 d2 : String)
    (h1 : d1 ≠ "") (hd1 : ∀ c ∈ d1.data, c.isDigit = true)
    (h2 : d2 ≠ "") (hd2 : ∀ c ∈ d2.data, c.isDigit = true) :
    normalizeCookieName (s ++ "." ++ d1) = normalizeCookieName (s ++ "." ++ d2) := by
  have hne : ∀ d : String, d ≠ "" → d.data ≠ [] := by
    intro d hd he
    exact hd (String.ext he)
  have hdata : ∀ d : String, (s ++ "." ++ d).data = s.data ++ '.' :: d.data := by
    intro d
    rw [String.data_append, String.data_append, List.append_assoc]
    rfl
  have hnorm : ∀ d : String, d ≠ "" → (∀ c ∈ d.data, c.isDigit = true) →
      normalizeChars (s ++ "." ++ d).data =
        replaceAll beamerRegexAt true (replaceAll nameRegexAt true (s.data ++ ['.', '*'])) := by
    intro d hd hdig
    rw [hdata d]
    show replaceAll beamerRegexAt true (replaceAll nameRegexAt true
      (replaceAll digitRegexAt true (s.data ++ '.' :: d.data))) = _
    rw [digit_on_suffix d.data (hne d hd) hdig s.data true]
  rw [normalizeCookieName_eq_iff, hnorm d1 h1 hd1, hnorm d2 h2 hd2]

/-- C8, at `session.1` and `session.42`. -/
theorem normalizeCookieName_digit_suffix_witness :
    normalizeCookieName ("session" ++ "." ++ "1") =
        normalizeCookieName ("session" ++ "." ++ "42") ∧
      normalizeCookieName ("session" ++ "." ++ "1") = "session.*" :=
  ⟨normalizeCookieName_digit_suffix "session" "1" "42" (by decide) (by decide)
    (by decide) (by decide), by decide⟩

theorem name_of_matches (s : List Char) (b : Bool) (h : nameRegexMatches s = true) :
    replaceAll nameRegexAt b s = '*' :: reloadToken := by
  cases s with
  | nil => cases h
  | cons c cs => exact replaceAll_cons_some _ _ _ _ _ (nameRegexAt_of_matches b _ h)

/-- After the reload rule a text that ends in `_reload` has at least the 8
characters of `*_reload`. -/
theorem name_length_reload : ∀ (q : List Char) (b : Bool),
    8 ≤ (replaceAll nameRegexAt b (q ++ reloadToken)).length := by
  intro q
  induction q with
  | nil =>
    intro b
    rw [List.nil_append, name_of_matches reloadToken b (by decide)]
    simp [reloadToken]
  | cons c q ih =>
    intro b
    cases h : nameRegexMatches (c :: (q ++ reloadToken)) with
    | true =>
      rw [List.cons_append, name_of_matches _ b h]
      simp [reloadToken]
    | false =>
      rw [List.cons_append,
        replaceAll_cons_none _ _ _ _ (nameRegexAt_of_not_matches b _ h), List.length_cons]
      have := ih false
      omega

theorem digit_fixed_reload (q : List Char) (b : Bool) :
    replaceAll digitRegexAt b (q ++ reloadToken) = q ++ reloadToken := by
  have : q ++ reloadToken = (q ++ ['_', 'r', 'e', 'l', 'o', 'a']) ++ ['d'] := by
    simp [reloadToken]
  rw [this]
  exact digit_fixed_of_last 'd' (by decide) _ b

/-- The three rules on a text that ends in `_reload`: the result is
`*_reload` exactly when no newline comes before the token. -/
theorem normalizeChars_reload (q : List Char) :
    normalizeChars (q ++ reloadToken) = '*' :: reloadToken ↔ q.all isDot = true := by
  have hN : normalizeChars (q ++ reloadToken) =
      replaceAll beamerRegexAt true (replaceAll nameRegexAt true (q ++ reloadToken)) := by
    show replaceAll beamerRegexAt true (replaceAll nameRegexAt true
      (replaceAll digitRegexAt true (q ++ reloadToken))) = _
    rw [digit_fixed_reload]
  rw [hN]
  constructor
  · intro h
    by_contra hq
    have hnm : nameRegexMatches (q ++ reloadToken) = false := by
      rw [Bool.eq_false_iff]
      intro hm
      obtain ⟨p, hp, hall⟩ := (nameRegexMatches_iff _).mp hm
      rw [List.append_cancel_right hp] at hq
      exact hq hall
    cases q with
    | nil => exact hq rfl
    | cons c q =>
      have hnm2 : nameRegexMatches (c :: (q ++ reloadToken)) = false := hnm
      rw [List.cons_append, replaceAll_cons_none nameRegexAt true c (q ++ reloadToken)
        (nameRegexAt_of_not_matches true _ hnm2)] at h
      have hlen := name_length_reload q false
      cases hb : beamerRegexAt true (c :: replaceAll nameRegexAt false (q ++ reloadToken)) with
      | none =>
        rw [beamer_of_none _ hb] at h
        have hl := congrArg List.length h
        have h8 : ('*' :: reloadToken).length = 8 := rfl
        rw [List.length_cons, h8] at hl
        omega
      | some out =>
        rw [beamer_of_some _ out hb] at h
        obtain ⟨cat, tail, _, hout⟩ := beamerRegexAt_some _ out hb
        rw [hout] at h
        simp [beamerPrefix] at h
  · intro hq
    have hm : nameRegexMatches (q ++ reloadToken) = true :=
      (nameRegexMatches_iff _).mpr ⟨q, rfl, hq⟩
    rw [name_of_matches _ true hm]
    exact beamer_of_none _ rfl

/-- C9, counterexample: with the prefix `a`, newline, `b` the name
normalizes to `a`, newline, `*_reload`, not to `*_reload`. -/
theorem normalizeCookieName_reload_counterexample :
    normalizeCookieName ("a\nb" ++ "_reload") = "a\n*_reload" ∧
      normalizeCookieName ("a\nb" ++ "_reload") ≠ "*_reload" := by
  decide

/-- C9, amended. Reload-suffixed variants collapse: for every string `p`,
`normalizeCookieName(p + "_reload") = "*_reload"` exactly when `p` has no
newline character; so every prefix without a newline gives `*_reload`. -/
theorem normalizeCookieName_reload (p : String) :
    normalizeCookieName (p ++ "_reload") = "*_reload" ↔ ∀ c ∈ p.data, c ≠ '\n' := by
  have hdata : (p ++ "_reload").data = p.data ++ reloadToken := by
    rw [String.data_append]
    rfl
  have hall : p.data.all isDot = true ↔ ∀ c ∈ p.data, c ≠ '\n' := by
    rw [List.all_eq_true]
    constructor
    · intro h c hc
      have := h c hc
      simpa [isDot] using this
    · intro h c hc
      simpa [isDot] using h c hc
  rw [← hall, ← normalizeChars_reload, ← hdata]
  constructor
  · intro h
    exact congrArg String.data h
  · intro h
    show String.mk (normalizeChars (p ++ "_reload").data) = String.mk ('*' :: reloadToken)
    rw [h]

/-- C9, at the prefixes `foo` and the empty prefix. -/
theorem normalizeCookieName_reload_witness :
    normalizeCookieName ("foo" ++ "_reload") = "*_reload" ∧
      normalizeCookieName ("" ++ "_reload") = "*_reload" :=
  ⟨(normalizeCookieName_reload "foo").mpr (by decide),
    (normalizeCookieName_reload "").mpr (by decide)⟩

/-! ## Metric store: `processCookies` -/

theorem mapGet_mapSet_same {β : Type} (m : List (String × β)) (n : String) (v : β) :
    mapGet (mapSet m n v) n = some v := by
  induction m with
  | nil => simp [mapSet, mapGet]
  | cons e rest ih =>
    obtain ⟨k, w⟩ := e
    unfold mapSet
    by_cases hk : k = n
    · rw [if_pos hk]
      simp [mapGet]
    · rw [if_neg hk]
      unfold mapGet
      rw [if_neg hk]
      exact ih

theorem mapGet_mapSet_ne {β : Type} (m : List (String × β)) (n k : String) (v : β)
    (hne : n ≠ k) : mapGet (mapSet m n v) k = mapGet m k := by
  induction m with
  | nil => simp [mapSet, mapGet, hne]
  | cons e rest ih =>
    obtain ⟨j, w⟩ := e
    unfold mapSet
    by_cases hj : j = n
    · rw [if_pos hj]
      have hjk : j ≠ k := by rw [hj]; exact hne
      simp [mapGet, hne, hjk]
    · rw [if_neg hj]
      unfold mapGet
      by_cases hjk : j = k
      · rw [if_pos hjk, if_pos hjk]
      · rw [if_neg hjk, if_neg hjk]
        exact ih

/-- What one cookie does to the series under a key `k`. -/
theorem mapGet_recordCookie (metrics : Metrics) (c : Cookie) (k : String) :
    mapGet (recordCookie metrics c) k =
      if normalizeCookieName c.Name = k then
        some ((mapGet metrics k).getD [] ++ [(c.Value.utf8ByteSize : Int)])
      else mapGet metrics k := by
  unfold recordCookie
  simp only
  by_cases hk : normalizeCookieName c.Name = k
  · rw [if_pos hk, ← hk]
    cases hget : mapGet metrics (normalizeCookieName c.Name) with
    | none =>
      simp only [Option.isNone_none, if_true, mapGet_mapSet_same, Option.getD_none,
        List.nil_append]
    | some h =>
      simp only [Option.isNone_some, Bool.false_eq_true, if_false, hget, mapGet_mapSet_same,
        Option.getD_some]
  · rw [if_neg hk]
    cases hget : mapGet metrics (normalizeCookieName c.Name) with
    | none =>
      simp only [Option.isNone_none, if_true, mapGet_mapSet_same]
      rw [mapGet_mapSet_ne _ _ _ _ hk, mapGet_mapSet_ne _ _ _ _ hk]
    | some h =>
      simp only [Option.isNone_some, Bool.false_eq_true, if_false, hget]
      rw [mapGet_mapSet_ne _ _ _ _ hk]

/-- The series under `k` after `processCookies`, in one formula. -/
theorem mapGet_processCookies (cookies : List Cookie) :
    ∀ (metrics : Metrics) (k : String),
      mapGet (processCookies metrics cookies) k =
        if cookies.filter (fun c => decide (normalizeCookieName c.Name = k)) = [] then
          mapGet metrics k
        else
          some ((mapGet metrics k).getD [] ++
            (cookies.filter (fun c => decide (normalizeCookieName c.Name = k))).map
              (fun c => (c.Value.utf8ByteSize : Int))) := by
  induction cookies with
  | nil =>
    intro metrics k
    simp [processCookies]
  | cons c cs ih =>
    intro metrics k
    have hstep : processCookies metrics (c :: cs) = processCookies (recordCookie metrics c) cs :=
      rfl
    rw [hstep, ih (recordCookie metrics c) k, mapGet_recordCookie]
    by_cases hk : normalizeCookieName c.Name = k
    · have hf : (c :: cs).filter (fun c => decide (normalizeCookieName c.Name = k)) =
          c :: cs.filter (fun c => decide (normalizeCookieName c.Name = k)) := by
        simp [List.filter, hk]
      rw [hf, if_pos hk]
      simp only [reduceCtorEq, if_false, List.map_cons, Option.getD_some]
      by_cases hcs : cs.filter (fun c => decide (normalizeCookieName c.Name = k)) = []
      · rw [if_pos hcs, hcs]
        rfl
      · rw [if_neg hcs, List.append_assoc]
        rfl
    · have hf : (c :: cs).filter (fun c => decide (normalizeCookieName c.Name = k)) =
          cs.filter (fun c => decide (normalizeCookieName c.Name = k)) := by
        simp [List.filter, hk]
      rw [hf, if_neg hk]

/-- C11. Per-key recording: after `processCookies` the series under a key `k`
holds its previous recordings followed by the byte lengths of the values of
exactly the cookies whose normalized name is `k`, in list order; a key that
was absent is created as soon as one cookie names it and stays absent
otherwise; no existing key is removed; the series of a key that no cookie
names is unchanged. -/
theorem processCookies_series (metrics : Metrics) (cookies : List Cookie) (k : String) :
    (∀ h, mapGet metrics k = some h →
      mapGet (processCookies metrics cookies) k =
        some (h ++ (cookies.filter (fun c => decide (normalizeCookieName c.Name = k))).map
          (fun c => (c.Value.utf8ByteSize : Int)))) ∧
    (mapGet metrics k = none →
      (∃ c ∈ cookies, normalizeCookieName c.Name = k) →
      mapGet (processCookies metrics cookies) k =
        some ((cookies.filter (fun c => decide (normalizeCookieName c.Name = k))).map
          (fun c => (c.Value.utf8ByteSize : Int)))) ∧
    ((∀ c ∈ cookies, normalizeCookieName c.Name ≠ k) →
      mapGet (processCookies metrics cookies) k = mapGet metrics k) ∧
    (k ∈ mapKeys metrics → k ∈ mapKeys (processCookies metrics cookies)) := by
  have hmain := mapGet_processCookies cookies metrics k
  have hnone : (∀ c ∈ cookies, normalizeCookieName c.Name ≠ k) →
      cookies.filter (fun c => decide (normalizeCookieName c.Name = k)) = [] := by
    intro h
    rw [List.filter_eq_nil_iff]
    intro c hc
    simpa using h c hc
  have hsome : (∃ c ∈ cookies, normalizeCookieName c.Name = k) →
      cookies.filter (fun c => decide (normalizeCookieName c.Name = k)) ≠ [] := by
    rintro ⟨c, hc, hck⟩ hnil
    rw [List.filter_eq_nil_iff] at hnil
    exact hnil c hc (by simpa using hck)
  have hpart1 : ∀ h, mapGet metrics k = some h →
      mapGet (processCookies metrics cookies) k =
        some (h ++ (cookies.filter (fun c => decide (normalizeCookieName c.Name = k))).map
          (fun c => (c.Value.utf8ByteSize : Int))) := by
    intro h hget
    rw [hmain, hget]
    by_cases hnil : cookies.filter (fun c => decide (normalizeCookieName c.Name = k)) = []
    · rw [if_pos hnil, hnil]
      simp
    · rw [if_neg hnil]
      rfl
  refine ⟨hpart1, ?_, ?_, ?_⟩
  · intro hget hex
    rw [hmain, if_neg (hsome hex), hget]
    rfl
  · intro hall
    rw [hmain, if_pos (hnone hall)]
  · intro hin
    cases hget : mapGet metrics k with
    | none => exact absurd ((mapGet_eq_none_iff metrics k).mp hget) (fun h => h hin)
    | some h =>
      by_contra hnot
      have := (mapGet_eq_none_iff (processCookies metrics cookies) k).mpr hnot
      rw [hpart1 h hget] at this
      cases this

/-- C11, at the store with the key `a.*` holding `[7]` and the cookies
`a.1=xyz`, `b=12`, `a.22=q`. -/
theorem processCookies_series_witness :
    mapGet (processCookies [("a.*", [7])]
        [⟨"a.1", "xyz"⟩, ⟨"b", "12"⟩, ⟨"a.22", "q"⟩]) "a.*" = some [7, 3, 1] ∧
      mapGet (processCookies [("a.*", [7])]
        [⟨"a.1", "xyz"⟩, ⟨"b", "12"⟩, ⟨"a.22", "q"⟩]) "b" = some [2] :=
  ⟨(processCookies_series [("a.*", [7])]
      [⟨"a.1", "xyz"⟩, ⟨"b", "12"⟩, ⟨"a.22", "q"⟩] "a.*").1 [7] (by decide),
    (processCookies_series [("a.*", [7])]
      [⟨"a.1", "xyz"⟩, ⟨"b", "12"⟩, ⟨"a.22", "q"⟩] "b").2.1 (by decide) (by decide)⟩

/-! ## Bucketizer: the marks -/

/-- The slice `buckets` written out, for `int64` values `mn <= mx` whose
difference fits in `int64`: nothing wraps around. -/
theorem bucketMarks_eq (mn mx : Int) (hmn : minInt64 ≤ mn) (hmx : mx ≤ maxInt64)
    (h : mn ≤ mx) (hfit : mx - mn ≤ maxInt64) :
    bucketMarks mn mx =
      [mn, mn + Int.tdiv (mx - mn) 10, mn + Int.tdiv (mx - mn) 10 * 2,
        mn + Int.tdiv (mx - mn) 10 * 3, mn + Int.tdiv (mx - mn) 10 * 4,
        mn + Int.tdiv (mx - mn) 10 * 5, mn + Int.tdiv (mx - mn) 10 * 6,
        mn + Int.tdiv (mx - mn) 10 * 7, mn + Int.tdiv (mx - mn) 10 * 8,
        mn + Int.tdiv (mx - mn) 10 * 9, mx] := by
  have hmap : bucketMarks mn mx =
      (List.range 10).map (fun (i : Nat) => mn + Int.tdiv (mx - mn) 10 * (i : Int)) ++
        [mx] := by
    unfold bucketMarks
    simp only
    congr 1
    apply List.map_congr_left
    intro i hi
    have hi9 : i ≤ 9 := by
      have := List.mem_range.mp hi
      omega
    exact mark_exact mn mx hmn (le_trans h hmx) (le_trans hmn h) hmx
      (by unfold minInt64; omega) hfit i hi9
  rw [hmap]
  simp [List.range, List.range.loop]

/-- For `mn <= mx` the step is the floor of `(mx - mn) / 10`. -/
theorem bucketStep_bounds (mn mx : Int) (h : mn ≤ mx) :
    0 ≤ Int.tdiv (mx - mn) 10 ∧ 10 * Int.tdiv (mx - mn) 10 ≤ mx - mn ∧
      mx - mn < 10 * Int.tdiv (mx - mn) 10 + 10 := by
  rw [Int.tdiv_eq_ediv (by omega) (by decide)]
  omega

/-- C18, counterexample: with `globalMin = -2^63` and `globalMax = 2^63 - 1`
the `int64` difference wraps around, and the marks at indices 0 to 9 are all
`globalMin` although `globalMax - globalMin >= 10`; with
`globalMin = -5*10^18` and `globalMax = 5*10^18` the marks are not even
non-decreasing. -/
theorem bucketMarks_ordered_counterexample :
    bucketMarks (-9223372036854775808) 9223372036854775807 =
      [-9223372036854775808, -9223372036854775808, -9223372036854775808,
        -9223372036854775808, -9223372036854775808, -9223372036854775808,
        -9223372036854775808, -9223372036854775808, -9223372036854775808,
        -9223372036854775808, 9223372036854775807] ∧
    (bucketMarks (-5000000000000000000) 5000000000000000000)[0]? =
      some (-5000000000000000000) ∧
    (bucketMarks (-5000000000000000000) 5000000000000000000)[1]? =
      some (-5844674407370955161) ∧
    (bucketMarks (-5000000000000000000) 5000000000000000000)[6]? =
      some 8378697629483820650 := by
  decide

/-- C18, amended. Marks are ordered: for `int64` values
`globalMin <= globalMax` whose difference fits in `int64` the 11 marks are
non-decreasing, mark 0 is `globalMin`, mark 9 is
`globalMin + 9*((globalMax - globalMin)/10)`, which is at most `globalMax`,
mark 10 is `globalMax`; the marks are strictly increasing when
`globalMax - globalMin >= 10`, and marks 0 to 9 all equal `globalMin` when
`globalMax - globalMin < 10`. -/
theorem bucketMarks_ordered (globalMin globalMax : Int) (h : globalMin ≤ globalMax)
    (hmn : minInt64 ≤ globalMin) (hmx : globalMax ≤ maxInt64)
    (hfit : globalMax - globalMin ≤ maxInt64) :
    (bucketMarks globalMin globalMax).length = 11 ∧
    (bucketMarks globalMin globalMax).Pairwise (fun a b => a ≤ b) ∧
    (bucketMarks globalMin globalMax)[0]? = some globalMin ∧
    (bucketMarks globalMin globalMax)[9]? =
      some (globalMin + 9 * Int.tdiv (globalMax - globalMin) 10) ∧
    globalMin + 9 * Int.tdiv (globalMax - globalMin) 10 ≤ globalMax ∧
    (bucketMarks globalMin globalMax)[10]? = some globalMax ∧
    (globalMax - globalMin ≥ 10 →
      (bucketMarks globalMin globalMax).Pairwise (fun a b => a < b)) ∧
    (globalMax - globalMin < 10 →
      ∀ i : Nat, i ≤ 9 → (bucketMarks globalMin globalMax)[i]? = some globalMin) := by
  obtain ⟨h0, h1, h2⟩ := bucketStep_bounds globalMin globalMax h
  refine ⟨bucketMarks_length _ _, ?_, ?_, ?_, by omega, bucketMarks_last _ _, ?_, ?_⟩
  · rw [bucketMarks_eq _ _ hmn hmx h hfit]
    simp only [List.pairwise_cons, List.mem_cons, List.mem_singleton, forall_eq_or_imp, forall_eq,
      List.not_mem_nil, false_implies, implies_true, List.Pairwise.nil, and_true]
    omega
  · rw [bucketMarks_eq _ _ hmn hmx h hfit]
    rfl
  · rw [bucketMarks_eq _ _ hmn hmx h hfit]
    simp only [List.getElem?_cons_succ, List.getElem?_cons_zero]
    rw [mul_comm]
  · intro hw
    rw [bucketMarks_eq _ _ hmn hmx h hfit]
    simp only [List.pairwise_cons, List.mem_cons, List.mem_singleton, forall_eq_or_imp, forall_eq,
      List.not_mem_nil, false_implies, implies_true, List.Pairwise.nil, and_true]
    omega
  · intro hn i hi
    have hq : Int.tdiv (globalMax - globalMin) 10 = 0 := by omega
    rw [bucketMarks_getElem? _ _ i hi,
      mark_exact globalMin globalMax hmn (le_trans h hmx) (le_trans hmn h) hmx
        (by unfold minInt64; omega) hfit i hi, hq]
    simp

/-- C18, at `globalMin = 3`, `globalMax = 47`: the marks 3, 7, ..., 39, 47
are strictly increasing. -/
theorem bucketMarks_ordered_witness :
    (bucketMarks 3 47).Pairwise (fun a b => a < b) ∧
      bucketMarks 3 47 = [3, 7, 11, 15, 19, 23, 27, 31, 35, 39, 47] :=
  ⟨(bucketMarks_ordered 3 47 (by decide) (by decide) (by decide)
    (by decide)).2.2.2.2.2.2.1 (by decide), by decide⟩

/-! ## Bucketizer: termination of the scan -/

/-- For `int64` values `mn <= mx` whose difference fits in `int64` no mark
is above `mx`. -/
theorem bucketMarks_le_max (mn mx : Int) (h : mn ≤ mx) (hmn : minInt64 ≤ mn)
    (hmx : mx ≤ maxInt64) (hfit : mx - mn ≤ maxInt64) :
    ∀ m ∈ bucketMarks mn mx, m ≤ mx := by
  obtain ⟨h0, h1, h2⟩ := bucketStep_bounds mn mx h
  rw [bucketMarks_eq _ _ hmn hmx h hfit]
  simp only [List.mem_cons, List.mem_singleton, forall_eq_or_imp, forall_eq,
    List.not_mem_nil, false_implies, implies_true, and_true]
  omega

/-- A bar that starts after the mark under the bucket cursor and does not end
before it starts is not consumed: the bucket cursor moves on when it is
before index 10, and at index 10 nothing changes. -/
theorem scanStep_blocked (bars : List Bar) (buckets : List Int) (hb : buckets.length = 11)
    (s : Scan) (b : Bar) (m : Int) (hbar : bars[s.i]? = some b) (hm : buckets[s.bi]? = some m)
    (hlt : m < b.From) (hft : b.From ≤ b.To) :
    scanStep bars buckets s = some (if s.bi < 10 then { s with bi := s.bi + 1 } else s) := by
  unfold scanStep
  rw [hbar, hm]
  simp only
  rw [if_neg (by omega), if_neg (by omega), hb]
  by_cases h10 : s.bi < 10
  · rw [if_pos h10, if_pos (by omega)]
  · rw [if_neg h10, if_neg (by omega)]

/-- The loop does not end on a bar that starts after every mark: whatever the
budget, the budget runs out. -/
theorem scanLoop_blocked (bars : List Bar) (buckets : List Int) (hb : buckets.length = 11)
    (b : Bar) (hall : ∀ m ∈ buckets, m < b.From) (hft : b.From ≤ b.To) :
    ∀ (fuel : Nat) (s : Scan), s.bi ≤ 10 → s.i < bars.length - 1 → bars[s.i]? = some b →
      scanLoop bars buckets fuel s = .fuelOut := by
  intro fuel
  induction fuel with
  | zero =>
    intro s _ hi _
    unfold scanLoop
    rw [if_pos hi]
  | succ n ih =>
    intro s hbi hi hbar
    have hbi2 : s.bi < buckets.length := by omega
    have hm : buckets[s.bi]? = some buckets[s.bi] := List.getElem?_eq_getElem hbi2
    have hlt : buckets[s.bi] < b.From := hall _ (List.getElem_mem hbi2)
    unfold scanLoop
    rw [if_pos hi, scanStep_blocked bars buckets hb s b _ hbar hm hlt hft]
    simp only
    by_cases h10 : s.bi < 10
    · rw [if_pos h10]
      exact ih _ (by show s.bi + 1 ≤ 10; omega) hi hbar
    · rw [if_neg h10]
      exact ih s hbi hi hbar

/-- C16. Termination of the scan: for a non-empty bar sequence in which every
bar except the last has `From <= globalMax`, and for every `globalMin`,
`getHistogramBuckets` returns once the budget is `len(bars) + 9` iterations
or more; each iteration consumes one bar or advances the bucket cursor, the
bucket cursor stays at most 10, and at index 10 a bar is consumed.  Without
the precondition the loop need not end: a bar with
`globalMax < From <= To` under the cursor at bucket index 10 leaves the loop
variables as they are, and with `int64` values `globalMin <= globalMax`
whose difference fits in `int64` a first bar of that kind, followed by
another bar, makes every budget run out. -/
theorem getHistogramBuckets_terminates (bars : List Bar) (globalMin globalMax : Int)
    (hne : bars ≠ []) (hpre : ∀ b ∈ bars.dropLast, b.From ≤ globalMax) :
    (∀ fuel : Nat, bars.length + 9 ≤ fuel →
      ∃ r, getHistogramBuckets fuel bars globalMin globalMax = .ok r) ∧
    (∀ s : Scan, ScanInv s → s.i < bars.length - 1 →
      ∃ s1, scanStep bars (bucketMarks globalMin globalMax) s = some s1 ∧ ScanInv s1 ∧
        ((s1.i = s.i + 1 ∧ s1.bi = s.bi) ∨ (s1.i = s.i ∧ s1.bi = s.bi + 1)) ∧
        (s.bi = 10 → s1.i = s.i + 1)) ∧
    (∀ (bars2 : List Bar) (s : Scan) (b : Bar),
      s.bi = 10 → s.i < bars2.length - 1 → bars2[s.i]? = some b →
      globalMax < b.From → b.From ≤ b.To →
      scanStep bars2 (bucketMarks globalMin globalMax) s = some s) ∧
    (∀ (b : Bar) (rest : List Bar), rest ≠ [] → globalMin ≤ globalMax →
      minInt64 ≤ globalMin → globalMax ≤ maxInt64 → globalMax - globalMin ≤ maxInt64 →
      globalMax < b.From → b.From ≤ b.To →
      ∀ fuel : Nat, getHistogramBuckets fuel (b :: rest) globalMin globalMax = .fuelOut) := by
  refine ⟨?_, ?_, ?_, ?_⟩
  · intro fuel hf
    obtain ⟨last, hlast⟩ : ∃ last, bars.getLast? = some last :=
      ⟨bars.getLast hne, List.getLast?_eq_getLast bars hne⟩
    have hlen : 0 < bars.length := List.length_pos.mpr hne
    obtain ⟨cs, hcs⟩ := scanLoop_returns bars globalMin globalMax hpre
      fuel _ (scanStart_inv last.Count) (by simp only [scanStart]; omega)
    refine ⟨List.zipWith Bucket.mk (bucketMarks globalMin globalMax) cs, ?_⟩
    unfold getHistogramBuckets
    simp only [hlast, hcs]
  · intro s hs hi
    obtain ⟨s1, h1, hinv, hprog⟩ := scanStep_progress bars globalMin globalMax s hs hi hpre
    refine ⟨s1, h1, hinv, ?_, ?_⟩
    · rcases hprog with h | ⟨ha, hb, _⟩
      · exact Or.inl h
      · exact Or.inr ⟨ha, hb⟩
    · intro h10
      rcases hprog with h | ⟨_, _, hc⟩
      · exact h.1
      · omega
  · intro bars2 s b h10 _ hbar hgt hft
    have hm : (bucketMarks globalMin globalMax)[s.bi]? = some globalMax := by
      rw [h10]
      exact bucketMarks_last globalMin globalMax
    rw [scanStep_blocked bars2 _ (bucketMarks_length _ _) s b globalMax hbar hm hgt hft,
      if_neg (by omega)]
  · intro b rest hrest hle hmn hmx hfit hgt hft fuel
    obtain ⟨last, hlast⟩ : ∃ last, (b :: rest).getLast? = some last :=
      ⟨(b :: rest).getLast (by simp), List.getLast?_eq_getLast _ (by simp)⟩
    have hlen : 0 < rest.length := List.length_pos.mpr hrest
    have hall : ∀ m ∈ bucketMarks globalMin globalMax, m < b.From := by
      intro m hm
      have := bucketMarks_le_max globalMin globalMax hle hmn hmx hfit m hm
      omega
    have hloop := scanLoop_blocked (b :: rest) (bucketMarks globalMin globalMax)
      (bucketMarks_length _ _) b hall hft fuel (scanStart last.Count)
      (by simp [scanStart]) (by simp only [scanStart, List.length_cons]; omega)
      (by simp [scanStart])
    unfold getHistogramBuckets
    simp only [hlast, hloop]

/-- C16, at the bars `[0,10]` with count 5 and `[10,20]` with count 3,
`globalMin = 0`, `globalMax = 20`: the call returns with a budget of 11
iterations. -/
theorem getHistogramBuckets_terminates_witness :
    ∃ r, getHistogramBuckets 11 [⟨0, 10, 5⟩, ⟨10, 20, 3⟩] 0 20 = .ok r :=
  (getHistogramBuckets_terminates [⟨0, 10, 5⟩, ⟨10, 20, 3⟩] 0 20 (by decide)
    (by decide)).1 11 (by decide)

/-! ## Bucketizer: the final bucket -/

/-- The loop reads only the bars before the last one. -/
theorem scanLoop_congr (bars bars2 : List Bar) (buckets : List Int)
    (hlen : bars.length = bars2.length)
    (hsame : ∀ i : Nat, i < bars.length - 1 → bars[i]? = bars2[i]?) :
    ∀ (fuel : Nat) (s : Scan),
      scanLoop bars buckets fuel s = scanLoop bars2 buckets fuel s := by
  intro fuel
  induction fuel with
  | zero =>
    intro s
    unfold scanLoop
    rw [hlen]
  | succ n ih =>
    intro s
    unfold scanLoop
    rw [← hlen]
    by_cases hi : s.i < bars.length - 1
    · rw [if_pos hi, if_pos hi]
      have hstep : scanStep bars buckets s = scanStep bars2 buckets s := by
        unfold scanStep
        rw [hsame s.i hi]
      rw [hstep]
      cases scanStep bars2 buckets s with
      | none => rfl
      | some s1 => exact ih s1
    · rw [if_neg hi, if_neg hi]

/-- C13, counterexample: the bars `[100,100]` with count 1 and `[100,100]`
with count `2^63 - 1`, `globalMin = 0`, `globalMax = 100`.  The final bucket
is seeded with `2^63 - 1`, the first bar is added to it, and the `int64`
count wraps around to `-2^63`, below the count of the last bar. -/
theorem getHistogramBuckets_last_bucket_counterexample :
    getHistogramBuckets 12 [⟨100, 100, 1⟩, ⟨100, 100, 9223372036854775807⟩] 0 100 =
      .ok [⟨0, 0⟩, ⟨10, 0⟩, ⟨20, 0⟩, ⟨30, 0⟩, ⟨40, 0⟩, ⟨50, 0⟩, ⟨60, 0⟩, ⟨70, 0⟩, ⟨80, 0⟩,
        ⟨90, 0⟩, ⟨100, -9223372036854775808⟩] ∧
    ¬ ((9223372036854775807 : Int) ≤ -9223372036854775808) := by
  decide

/-- C13, amended. The maximum-value bucket is never dropped: for a non-empty
bar sequence `init ++ [last]` with non-negative counts whose total is at
most `maxInt64`, whenever `getHistogramBuckets` returns, the final bucket
has the mark `globalMax` and a count that is at least the count of the last
bar; the scan does not read the last bar, so another `From` and `To` on it
give the same outcome; and for a single bar with count `c` the call returns,
whatever the budget, ten buckets of count 0 followed by one bucket of count
`c`. -/
theorem getHistogramBuckets_last_bucket (init : List Bar) (last : Bar)
    (globalMin globalMax : Int) (hc : ∀ b ∈ init ++ [last], 0 ≤ b.Count) :
    (barTotal (init ++ [last]) ≤ maxInt64 →
      ∀ (fuel : Nat) (r : List Bucket),
        getHistogramBuckets fuel (init ++ [last]) globalMin globalMax = .ok r →
        r.length = 11 ∧
          ∃ bk, r[10]? = some bk ∧ bk.Mark = globalMax ∧ last.Count ≤ bk.Count) ∧
    (∀ (fuel : Nat) (f t : Int),
      getHistogramBuckets fuel (init ++ [⟨f, t, last.Count⟩]) globalMin globalMax =
        getHistogramBuckets fuel (init ++ [last]) globalMin globalMax) ∧
    (∀ fuel : Nat,
      getHistogramBuckets fuel [last] globalMin globalMax =
        .ok (List.zipWith Bucket.mk (bucketMarks globalMin globalMax)
          [0, 0, 0, 0, 0, 0, 0, 0, 0, 0, last.Count])) := by
  have hlast : ∀ b : Bar, (init ++ [b]).getLast? = some b := by
    intro b
    simp
  refine ⟨?_, ?_, ?_⟩
  · intro hT fuel r h
    exact ⟨(getHistogramBuckets_total fuel _ globalMin globalMax r h).1,
      (getHistogramBuckets_exact fuel _ globalMin globalMax hc hT r h).2 last (hlast last)⟩
  · intro fuel f t
    unfold getHistogramBuckets
    simp only [hlast]
    have hsame : ∀ i : Nat, i < (init ++ [Bar.mk f t last.Count]).length - 1 →
        (init ++ [Bar.mk f t last.Count])[i]? = (init ++ [last])[i]? := by
      intro i hi
      have hi2 : i < init.length := by simpa using hi
      rw [List.getElem?_append_left hi2, List.getElem?_append_left hi2]
    rw [scanLoop_congr (init ++ [Bar.mk f t last.Count]) (init ++ [last])
      (bucketMarks globalMin globalMax) (by simp) hsame]
  · intro fuel
    cases fuel with
    | zero => rfl
    | succ n => rfl

/-- C13, at the bars `[0,10]` with count 5 and `[10,20]` with count 3,
`globalMin = 0`, `globalMax = 20`: the final bucket has mark 20 and count 3. -/
theorem getHistogramBuckets_last_bucket_witness :
    ∃ r, getHistogramBuckets 12 [⟨0, 10, 5⟩, ⟨10, 20, 3⟩] 0 20 = .ok r ∧
      r.length = 11 ∧
        ∃ bk, r[10]? = some bk ∧ bk.Mark = 20 ∧ (3 : Int) ≤ bk.Count :=
  ⟨_, by decide,
    (getHistogramBuckets_last_bucket [⟨0, 10, 5⟩] ⟨10, 20, 3⟩ 0 20 (by decide)).1
      (by decide) 12
      [⟨0, 5⟩, ⟨2, 0⟩, ⟨4, 0⟩, ⟨6, 0⟩, ⟨8, 0⟩, ⟨10, 0⟩, ⟨12, 0⟩, ⟨14, 0⟩, ⟨16, 0⟩,
        ⟨18, 0⟩, ⟨20, 3⟩] (by decide)⟩

/-! ## Key normalizer: names that no rule matches -/

/-- A search that finds the pattern at no position copies the text. -/
theorem replaceAll_fixed_of_none (t : Bool → List Char → Option (List Char)) :
    ∀ (s : List Char) (b : Bool),
      (∀ (p r : List Char) (b1 : Bool), s = p ++ r → t b1 r = none) →
      replaceAll t b s = s := by
  intro s
  induction s with
  | nil =>
    intro b h
    exact replaceAll_nil_none t b (h [] [] b rfl)
  | cons c cs ih =>
    intro b h
    rw [replaceAll_cons_none t b c cs (h [] (c :: cs) b rfl), ih false]
    intro p r b1 hp
    exact h (c :: p) r b1 (by rw [hp]; rfl)

/-- Where `\.[0-9]+$` matches, the rest of the text is a `.` and then
digits, at least one. -/
theorem digitRegexAt_some_shape (b : Bool) (r out : List Char)
    (h : digitRegexAt b r = some out) :
    ∃ d, r = '.' :: d ∧ d ≠ [] ∧ ∀ c ∈ d, c.isDigit = true := by
  unfold digitRegexAt at h
  split at h
  · rename_i c d ds
    by_cases hc : c = '.' ∧ d.isDigit = true ∧ ds.all Char.isDigit = true
    · obtain ⟨h1, h2, h3⟩ := hc
      refine ⟨d :: ds, by rw [h1], by simp, ?_⟩
      intro x hx
      rcases List.mem_cons.mp hx with hx | hx
      · rw [hx]; exact h2
      · exact List.all_eq_true.mp h3 x hx
    · rw [if_neg hc] at h
      cases h
  · cases h

/-- The digit rule leaves alone a text that does not end in `.` and
digits. -/
theorem digit_fixed_of_no_suffix (s : List Char)
    (h : ∀ p d : List Char, d ≠ [] → (∀ c ∈ d, c.isDigit = true) → s ≠ p ++ '.' :: d)
    (b : Bool) : replaceAll digitRegexAt b s = s := by
  apply replaceAll_fixed_of_none
  intro p r b1 hp
  cases hr : digitRegexAt b1 r with
  | none => rfl
  | some out =>
    exfalso
    obtain ⟨d, hd, hne, hdig⟩ := digitRegexAt_some_shape b1 r out hr
    exact h p d hne hdig (by rw [hp, hd])

/-- The reload rule leaves alone a text that does not end in `_reload`. -/
theorem name_fixed_of_no_suffix (s : List Char)
    (h : ∀ p : List Char, s ≠ p ++ reloadToken) (b : Bool) :
    replaceAll nameRegexAt b s = s := by
  apply replaceAll_fixed_of_none
  intro p r b1 hp
  apply nameRegexAt_of_not_matches
  rw [Bool.eq_false_iff]
  intro hm
  obtain ⟨q, hq, _⟩ := (nameRegexMatches_iff r).mp hm
  exact h (p ++ q) (by rw [hp, hq, List.append_assoc])

/-- The vendor rule leaves alone a text that does not start with
`_BEAMER_`. -/
theorem beamer_fixed_of_no_prefix (s : List Char)
    (h : ∀ r : List Char, s ≠ beamerPrefix ++ r) :
    replaceAll beamerRegexAt true s = s := by
  apply beamer_of_none
  unfold beamerRegexAt
  simp only [if_true]
  cases hal : afterLiteral beamerPrefix s with
  | none => rfl
  | some r => exact absurd (afterLiteral_some _ _ _ hal) (h r)

/-- C19. Ordinary names are left alone: a string `x` that does not end with a
`.` followed by one or more ASCII digits, does not end with `_reload` and
does not start with `_BEAMER_` is its own normalized name. -/
theorem normalizeCookieName_ordinary (x : String)
    (hdigit : ∀ p d : String, d ≠ "" → (∀ c ∈ d.data, c.isDigit = true) → x ≠ p ++ "." ++ d)
    (hreload : ∀ p : String, x ≠ p ++ "_reload")
    (hbeamer : ∀ r : String, x ≠ "_BEAMER_" ++ r) :
    normalizeCookieName x = x := by
  have h1 : replaceAll digitRegexAt true x.data = x.data := by
    apply digit_fixed_of_no_suffix
    intro p d hne hdig hx
    apply hdigit (String.mk p) (String.mk d) (fun he => hne (congrArg String.data he)) hdig
    apply String.ext
    rw [String.data_append, String.data_append, List.append_assoc]
    exact hx
  have h2 : replaceAll nameRegexAt true x.data = x.data := by
    apply name_fixed_of_no_suffix
    intro p hx
    apply hreload (String.mk p)
    apply String.ext
    rw [String.data_append]
    exact hx
  have h3 : replaceAll beamerRegexAt true x.data = x.data := by
    apply beamer_fixed_of_no_prefix
    intro r hx
    apply hbeamer (String.mk r)
    apply String.ext
    rw [String.data_append]
    exact hx
  apply String.ext
  show replaceAll beamerRegexAt true (replaceAll nameRegexAt true
    (replaceAll digitRegexAt true x.data)) = x.data
  rw [h1, h2, h3]

/-- C19, at the name `session`. -/
theorem normalizeCookieName_ordinary_witness : normalizeCookieName "session" = "session" :=
  normalizeCookieName_ordinary "session"
    (fun p d _ _ h => by
      have h1 : '.' ∈ (p ++ "." ++ d).data := by
        rw [String.data_append, String.data_append]
        simp
      rw [← h] at h1
      revert h1
      decide)
    (fun p h => by
      have h1 : '_' ∈ (p ++ "_reload").data := by
        rw [String.data_append]
        simp
      rw [← h] at h1
      revert h1
      decide)
    (fun r h => by
      have h1 : '_' ∈ ("_BEAMER_" ++ r).data := by
        rw [String.data_append]
        simp
      rw [← h] at h1
      revert h1
      decide)

/-! ## Key normalizer: vendor-prefixed names -/

theorem digit_any_start (s : List Char) (b : Bool) :
    replaceAll digitRegexAt b s = replaceAll digitRegexAt false s := by
  cases s with
  | nil => rfl
  | cons c cs => rfl

/-- The digit rule copies a leading part that holds no `.`. -/
theorem digit_skip_prefix (pre : List Char) (hpre : ∀ c ∈ pre, c ≠ '.') (r : List Char) :
    ∀ b : Bool, replaceAll digitRegexAt b (pre ++ r) = pre ++ replaceAll digitRegexAt false r := by
  induction pre with
  | nil =>
    intro b
    exact digit_any_start r b
  | cons c pre ih =>
    intro b
    have hc : c ≠ '.' := hpre c (List.mem_cons_self c pre)
    have hnone : digitRegexAt b (c :: (pre ++ r)) = none := by
      cases hr : digitRegexAt b (c :: (pre ++ r)) with
      | none => rfl
      | some out =>
        exfalso
        obtain ⟨d, hd, _, _⟩ := digitRegexAt_some_shape b _ out hr
        exact hc (List.cons.inj hd).1
    rw [List.cons_append, replaceAll_cons_none _ _ _ _ hnone,
      ih (fun x hx => hpre x (List.mem_cons_of_mem c hx)) false]
    rfl

/-- The digit rule leaves the text alone or replaces what follows a `.` of
the text. -/
theorem digit_result : ∀ (s : List Char) (b : Bool),
    replaceAll digitRegexAt b s = s ∨
      ∃ q d, s = q ++ '.' :: d ∧ replaceAll digitRegexAt b s = q ++ ['.', '*'] := by
  intro s
  induction s with
  | nil =>
    intro b
    left
    exact replaceAll_nil_none _ _ rfl
  | cons c cs ih =>
    intro b
    cases h : digitRegexAt b (c :: cs) with
    | none =>
      rw [replaceAll_cons_none _ _ _ _ h]
      rcases ih false with h1 | ⟨q, d, hs, h1⟩
      · left; rw [h1]
      · right
        exact ⟨c :: q, d, by rw [hs]; rfl, by rw [h1]; rfl⟩
    | some out =>
      rw [replaceAll_cons_some _ _ _ _ _ h]
      right
      obtain ⟨d, hd, _, _⟩ := digitRegexAt_some_shape b _ out h
      exact ⟨[], d, hd, by rw [digitRegexAt_some b _ out h]; rfl⟩

/-- The leading run of characters of a class stops at the first character
outside the class, whatever follows it. -/
theorem takeWhile_append_stop (p : Char → Bool) (c : Char) (hc : p c = false) :
    ∀ (q x y : List Char),
      (q ++ c :: x).takeWhile p = (q ++ c :: y).takeWhile p := by
  intro q
  induction q with
  | nil =>
    intro x y
    simp [List.takeWhile, hc]
  | cons a q ih =>
    intro x y
    rw [List.cons_append, List.cons_append, List.takeWhile_cons, List.takeWhile_cons, ih x y]

/-- A text whose leading run of `[A-Z_]` holds no `_` is not matched by
`([A-Z_]+)_.*?$`, nor by `_.*?$`. -/
theorem beamerCategory_none_of_run : ∀ (s : List Char),
    '_' ∉ s.takeWhile isCat → beamerCategory s = none ∧ beamerTailMatches s = false := by
  intro s
  induction s with
  | nil => intro _; exact ⟨rfl, rfl⟩
  | cons c cs ih =>
    intro h
    by_cases hc : isCat c = true
    · have htw : (c :: cs).takeWhile isCat = c :: cs.takeWhile isCat := by
        simp [List.takeWhile, hc]
      rw [htw] at h
      have hcu : c ≠ '_' := fun he => h (by rw [he]; exact List.mem_cons_self _ _)
      obtain ⟨h1, h2⟩ := ih (fun hm => h (List.mem_cons_of_mem c hm))
      refine ⟨?_, ?_⟩
      · rw [beamerCategory_cons, if_pos hc, h1, h2]
        rfl
      · simp [beamerTailMatches, hcu]
    · refine ⟨?_, ?_⟩
      · rw [beamerCategory_cons, if_neg hc]
      · have hcu : c ≠ '_' := by
          intro he
          rw [he] at hc
          exact hc (by decide)
        simp [beamerTailMatches, hcu]

/-- Group 2 of the vendor pattern on a category followed by `_` and a text
without newline whose leading run of `[A-Z_]` holds no `_`: the group is the
category. -/
theorem beamerCategory_of_run (s : List Char) (hdot : s.all isDot = true)
    (hrun : '_' ∉ s.takeWhile isCat) :
    ∀ (cat : List Char), cat ≠ [] → (∀ c ∈ cat, isCat c = true) →
      beamerCategory (cat ++ '_' :: s) = some cat := by
  obtain ⟨h1, h2⟩ := beamerCategory_none_of_run s hrun
  have hsep : beamerCategory ('_' :: s) = none := by
    rw [beamerCategory_cons, if_pos (by decide), h1, h2]
    rfl
  have htail : beamerTailMatches ('_' :: s) = true := by
    simp [beamerTailMatches, hdot]
  intro cat
  induction cat with
  | nil => intro h; exact absurd rfl h
  | cons c cs ih =>
    intro _ hall
    have hc : isCat c = true := hall c (List.mem_cons_self c cs)
    cases cs with
    | nil =>
      show beamerCategory (c :: '_' :: s) = some [c]
      rw [beamerCategory_cons, if_pos hc, hsep, htail]
      rfl
    | cons c2 rest =>
      have ih2 := ih (by simp) (fun x hx => hall x (List.mem_cons_of_mem c hx))
      show beamerCategory (c :: ((c2 :: rest) ++ '_' :: s)) = some (c :: c2 :: rest)
      rw [beamerCategory_cons, if_pos hc, ih2]

theorem afterLiteral_append : ∀ (lit r : List Char), afterLiteral lit (lit ++ r) = some r := by
  intro lit
  induction lit with
  | nil => intro r; cases r <;> rfl
  | cons l ls ih =>
    intro r
    show (if l = l then afterLiteral ls (ls ++ r) else none) = some r
    rw [if_pos rfl, ih]

theorem isCat_ne_dot (c : Char) (h : isCat c = true) : c ≠ '.' := by
  intro he
  rw [he] at h
  revert h
  decide

/-- The three rules on `_BEAMER_`, a category, `_` and a suffix. -/
theorem normalizeChars_beamer (cat s : List Char) (hne : cat ≠ [])
    (hcat : ∀ c ∈ cat, isCat c = true) (hdot : s.all isDot = true)
    (hrun : '_' ∉ s.takeWhile isCat)
    (hreload : ∀ p : List Char, beamerPrefix ++ cat ++ '_' :: s ≠ p ++ reloadToken) :
    normalizeChars (beamerPrefix ++ cat ++ '_' :: s) = beamerPrefix ++ cat ++ ['*'] := by
  have hpre : ∀ c ∈ beamerPrefix ++ cat ++ ['_'], c ≠ '.' := by
    intro c hc
    rcases List.mem_append.mp hc with hc | hc
    · rcases List.mem_append.mp hc with hc | hc
      · intro he
        rw [he] at hc
        revert hc
        decide
      · exact isCat_ne_dot c (hcat c hc)
    · rw [List.mem_singleton.mp hc]
      decide
  have hsplit : beamerPrefix ++ cat ++ '_' :: s = (beamerPrefix ++ cat ++ ['_']) ++ s := by
    simp
  have hD : replaceAll digitRegexAt true (beamerPrefix ++ cat ++ '_' :: s) =
      beamerPrefix ++ cat ++ '_' :: replaceAll digitRegexAt false s := by
    rw [hsplit, digit_skip_prefix _ hpre s true]
    simp
  -- what the digit rule leaves of the suffix
  have hs1 : (replaceAll digitRegexAt false s).all isDot = true ∧
      '_' ∉ (replaceAll digitRegexAt false s).takeWhile isCat ∧
      replaceAll nameRegexAt true (beamerPrefix ++ cat ++ '_' :: replaceAll digitRegexAt false s) =
        beamerPrefix ++ cat ++ '_' :: replaceAll digitRegexAt false s := by
    rcases digit_result s false with h | ⟨q, d, hs, h⟩
    · rw [h]
      exact ⟨hdot, hrun, name_fixed_of_no_suffix _ hreload true⟩
    · rw [h]
      refine ⟨?_, ?_, ?_⟩
      · rw [hs] at hdot
        simp only [List.all_append, List.all_cons, Bool.and_eq_true] at hdot ⊢
        exact ⟨hdot.1, by decide, by decide⟩
      · rw [hs, takeWhile_append_stop isCat '.' (by decide) q d ['*']] at hrun
        exact hrun
      · have : beamerPrefix ++ cat ++ '_' :: (q ++ ['.', '*']) =
            (beamerPrefix ++ cat ++ '_' :: (q ++ ['.'])) ++ ['*'] := by
          simp
        rw [this]
        exact name_fixed_of_last '*' (by decide) _ true
  obtain ⟨hdot1, hrun1, hN⟩ := hs1
  show replaceAll beamerRegexAt true (replaceAll nameRegexAt true
    (replaceAll digitRegexAt true (beamerPrefix ++ cat ++ '_' :: s))) = _
  rw [hD, hN]
  apply beamer_of_some
  unfold beamerRegexAt
  rw [if_pos rfl, List.append_assoc, afterLiteral_append]
  simp only
  rw [beamerCategory_of_run _ hdot1 hrun1 cat hne hcat]
  simp

/-- C14, counterexample: with the category `A` and the suffix `B_c` the name
`_BEAMER_A_B_c` normalizes to `_BEAMER_A_B*`, not to `_BEAMER_A*`, while the
suffix `x` gives `_BEAMER_A*`: the same category and two keys.  With the
suffix `reload` the result is `*_reload`, and a suffix that holds a newline
leaves the name as it is. -/
theorem normalizeCookieName_beamer_counterexample :
    normalizeCookieName ("_BEAMER_" ++ "A" ++ "_" ++ "B_c") = "_BEAMER_A_B*" ∧
    normalizeCookieName ("_BEAMER_" ++ "A" ++ "_" ++ "B_c") ≠ "_BEAMER_" ++ "A" ++ "*" ∧
    normalizeCookieName ("_BEAMER_" ++ "A" ++ "_" ++ "x") = "_BEAMER_" ++ "A" ++ "*" ∧
    normalizeCookieName ("_BEAMER_" ++ "A" ++ "_" ++ "reload") = "*_reload" ∧
    normalizeCookieName ("_BEAMER_" ++ "A" ++ "_" ++ "x\ny") = "_BEAMER_A_x\ny" := by
  decide

/-- C14, amended. For a non-empty category `cat` of characters `A-Z` and `_`
and a suffix `s` that holds no newline and whose leading run of characters
`A-Z` and `_` holds no `_`, when the name `"_BEAMER_" + cat + "_" + s` does
not end with `_reload`, it normalizes to `"_BEAMER_" + cat + "*"`; hence two
such names with the same category map to the same key. -/
theorem normalizeCookieName_beamer (cat s : String) (hne : cat ≠ "")
    (hcat : ∀ c ∈ cat.data, c.isUpper = true ∨ c = '_')
    (hnl : ∀ c ∈ s.data, c ≠ '\n')
    (hrun : '_' ∉ s.data.takeWhile isCat)
    (hreload : ∀ p : String, "_BEAMER_" ++ cat ++ "_" ++ s ≠ p ++ "_reload") :
    normalizeCookieName ("_BEAMER_" ++ cat ++ "_" ++ s) = "_BEAMER_" ++ cat ++ "*" ∧
    (∀ s2 : String, (∀ c ∈ s2.data, c ≠ '\n') → '_' ∉ s2.data.takeWhile isCat →
      (∀ p : String, "_BEAMER_" ++ cat ++ "_" ++ s2 ≠ p ++ "_reload") →
      normalizeCookieName ("_BEAMER_" ++ cat ++ "_" ++ s2) =
        normalizeCookieName ("_BEAMER_" ++ cat ++ "_" ++ s)) := by
  have hne1 : cat.data ≠ [] := fun he => hne (String.ext he)
  have hcat1 : ∀ c ∈ cat.data, isCat c = true := by
    intro c hc
    rcases hcat c hc with h | h
    · simp [isCat, h]
    · simp [isCat, h]
  have hdata : ∀ t : String, ("_BEAMER_" ++ cat ++ "_" ++ t).data =
      beamerPrefix ++ cat.data ++ '_' :: t.data := by
    intro t
    rw [String.data_append, String.data_append, String.data_append, List.append_assoc]
    rfl
  have hmain : ∀ t : String, (∀ c ∈ t.data, c ≠ '\n') → '_' ∉ t.data.takeWhile isCat →
      (∀ p : String, "_BEAMER_" ++ cat ++ "_" ++ t ≠ p ++ "_reload") →
      normalizeCookieName ("_BEAMER_" ++ cat ++ "_" ++ t) = "_BEAMER_" ++ cat ++ "*" := by
    intro t htnl htrun htreload
    have hdot : t.data.all isDot = true := by
      rw [List.all_eq_true]
      intro c hc
      simp [isDot, htnl c hc]
    have hrel : ∀ p : List Char, beamerPrefix ++ cat.data ++ '_' :: t.data ≠ p ++ reloadToken := by
      intro p hp
      apply htreload (String.mk p)
      apply String.ext
      rw [hdata t, String.data_append]
      exact hp
    apply String.ext
    rw [normalizeCookieName_data, hdata t,
      normalizeChars_beamer cat.data t.data hne1 hcat1 hdot htrun hrel,
      String.data_append, String.data_append]
    rfl
  refine ⟨hmain s hnl hrun hreload, ?_⟩
  intro s2 h1 h2 h3
  rw [hmain s2 h1 h2 h3, hmain s hnl hrun hreload]

/-- C14, at the category `USER_ID` and the suffixes `123` and `abc.7`. -/
theorem normalizeCookieName_beamer_witness :
    normalizeCookieName ("_BEAMER_" ++ "USER_ID" ++ "_" ++ "123") =
        "_BEAMER_" ++ "USER_ID" ++ "*" ∧
      normalizeCookieName ("_BEAMER_" ++ "USER_ID" ++ "_" ++ "123") = "_BEAMER_USER_ID*" ∧
      normalizeCookieName ("_BEAMER_" ++ "USER_ID" ++ "_" ++ "abc.7") = "_BEAMER_USER_ID*" :=
  ⟨(normalizeCookieName_beamer "USER_ID" "123" (by decide) (by decide) (by decide) (by decide)
      (fun p h => by
        have h1 : (p ++ "_reload").data.getLast? = some 'd' := by
          rw [String.data_append]
          simp
        rw [← h] at h1
        revert h1
        decide)).1,
    by decide, by decide⟩

/-! ## Ingress -/

/-- A call with at least one cookie appends the observation when the buffer
has room and leaves the buffer alone when it is full. -/
theorem cookieAnalyticsHandler_fst (queue : List ck) (o : ck)
    (ho : o.req ≠ [] ∨ o.resp ≠ []) :
    (cookieAnalyticsHandler queue o.req o.resp).1 =
      if queue.length < cookiesChanCap then queue ++ [o] else queue := by
  unfold cookieAnalyticsHandler
  have hne : ¬ (o.req.length = 0 ∧ o.resp.length = 0) := by
    rintro ⟨h1, h2⟩
    rcases ho with h | h
    · exact h (List.length_eq_zero.mp h1)
    · exact h (List.length_eq_zero.mp h2)
  rw [if_neg hne]
  by_cases hlt : queue.length < cookiesChanCap
  · rw [if_pos hlt, if_pos hlt]
  · rw [if_neg hlt, if_neg hlt]

/-- Submissions fill the room that the buffer has left, in order. -/
theorem submitAll_eq (obs : List ck) (hobs : ∀ o ∈ obs, o.req ≠ [] ∨ o.resp ≠ []) :
    ∀ queue : List ck, queue.length ≤ cookiesChanCap →
      submitAll queue obs = queue ++ obs.take (cookiesChanCap - queue.length) := by
  induction obs with
  | nil =>
    intro queue _
    simp [submitAll]
  | cons o rest ih =>
    intro queue hq
    have hstep : submitAll queue (o :: rest) =
        submitAll (cookieAnalyticsHandler queue o.req o.resp).1 rest := rfl
    have hrest : ∀ x ∈ rest, x.req ≠ [] ∨ x.resp ≠ [] :=
      fun x hx => hobs x (List.mem_cons_of_mem o hx)
    rw [hstep, cookieAnalyticsHandler_fst queue o (hobs o (List.mem_cons_self o rest))]
    by_cases hlt : queue.length < cookiesChanCap
    · rw [if_pos hlt, ih hrest (queue ++ [o]) (by rw [List.length_append]; simpa using hlt)]
      have hk : cookiesChanCap - queue.length = (cookiesChanCap - (queue ++ [o]).length) + 1 := by
        rw [List.length_append, List.length_singleton]
        omega
      rw [hk, List.take_succ_cons, List.append_assoc]
      rfl
    · rw [if_neg hlt, ih hrest queue hq]
      have hk : cookiesChanCap - queue.length = 0 := by omega
      rw [hk]
      rfl

/-- C12. Ingress under saturation: when `n` observations, each with at least
one cookie, are submitted through `cookieAnalyticsHandler` to the empty
queue while nothing drains it, the queue holds the first `min(n, 10000)` of
them in submission order; a submission to a full queue leaves the queue as
it is (and prints the warning when it carries a cookie); every call returns,
the function being total. -/
theorem cookieAnalyticsHandler_saturation (obs : List ck)
    (hobs : ∀ o ∈ obs, o.req ≠ [] ∨ o.resp ≠ []) :
    submitAll [] obs = obs.take 10000 ∧
    (submitAll [] obs).length = min obs.length 10000 ∧
    (∀ (queue : List ck) (req resp : List Cookie), queue.length = 10000 →
      (cookieAnalyticsHandler queue req resp).1 = queue ∧
      (req ≠ [] ∨ resp ≠ [] →
        (cookieAnalyticsHandler queue req resp).2 = some "Warning: dropping cookie metrics")) ∧
    (∀ (queue : List ck) (req resp : List Cookie), queue.length < 10000 →
      req ≠ [] ∨ resp ≠ [] →
      cookieAnalyticsHandler queue req resp = (queue ++ [⟨req, resp⟩], none)) := by
  have hmain : submitAll [] obs = obs.take 10000 := by
    rw [submitAll_eq obs hobs [] (Nat.zero_le _)]
    rfl
  refine ⟨hmain, ?_, ?_, ?_⟩
  · rw [hmain, List.length_take, Nat.min_comm]
  · intro queue req resp hfull
    have hnot : ¬ queue.length < cookiesChanCap := by
      rw [hfull]
      decide
    refine ⟨?_, ?_⟩
    · unfold cookieAnalyticsHandler
      by_cases he : req.length = 0 ∧ resp.length = 0
      · rw [if_pos he]
      · rw [if_neg he, if_neg hnot]
    · intro hne
      have he : ¬ (req.length = 0 ∧ resp.length = 0) := by
        rintro ⟨h1, h2⟩
        rcases hne with h | h
        · exact h (List.length_eq_zero.mp h1)
        · exact h (List.length_eq_zero.mp h2)
      unfold cookieAnalyticsHandler
      rw [if_neg he, if_neg hnot]
  · intro queue req resp hlt hne
    have he : ¬ (req.length = 0 ∧ resp.length = 0) := by
      rintro ⟨h1, h2⟩
      rcases hne with h | h
      · exact h (List.length_eq_zero.mp h1)
      · exact h (List.length_eq_zero.mp h2)
    unfold cookieAnalyticsHandler
    rw [if_neg he, if_pos (by show queue.length < 10000; exact hlt)]

/-- C12, at 10001 observations that each carry the request cookie `a=1`:
the queue retains 10000 of them, and a further submission to the full queue
leaves it as it is and prints the warning. -/
theorem cookieAnalyticsHandler_saturation_witness :
    (submitAll [] (List.replicate 10001 (ck.mk [⟨"a", "1"⟩] []))).length = 10000 ∧
    submitAll [] (List.replicate 10001 (ck.mk [⟨"a", "1"⟩] [])) =
      List.replicate 10000 (ck.mk [⟨"a", "1"⟩] []) ∧
    (cookieAnalyticsHandler (List.replicate 10000 (ck.mk [⟨"a", "1"⟩] []))
        [⟨"a", "1"⟩] []).1 = List.replicate 10000 (ck.mk [⟨"a", "1"⟩] []) ∧
    (cookieAnalyticsHandler (List.replicate 10000 (ck.mk [⟨"a", "1"⟩] []))
        [⟨"a", "1"⟩] []).2 = some "Warning: dropping cookie metrics" := by
  have hobs : ∀ o ∈ List.replicate 10001 (ck.mk [⟨"a", "1"⟩] []),
      o.req ≠ [] ∨ o.resp ≠ [] := by
    intro o ho
    rw [List.eq_of_mem_replicate ho]
    exact Or.inl (by decide)
  have t := cookieAnalyticsHandler_saturation (List.replicate 10001 (ck.mk [⟨"a", "1"⟩] []))
    hobs
  have hmin1 : min 10001 10000 = 10000 := by decide
  have hmin2 : min 10000 10001 = 10000 := by decide
  have hlen := t.2.1
  rw [List.length_replicate, hmin1] at hlen
  have htake := t.1
  rw [List.take_replicate, hmin2] at htake
  have hfull := t.2.2.1 (List.replicate 10000 (ck.mk [⟨"a", "1"⟩] [])) [⟨"a", "1"⟩] []
    (List.length_replicate _ _)
  exact ⟨hlen, htake, hfull.1, hfull.2 (Or.inl (by decide))⟩

/-! ## The aggregation loop and shutdown -/

/-- After the goroutine has returned no iteration changes the state. -/
theorem runLoop_returned (picks : List Pick) :
    ∀ l : Loop, l.returned = true → runLoop picks l = l := by
  induction picks with
  | nil => intro l _; rfl
  | cons p ps ih =>
    intro l hl
    have hstep : loopStep p l = l := by
      unfold loopStep
      rw [if_pos hl]
    show runLoop ps (loopStep p l) = l
    rw [hstep]
    exact ih l hl

/-- While the quit command is offered, the loop has applied one queued
observation for each iteration, oldest first, until it takes the command;
from then on nothing changes. -/
theorem runLoop_quit (picks : List Pick) :
    ∀ (st : Stats) (q : List ck),
      ∃ j, j ≤ q.length ∧
        (runLoop picks ⟨st, q, some .statsCmdQuit, false⟩).stats =
          (q.take j).foldl handleObservation st ∧
        (runLoop picks ⟨st, q, some .statsCmdQuit, false⟩).queue = q.drop j ∧
        ((runLoop picks ⟨st, q, some .statsCmdQuit, false⟩).returned = false →
          j = picks.length) := by
  induction picks with
  | nil =>
    intro st q
    exact ⟨0, Nat.zero_le _, rfl, rfl, fun _ => rfl⟩
  | cons p ps ih =>
    intro st q
    have hquit : ∀ q1 : List ck,
        runLoop ps ⟨st, q1, none, true⟩ = ⟨st, q1, none, true⟩ :=
      fun q1 => runLoop_returned ps _ rfl
    cases q with
    | nil =>
      have hstep : runLoop (p :: ps) ⟨st, [], some .statsCmdQuit, false⟩ =
          runLoop ps ⟨st, [], none, true⟩ := rfl
      rw [hstep, hquit]
      exact ⟨0, Nat.zero_le _, rfl, rfl, fun h => by cases h⟩
    | cons c rest =>
      cases p with
      | command =>
        have hstep : runLoop (Pick.command :: ps) ⟨st, c :: rest, some .statsCmdQuit, false⟩ =
            runLoop ps ⟨st, c :: rest, none, true⟩ := rfl
        rw [hstep, hquit]
        exact ⟨0, Nat.zero_le _, rfl, rfl, fun h => by cases h⟩
      | observation =>
        have hstep : runLoop (Pick.observation :: ps)
            ⟨st, c :: rest, some .statsCmdQuit, false⟩ =
            runLoop ps ⟨handleObservation st c, rest, some .statsCmdQuit, false⟩ := rfl
        rw [hstep]
        obtain ⟨j, hj, h1, h2, h3⟩ := ih (handleObservation st c) rest
        refine ⟨j + 1, by simpa using hj, ?_, ?_, ?_⟩
        · rw [h1]
          rfl
        · rw [h2]
          rfl
        · intro h
          rw [h3 h]
          rfl

/-- When the select takes the observation queue as long as it holds
something, the loop applies every queued observation and then returns. -/
theorem runLoop_drain (rest : List Pick) :
    ∀ (q : List ck) (st : Stats),
      runLoop (List.replicate q.length Pick.observation ++ Pick.command :: rest)
          ⟨st, q, some .statsCmdQuit, false⟩ =
        ⟨q.foldl handleObservation st, [], none, true⟩ := by
  intro q
  induction q with
  | nil =>
    intro st
    show runLoop rest ⟨st, [], none, true⟩ = _
    exact runLoop_returned rest _ rfl
  | cons c cs ih =>
    intro st
    show runLoop (List.replicate cs.length Pick.observation ++ Pick.command :: rest)
      ⟨handleObservation st c, cs, some .statsCmdQuit, false⟩ = _
    rw [ih (handleObservation st c)]
    rfl

/-- C15, counterexample: one observation with the request cookie `a=x` is
in the queue and the store is empty when `cookieAnalyticsFinish` is called;
on the schedule where the select takes the command, the call returns with
the store still empty and the observation still in the queue. -/
theorem cookieAnalyticsFinish_counterexample :
    cookieAnalyticsFinish [Pick.command]
        ⟨⟨[], [], [], []⟩, [⟨[⟨"a", "x"⟩], []⟩], none, false⟩ =
      some ⟨⟨[], [], [], []⟩, [⟨[⟨"a", "x"⟩], []⟩], none, true⟩ ∧
    handleObservation ⟨[], [], [], []⟩ ⟨[⟨"a", "x"⟩], []⟩ = ⟨[("a", [1])], [], [1], [1]⟩ ∧
    cookieAnalyticsFinish [Pick.observation, Pick.command]
        ⟨⟨[], [], [], []⟩, [⟨[⟨"a", "x"⟩], []⟩], none, false⟩ =
      some ⟨⟨[("a", [1])], [], [1], [1]⟩, [], none, true⟩ ∧
    ¬ ∀ (picks : List Pick) (l : Loop),
        cookieAnalyticsFinish picks
            ⟨⟨[], [], [], []⟩, [⟨[⟨"a", "x"⟩], []⟩], none, false⟩ = some l →
          l.stats = handleObservation ⟨[], [], [], []⟩ ⟨[⟨"a", "x"⟩], []⟩ := by
  refine ⟨by decide, by decide, by decide, ?_⟩
  intro h
  exact absurd (h [Pick.command] ⟨⟨[], [], [], []⟩, [⟨[⟨"a", "x"⟩], []⟩], none, true⟩
    (by decide)) (by decide)

/-- C15, amended. When `cookieAnalyticsFinish` is called with the
observations `obs` in the queue and returns, the store holds, applied in
order, the first `j` of them for some `j <= N`, and the other `N - j` are
still in the queue; the call returns on every schedule of more than `N`
iterations; all `N` are applied on the schedules where the select takes the
observation queue as long as it holds something, and so when the queue is
empty at the call. -/
theorem cookieAnalyticsFinish_prefix (st : Stats) (obs : List ck) (picks : List Pick) :
    (∀ l : Loop, cookieAnalyticsFinish picks ⟨st, obs, none, false⟩ = some l →
      ∃ j, j ≤ obs.length ∧ l.stats = (obs.take j).foldl handleObservation st ∧
        l.queue = obs.drop j) ∧
    (obs.length < picks.length →
      ∃ l, cookieAnalyticsFinish picks ⟨st, obs, none, false⟩ = some l) ∧
    cookieAnalyticsFinish (List.replicate obs.length Pick.observation ++ Pick.command :: picks)
        ⟨st, obs, none, false⟩ =
      some ⟨obs.foldl handleObservation st, [], none, true⟩ ∧
    (picks ≠ [] → cookieAnalyticsFinish picks ⟨st, [], none, false⟩ =
      some ⟨st, [], none, true⟩) := by
  obtain ⟨j, hj, h1, h2, h3⟩ := runLoop_quit picks st obs
  have hdef : ∀ (ps : List Pick) (q : List ck),
      cookieAnalyticsFinish ps ⟨st, q, none, false⟩ =
        if (runLoop ps ⟨st, q, some .statsCmdQuit, false⟩).returned = true then
          some (runLoop ps ⟨st, q, some .statsCmdQuit, false⟩)
        else none := fun _ _ => rfl
  refine ⟨?_, ?_, ?_, ?_⟩
  · intro l hl
    rw [hdef] at hl
    split_ifs at hl
    cases hl
    exact ⟨j, hj, h1, h2⟩
  · intro hlen
    have hret : (runLoop picks ⟨st, obs, some .statsCmdQuit, false⟩).returned = true := by
      cases hr : (runLoop picks ⟨st, obs, some .statsCmdQuit, false⟩).returned with
      | true => rfl
      | false =>
        have := h3 hr
        omega
    rw [hdef, if_pos hret]
    exact ⟨_, rfl⟩
  · rw [hdef, runLoop_drain picks obs st]
    rfl
  · intro hne
    cases picks with
    | nil => exact absurd rfl hne
    | cons p ps =>
      have hstep : runLoop (p :: ps) ⟨st, [], some .statsCmdQuit, false⟩ =
          runLoop ps ⟨st, [], none, true⟩ := rfl
      rw [hdef, hstep, runLoop_returned ps _ rfl]
      rfl

/-! ## Bucketizer: where each bar is counted -/

/-- The entries of `counts` after `counts[k] += c`. -/
theorem addAt_getElem? {cs cs1 : List Int} {k : Nat} {c : Int}
    (h : addAt cs k c = some cs1) (j : Nat) (v : Int) (hv : cs[j]? = some v) :
    cs1[j]? = some (if k = j then wrap64 (v + c) else v) := by
  unfold addAt at h
  split at h
  · rename_i w hw
    cases h
    rw [List.getElem?_set]
    by_cases hkj : k = j
    · subst hkj
      rw [hv] at hw
      cases hw
      have hlt : k < cs.length := by
        rcases Nat.lt_or_ge k cs.length with h | h
        · exact h
        · rw [List.getElem?_eq_none h] at hv
          cases hv
      rw [if_pos rfl, if_pos hlt, if_pos rfl]
    · rw [if_neg hkj, if_neg hkj, hv]
  · cases h

theorem dropLast_getElem? (bars : List Bar) (i : Nat) (hi : i < bars.length - 1) :
    bars.dropLast[i]? = bars[i]? := by
  rw [List.dropLast_eq_take, List.getElem?_take_of_lt hi]

/-- Total count of the bars of `bs` whose index is `k`. -/
theorem placed_append (marks : List Int) (bs : List Bar) (b : Bar) (k : Nat) :
    barTotal ((bs ++ [b]).filter (fun x => decide (specIdx marks x = k))) =
      barTotal (bs.filter (fun x => decide (specIdx marks x = k))) +
        (if specIdx marks b = k then b.Count else 0) := by
  unfold barTotal
  rw [List.filter_append, List.map_append, List.sum_append]
  by_cases hk : specIdx marks b = k
  · simp [List.filter, hk]
  · simp [List.filter, hk]

/-- The least index is the bucket cursor when the mark under the cursor is
the first one that is not below the value. -/
theorem specLeastIndex_eq (marks : List Int) (v : Int) (bi : Nat) (m : Int)
    (hm : marks[bi]? = some m) (hle : v ≤ m)
    (hlt : ∀ (j : Nat) (x : Int), j < bi → marks[j]? = some x → x < v) :
    specLeastIndex marks v = bi := by
  have hbi : bi < marks.length := by
    rcases Nat.lt_or_ge bi marks.length with h | h
    · exact h
    · rw [List.getElem?_eq_none h] at hm
      cases hm
  have hmb : marks[bi] = m := by
    rw [List.getElem?_eq_getElem hbi] at hm
    exact Option.some.inj hm
  unfold specLeastIndex
  rw [List.findIdx_eq hbi]
  refine ⟨by rw [hmb]; exact decide_eq_true hle, ?_⟩
  intro j hji
  have hj : j < marks.length := Nat.lt_trans hji hbi
  have := hlt j marks[j] hji (List.getElem?_eq_getElem hj)
  exact decide_eq_false (by omega)

/-- The invariant after the bar under the cursor has been consumed into
bucket `id`, where `id` is the index of the bar. -/
theorem placeInv_consume (bars : List Bar) (marks : List Int) (seed : Int) (s : Scan)
    (hsorted : bars.dropLast.Pairwise (fun a b => a.From ≤ b.From))
    (hs : PlaceInv bars marks seed s) (hi : s.i < bars.length - 1)
    (b : Bar) (hbar : bars[s.i]? = some b) (id : Nat) (hid : specIdx marks b = id)
    (cs1 : List Int) (hadd : addAt s.counts id b.Count = some cs1) :
    PlaceInv bars marks seed { s with i := s.i + 1, counts := cs1 } := by
  obtain ⟨hbi, hlen, hcounts, hbelow⟩ := hs
  have hd : bars.dropLast[s.i]? = some b := by
    rw [dropLast_getElem? bars s.i hi]
    exact hbar
  have htake : bars.dropLast.take (s.i + 1) = bars.dropLast.take s.i ++ [b] := by
    rw [List.take_succ, hd]
    rfl
  refine ⟨hbi, ?_, ?_, ?_⟩
  · show cs1.length = 11
    rw [addAt_length hadd]
    exact hlen
  · intro k hk
    show cs1[k]? = _
    rw [addAt_getElem? hadd k _ (hcounts k hk), htake, placed_append, hid]
    by_cases hik : id = k
    · rw [if_pos hik, if_pos hik, wrap64_add_left, add_assoc]
    · rw [if_neg hik, if_neg hik, add_zero]
  · intro b2 hb2 hi2 j x hj hx
    have hlt := hbelow b hbar hi j x hj hx
    have hd2 : bars.dropLast[s.i + 1]? = some b2 := by
      rw [dropLast_getElem? bars (s.i + 1) hi2]
      exact hb2
    have hl1 : s.i < bars.dropLast.length := by
      rw [List.length_dropLast]
      exact hi
    have hl2 : s.i + 1 < bars.dropLast.length := by
      rw [List.length_dropLast]
      exact hi2
    have hrel := (List.pairwise_iff_getElem.mp hsorted) s.i (s.i + 1) hl1 hl2 (Nat.lt_succ_self _)
    rw [List.getElem?_eq_getElem hl1] at hd
    rw [List.getElem?_eq_getElem hl2] at hd2
    rw [Option.some.inj hd, Option.some.inj hd2] at hrel
    omega

/-- One iteration keeps the invariant, for bars that do not end before they
start, are ordered by `From` and start at or before `max`. -/
theorem scanStep_place (bars : List Bar) (mn mx seed : Int) (s : Scan)
    (hft : ∀ b ∈ bars.dropLast, b.From ≤ b.To)
    (hsorted : bars.dropLast.Pairwise (fun a b => a.From ≤ b.From))
    (hpre : ∀ b ∈ bars.dropLast, b.From ≤ mx)
    (hs : PlaceInv bars (bucketMarks mn mx) seed s) (hi : s.i < bars.length - 1) :
    ∃ s1, scanStep bars (bucketMarks mn mx) s = some s1 ∧
      PlaceInv bars (bucketMarks mn mx) seed s1 := by
  have hs0 := hs
  obtain ⟨hbi, hlen, hcounts, hbelow⟩ := hs
  obtain ⟨b, hbar, hmem⟩ := mem_dropLast_of_lt bars s.i hi
  have hb := bucketMarks_length mn mx
  have hbi2 : s.bi < (bucketMarks mn mx).length := by omega
  have hm : (bucketMarks mn mx)[s.bi]? = some (bucketMarks mn mx)[s.bi] :=
    List.getElem?_eq_getElem hbi2
  have hlow := hbelow b hbar hi
  unfold scanStep
  rw [hbar, hm]
  simp only
  by_cases h1 : b.From ≥ (bucketMarks mn mx)[s.bi] ∧ b.To ≤ (bucketMarks mn mx)[s.bi]
  · rw [if_pos h1]
    have hfb := hft b hmem
    have hidx : specIdx (bucketMarks mn mx) b = s.bi := by
      unfold specIdx
      simp only
      rw [specLeastIndex_eq _ b.From s.bi _ hm (by omega) hlow, hm, if_pos]
      exact ⟨congrArg some (by omega), by omega⟩
    obtain ⟨cs1, hcs⟩ := addAt_some s.counts s.bi (by omega) b.Count
    rw [hcs]
    exact ⟨_, rfl, placeInv_consume bars _ seed s hsorted hs0 hi b hbar s.bi hidx cs1 hcs⟩
  · rw [if_neg h1]
    by_cases h2 : b.From ≤ (bucketMarks mn mx)[s.bi]
    · rw [if_pos h2]
      have hidc : (if (s.bi : Int) - 1 < 0 then 0 else s.bi - 1) = s.bi - 1 := by
        split_ifs <;> omega
      rw [hidc]
      have hidx : specIdx (bucketMarks mn mx) b = s.bi - 1 := by
        unfold specIdx
        simp only
        rw [specLeastIndex_eq _ b.From s.bi _ hm h2 hlow, hm, if_neg]
        rintro ⟨he, ht⟩
        have := Option.some.inj he
        exact h1 ⟨by omega, by omega⟩
      obtain ⟨cs1, hcs⟩ := addAt_some s.counts (s.bi - 1) (by omega) b.Count
      rw [hcs]
      exact ⟨_, rfl, placeInv_consume bars _ seed s hsorted hs0 hi b hbar (s.bi - 1) hidx cs1 hcs⟩
    · rw [if_neg h2]
      have hlt : s.bi < 10 := by
        rcases Nat.lt_or_ge s.bi 10 with h | h
        · exact h
        · exfalso
          have h10 : s.bi = 10 := by omega
          have hmx : (bucketMarks mn mx)[s.bi]? = some mx := by
            rw [h10]; exact bucketMarks_last mn mx
          rw [hm] at hmx
          have := Option.some.inj hmx
          rw [this] at h2
          exact h2 (hpre b hmem)
      have h3 : s.bi < (bucketMarks mn mx).length - 1 := by omega
      rw [if_pos h3]
      refine ⟨_, rfl, ?_, hlen, hcounts, ?_⟩
      · show s.bi + 1 ≤ 10
        omega
      · intro b2 hb2 _ j x hj hx
        have hb2e : b2 = b := by
          have hb3 : bars[s.i]? = some b2 := hb2
          rw [hbar] at hb3
          exact (Option.some.inj hb3).symm
        rw [hb2e]
        have hj2 : j < s.bi + 1 := hj
        rcases Nat.lt_or_ge j s.bi with hjl | hjg
        · exact hlow j x hjl hx
        · have hje : j = s.bi := by omega
          rw [hje, hm] at hx
          rw [← Option.some.inj hx]
          omega

/-- When the loop returns, entry `k` of `counts` is, in `int64` arithmetic,
its seed plus the counts of the bars other than the last whose index is
`k`. -/
theorem scanLoop_place (bars : List Bar) (mn mx seed : Int)
    (hft : ∀ b ∈ bars.dropLast, b.From ≤ b.To)
    (hsorted : bars.dropLast.Pairwise (fun a b => a.From ≤ b.From))
    (hpre : ∀ b ∈ bars.dropLast, b.From ≤ mx) :
    ∀ (fuel : Nat) (s : Scan) (cs : List Int), PlaceInv bars (bucketMarks mn mx) seed s →
      scanLoop bars (bucketMarks mn mx) fuel s = .ok cs →
      cs.length = 11 ∧ ∀ k : Nat, k ≤ 10 → cs[k]? =
        some (wrap64 ((if k = 10 then seed else 0) +
          barTotal (bars.dropLast.filter
            (fun x => decide (specIdx (bucketMarks mn mx) x = k))))) := by
  have hdone : ∀ (s : Scan) , PlaceInv bars (bucketMarks mn mx) seed s →
      ¬ s.i < bars.length - 1 →
      s.counts.length = 11 ∧ ∀ k : Nat, k ≤ 10 → s.counts[k]? =
        some (wrap64 ((if k = 10 then seed else 0) +
          barTotal (bars.dropLast.filter
            (fun x => decide (specIdx (bucketMarks mn mx) x = k))))) := by
    intro s hs hi
    obtain ⟨_, hlen, hcounts, _⟩ := hs
    refine ⟨hlen, ?_⟩
    intro k hk
    have htake : bars.dropLast.take s.i = bars.dropLast := by
      apply List.take_of_length_le
      rw [List.length_dropLast]
      omega
    rw [hcounts k hk, htake]
  intro fuel
  induction fuel with
  | zero =>
    intro s cs hs h
    unfold scanLoop at h
    split_ifs at h with hi
    cases h
    exact hdone s hs hi
  | succ n ih =>
    intro s cs hs h
    unfold scanLoop at h
    split_ifs at h with hi
    · obtain ⟨s1, h1, hinv⟩ := scanStep_place bars mn mx seed s hft hsorted hpre hs hi
      rw [h1] at h
      exact ih s1 cs hinv h
    · cases h
      exact hdone s hs hi

theorem placeInv_start (bars : List Bar) (marks : List Int) (seed : Int)
    (hs1 : minInt64 ≤ seed) (hs2 : seed ≤ maxInt64) :
    PlaceInv bars marks seed (scanStart seed) := by
  refine ⟨by simp [scanStart], by simp [scanStart], ?_, ?_⟩
  · intro k hk
    have hk2 : k = 10 ∨ k < 10 := by omega
    have hempty : ∀ j : Nat, barTotal ((bars.dropLast.take (scanStart seed).i).filter
        (fun x => decide (specIdx marks x = j))) = 0 := by
      intro j
      simp [scanStart, barTotal]
    rw [hempty k, add_zero]
    rcases hk2 with hk2 | hk2
    · subst hk2
      rw [if_pos rfl, wrap64_of_range seed hs1 hs2]
      simp [scanStart, List.replicate, List.set]
    · have hne : k ≠ 10 := by omega
      show ((List.replicate 11 (0 : Int)).set 10 seed)[k]? = _
      rw [List.getElem?_set, if_neg (by omega), if_neg hne]
      have hz : (List.replicate 11 (0 : Int))[k]? = some 0 := by
        rw [List.getElem?_replicate, if_pos (by omega)]
      rw [hz]
      rfl
  · intro b _ _ j x hj _
    exact absurd hj (Nat.not_lt_zero j)

/-- The counts of the bars picked by a test add up to at most the counts of
all bars, when no count is negative. -/
theorem barTotal_filter_le (bs : List Bar) (hc : ∀ b ∈ bs, 0 ≤ b.Count) (p : Bar → Bool) :
    0 ≤ barTotal (bs.filter p) ∧ barTotal (bs.filter p) ≤ barTotal bs := by
  induction bs with
  | nil => simp [barTotal]
  | cons x xs ih =>
    have hx := hc x (List.mem_cons_self x xs)
    obtain ⟨h1, h2⟩ := ih (fun b hb => hc b (List.mem_cons_of_mem x hb))
    have hcons : barTotal (x :: xs) = x.Count + barTotal xs := by
      simp [barTotal]
    cases hp : p x with
    | true =>
      have hf : barTotal ((x :: xs).filter p) = x.Count + barTotal (xs.filter p) := by
        simp [barTotal, List.filter, hp]
      rw [hf, hcons]
      omega
    | false =>
      have hf : barTotal ((x :: xs).filter p) = barTotal (xs.filter p) := by
        simp [List.filter, hp]
      rw [hf, hcons]
      omega

theorem map_Count_zipWith (ms : List Int) (cs : List Int) (h : ms.length = cs.length) :
    (List.zipWith Bucket.mk ms cs).map Bucket.Count = cs := by
  induction ms generalizing cs with
  | nil =>
    cases cs with
    | nil => rfl
    | cons c cs => simp at h
  | cons m ms ih =>
    cases cs with
    | nil => simp at h
    | cons c cs =>
      simp only [List.length_cons, Nat.succ.injEq, add_left_inj] at h
      simp [List.zipWith, ih cs h]

/-- For `int64` values `mn <= mx` whose difference fits in `int64` a mark at
a smaller index is not above a mark at a larger index. -/
theorem bucketMarks_mono (mn mx : Int) (h : mn ≤ mx) (hmn : minInt64 ≤ mn)
    (hmx : mx ≤ maxInt64) (hfit : mx - mn ≤ maxInt64) (i j : Nat) (x y : Int) (hij : i ≤ j)
    (hx : (bucketMarks mn mx)[i]? = some x) (hy : (bucketMarks mn mx)[j]? = some y) :
    x ≤ y := by
  rcases Nat.lt_or_ge i j with hlt | hge
  · have hpw : (bucketMarks mn mx).Pairwise (fun a b => a ≤ b) := by
      obtain ⟨h0, h1, h2⟩ := bucketStep_bounds mn mx h
      rw [bucketMarks_eq _ _ hmn hmx h hfit]
      simp only [List.pairwise_cons, List.mem_cons, List.mem_singleton, forall_eq_or_imp,
        forall_eq, List.not_mem_nil, false_implies, implies_true, List.Pairwise.nil, and_true]
      omega
    have hj : j < (bucketMarks mn mx).length := by
      rcases Nat.lt_or_ge j (bucketMarks mn mx).length with h | h
      · exact h
      · rw [List.getElem?_eq_none h] at hy
        cases hy
    have hi : i < (bucketMarks mn mx).length := Nat.lt_trans hlt hj
    have hrel := (List.pairwise_iff_getElem.mp hpw) i j hi hj hlt
    rw [List.getElem?_eq_getElem hi] at hx
    rw [List.getElem?_eq_getElem hj] at hy
    rw [← Option.some.inj hx, ← Option.some.inj hy]
    exact hrel
  · have hije : i = j := by omega
    rw [hije, hy] at hx
    rw [Option.some.inj hx]

/-- C17, counterexample: with `globalMin = 0` and `globalMax = 5` the marks
at indices 0 to 9 are all 0; the bar `[0,3]` starts exactly on the mark at
index 2 and ends after it starts, and its count 7 is in bucket 0 of the
result, not in bucket 1.  And with the bars `[0,1]` of count `2^63 - 1`,
`[0,2]` of count 1 and `[100,100]` of count 4, `globalMin = 0`,
`globalMax = 100`, the `int64` count of bucket 0 wraps around to `-2^63`,
while the counts of the bars with index 0 add up to `2^63`. -/
theorem getHistogramBuckets_placement_counterexample :
    (bucketMarks 0 5)[2]? = some 0 ∧
    getHistogramBuckets 12 [⟨0, 3, 7⟩, ⟨5, 5, 1⟩] 0 5 =
      .ok [⟨0, 7⟩, ⟨0, 0⟩, ⟨0, 0⟩, ⟨0, 0⟩, ⟨0, 0⟩, ⟨0, 0⟩, ⟨0, 0⟩, ⟨0, 0⟩, ⟨0, 0⟩, ⟨0, 0⟩,
        ⟨5, 1⟩] ∧
    specIdx (bucketMarks 0 5) ⟨0, 3, 7⟩ = 0 ∧
    specIdx (bucketMarks 0 5) ⟨0, 3, 7⟩ ≠ 2 - 1 ∧
    getHistogramBuckets 12
        [⟨0, 1, 9223372036854775807⟩, ⟨0, 2, 1⟩, ⟨100, 100, 4⟩] 0 100 =
      .ok [⟨0, -9223372036854775808⟩, ⟨10, 0⟩, ⟨20, 0⟩, ⟨30, 0⟩, ⟨40, 0⟩, ⟨50, 0⟩, ⟨60, 0⟩,
        ⟨70, 0⟩, ⟨80, 0⟩, ⟨90, 0⟩, ⟨100, 4⟩] ∧
    specCount (bucketMarks 0 100)
        [⟨0, 1, 9223372036854775807⟩, ⟨0, 2, 1⟩, ⟨100, 100, 4⟩] 0 =
      9223372036854775808 := by
  decide

/-- C17, amended. For `int64` values `globalMin <= globalMax` whose
difference fits in `int64` and a non-empty bar sequence with non-negative
counts whose total is at most `maxInt64`, in which each bar has
`From <= To`, the bars other than the last are ordered by non-decreasing
`From` and each of them has `From <= globalMax`, the call returns, and the
count of returned bucket `k` is the sum of the counts of the bars other than
the last whose index `idx(b)` is `k`, plus the count of the last bar when
`k = 10`.  A bar whose `From` lies strictly between the marks at `k` and
`k + 1` has index `k`; a bar that starts exactly on the mark at `k >= 1`
with `To > From` has index `k - 1` provided the mark at `k - 1` is below the
mark at `k`. -/
theorem getHistogramBuckets_placement (bars : List Bar) (globalMin globalMax : Int)
    (hne : bars ≠ []) (hle : globalMin ≤ globalMax)
    (hmn : minInt64 ≤ globalMin) (hmx : globalMax ≤ maxInt64)
    (hfit : globalMax - globalMin ≤ maxInt64)
    (hc : ∀ b ∈ bars, 0 ≤ b.Count) (hT : barTotal bars ≤ maxInt64)
    (hft : ∀ b ∈ bars, b.From ≤ b.To)
    (hsorted : bars.dropLast.Pairwise (fun a b => a.From ≤ b.From))
    (hpre : ∀ b ∈ bars.dropLast, b.From ≤ globalMax) :
    (∃ r, getHistogramBuckets (bars.length + 10) bars globalMin globalMax = .ok r) ∧
    (∀ (fuel : Nat) (r : List Bucket),
      getHistogramBuckets fuel bars globalMin globalMax = .ok r →
      r.length = 11 ∧
      ∀ k : Nat, k ≤ 10 →
        (r.map Bucket.Count)[k]? =
          some (specCount (bucketMarks globalMin globalMax) bars k)) ∧
    (∀ (b : Bar) (k : Nat) (lo hi : Int),
      (bucketMarks globalMin globalMax)[k]? = some lo →
      (bucketMarks globalMin globalMax)[k + 1]? = some hi →
      lo < b.From → b.From < hi →
      specIdx (bucketMarks globalMin globalMax) b = k) ∧
    (∀ (b : Bar) (k : Nat) (lo : Int), 1 ≤ k →
      (bucketMarks globalMin globalMax)[k - 1]? = some lo →
      (bucketMarks globalMin globalMax)[k]? = some b.From →
      lo < b.From → b.From < b.To →
      specIdx (bucketMarks globalMin globalMax) b = k - 1) := by
  obtain ⟨last, hlast⟩ : ∃ last, bars.getLast? = some last :=
    ⟨bars.getLast hne, List.getLast?_eq_getLast bars hne⟩
  have hft2 : ∀ b ∈ bars.dropLast, b.From ≤ b.To :=
    fun b hb => hft b (List.mem_of_mem_dropLast hb)
  have hc2 : ∀ b ∈ bars.dropLast, 0 ≤ b.Count :=
    fun b hb => hc b (List.mem_of_mem_dropLast hb)
  have hl0 : 0 ≤ last.Count := hc last (List.mem_of_getLast?_eq_some hlast)
  have htot : barTotal bars = last.Count + barTotal bars.dropLast := by
    rw [barTotal_getLast bars last hlast]
    rfl
  have hd0 : 0 ≤ barTotal bars.dropLast := by
    have := (barTotal_filter_le bars.dropLast hc2 (fun _ => true)).1
    rw [List.filter_true] at this
    exact this
  refine ⟨?_, ?_, ?_, ?_⟩
  · obtain ⟨cs, hcs⟩ := scanLoop_returns bars globalMin globalMax hpre
      (bars.length + 10) _ (scanStart_inv last.Count) (by simp only [scanStart]; omega)
    refine ⟨List.zipWith Bucket.mk (bucketMarks globalMin globalMax) cs, ?_⟩
    unfold getHistogramBuckets
    simp only [hlast, hcs]
  · intro fuel r h
    refine ⟨(getHistogramBuckets_total fuel bars globalMin globalMax r h).1, ?_⟩
    unfold getHistogramBuckets at h
    simp only [hlast] at h
    cases hloop : scanLoop bars (bucketMarks globalMin globalMax) fuel
        (scanStart last.Count) with
    | ok cs =>
      rw [hloop] at h
      cases h
      obtain ⟨hl, hk⟩ := scanLoop_place bars globalMin globalMax last.Count hft2 hsorted hpre
        fuel _ cs
        (placeInv_start bars _ last.Count (by unfold minInt64; omega) (by omega)) hloop
      intro k hk10
      obtain ⟨hf0, hf1⟩ := barTotal_filter_le bars.dropLast hc2
        (fun x => decide (specIdx (bucketMarks globalMin globalMax) x = k))
      have hseed : 0 ≤ (if k = 10 then last.Count else 0) ∧
          (if k = 10 then last.Count else 0) ≤ last.Count := by
        split_ifs <;> omega
      rw [map_Count_zipWith _ _ (by rw [bucketMarks_length, hl]), hk k hk10,
        wrap64_of_range _ (by unfold minInt64; omega) (by omega)]
      unfold specCount
      rw [hlast, add_comm]
    | panic => rw [hloop] at h; cases h
    | fuelOut => rw [hloop] at h; cases h
  · intro b k lo hi hlo hhi h1 h2
    have hleast : specLeastIndex (bucketMarks globalMin globalMax) b.From = k + 1 := by
      apply specLeastIndex_eq _ _ _ hi hhi (by omega)
      intro j x hj hx
      have := bucketMarks_mono globalMin globalMax hle hmn hmx hfit j k x lo (by omega) hx hlo
      omega
    unfold specIdx
    simp only
    rw [hleast, hhi, if_neg]
    · rfl
    · rintro ⟨he, _⟩
      have := Option.some.inj he
      omega
  · intro b k lo hk hlo hmark h1 h2
    have hleast : specLeastIndex (bucketMarks globalMin globalMax) b.From = k := by
      apply specLeastIndex_eq _ _ _ b.From hmark (le_refl _)
      intro j x hj hx
      have := bucketMarks_mono globalMin globalMax hle hmn hmx hfit j (k - 1) x lo
        (by omega) hx hlo
      omega
    unfold specIdx
    simp only
    rw [hleast, if_neg]
    rintro ⟨_, ht⟩
    omega

/-- C17, at the bars `[0,10]` with count 5, `[12,15]` with count 2 and
`[10,20]` with count 3, `globalMin = 0`, `globalMax = 20`: the marks are
0, 2, ..., 20; the first bar is in bucket 0 and the second, which starts on
the mark 12 at index 6, is in bucket 5. -/
theorem getHistogramBuckets_placement_witness :
    getHistogramBuckets 13 [⟨0, 10, 5⟩, ⟨12, 15, 2⟩, ⟨10, 20, 3⟩] 0 20 =
        .ok [⟨0, 5⟩, ⟨2, 0⟩, ⟨4, 0⟩, ⟨6, 0⟩, ⟨8, 0⟩, ⟨10, 2⟩, ⟨12, 0⟩, ⟨14, 0⟩, ⟨16, 0⟩,
          ⟨18, 0⟩, ⟨20, 3⟩] ∧
      specCount (bucketMarks 0 20) [⟨0, 10, 5⟩, ⟨12, 15, 2⟩, ⟨10, 20, 3⟩] 5 = 2 ∧
      ∃ r, getHistogramBuckets 13 [⟨0, 10, 5⟩, ⟨12, 15, 2⟩, ⟨10, 20, 3⟩] 0 20 = .ok r :=
  ⟨by decide, by decide,
    (getHistogramBuckets_placement [⟨0, 10, 5⟩, ⟨12, 15, 2⟩, ⟨10, 20, 3⟩] 0 20 (by decide)
      (by decide) (by decide) (by decide) (by decide) (by decide) (by decide) (by decide)
      (by decide) (by decide)).1⟩

end CookieStats
